import Mathlib

/-!
Verification development for the micropython-msgpack codec
(peterhinch/micropython-msgpack).

The development shallowly embeds the MessagePack encoder (src/umsgpack/mp_dump.py),
the buffered decoder (src/umsgpack/mp_load.py), the streaming decoder
(src/umsgpack/as_load.py, whose logic is shared verbatim by
src/umsgpack/as_loader.py), and the extension registry
(src/umsgpack/__init__.py, ext_serializable).

Modelling conventions:
* bytes are natural numbers (a physical byte satisfies b < 256; where a
  property needs this, it is an explicit hypothesis);
* machine-level packing (struct.pack / struct.unpack) is big-endian byte
  arithmetic on Nat / Int with explicit two's complement;
* Python float objects are embedded as their IEEE-754 bit patterns; the
  exact rational value of a pattern is computed with integer arithmetic, so
  Python numeric equality (==) across int / bool / float is modelled exactly,
  including NaN inequality and +0.0 == -0.0;
* fallible code returns Except; each Python exception class has an error
  constructor;
* the recursive-descent decoders take a fuel argument (Err.fuel when
  exhausted); fuel is consumed once per nesting level, so any fuel larger
  than the value's structural size is enough.
-/

set_option maxRecDepth 16000

/-- Decoded Python values, as produced by the two decoders and consumed by the
encoder.  str carries the UTF-8 encoding of the text (Python str and valid
UTF-8 byte sequences are in bijection); f32 / f64 carry IEEE-754 bit patterns;
list / tup model Python list / tuple; map / omap model dict / OrderedDict as
insertion-ordered association lists; ext models an Ext instance
(umsgpack/__init__.py); extCoro models the un-awaited _unpack_ext coroutine
object that as_load._unpack returns for extension tags (the await is missing
in the source at as_load.py lines 210 and 214), remembering the tag byte the
coroutine was created for. -/
inductive MVal where
  | nil : MVal
  | bool (b : Bool) : MVal
  | int (n : Int) : MVal
  | f32 (w : Nat) : MVal
  | f64 (w : Nat) : MVal
  | str (bs : List Nat) : MVal
  | bin (bs : List Nat) : MVal
  | list (xs : List MVal) : MVal
  | tup (xs : List MVal) : MVal
  | map (kvs : List (MVal × MVal)) : MVal
  | omap (kvs : List (MVal × MVal)) : MVal
  | ext (t : Int) (d : List Nat) : MVal
  | extCoro (tag : Nat) : MVal

mutual

/-- Structural (object-identity-style) equality test on embedded values,
used only to furnish decidable equality for the embedding; Python's ==
semantics is the separate pyEq below. -/
def mvalBeq : MVal → MVal → Bool
  | MVal.nil, MVal.nil => true
  | MVal.bool a, MVal.bool b => a = b
  | MVal.int a, MVal.int b => a = b
  | MVal.f32 a, MVal.f32 b => a = b
  | MVal.f64 a, MVal.f64 b => a = b
  | MVal.str a, MVal.str b => a = b
  | MVal.bin a, MVal.bin b => a = b
  | MVal.list a, MVal.list b => mvalBeqList a b
  | MVal.tup a, MVal.tup b => mvalBeqList a b
  | MVal.map a, MVal.map b => mvalBeqKVs a b
  | MVal.omap a, MVal.omap b => mvalBeqKVs a b
  | MVal.ext t d, MVal.ext t' d' => t = t' && d = d'
  | MVal.extCoro a, MVal.extCoro b => a = b
  | _, _ => false

/-- Pointwise structural equality on element lists. -/
def mvalBeqList : List MVal → List MVal → Bool
  | [], [] => true
  | x :: xs, y :: ys => mvalBeq x y && mvalBeqList xs ys
  | _, _ => false

/-- Pointwise structural equality on key-value lists. -/
def mvalBeqKVs : List (MVal × MVal) → List (MVal × MVal) → Bool
  | [], [] => true
  | (k, v) :: t, (k', v') :: t' => mvalBeq k k' && mvalBeq v v' && mvalBeqKVs t t'
  | _, _ => false

end

mutual

/-- Structural equality is reflexive. -/
def mvalBeq_refl : ∀ a, mvalBeq a a = true
  | MVal.nil => rfl
  | MVal.bool _ => by simp [mvalBeq]
  | MVal.int _ => by simp [mvalBeq]
  | MVal.f32 _ => by simp [mvalBeq]
  | MVal.f64 _ => by simp [mvalBeq]
  | MVal.str _ => by simp [mvalBeq]
  | MVal.bin _ => by simp [mvalBeq]
  | MVal.list xs => by simp [mvalBeq, mvalBeqList_refl xs]
  | MVal.tup xs => by simp [mvalBeq, mvalBeqList_refl xs]
  | MVal.map kv => by simp [mvalBeq, mvalBeqKVs_refl kv]
  | MVal.omap kv => by simp [mvalBeq, mvalBeqKVs_refl kv]
  | MVal.ext _ _ => by simp [mvalBeq]
  | MVal.extCoro _ => by simp [mvalBeq]

/-- Pointwise structural equality is reflexive on lists. -/
def mvalBeqList_refl : ∀ xs, mvalBeqList xs xs = true
  | [] => rfl
  | x :: xs => by simp [mvalBeqList, mvalBeq_refl x, mvalBeqList_refl xs]

/-- Pointwise structural equality is reflexive on key-value lists. -/
def mvalBeqKVs_refl : ∀ kv, mvalBeqKVs kv kv = true
  | [] => rfl
  | (k, v) :: t => by simp [mvalBeqKVs, mvalBeq_refl k, mvalBeq_refl v, mvalBeqKVs_refl t]

end

mutual

/-- Structural equality is sound: it only accepts equal values. -/
def mvalBeq_sound : ∀ a b, mvalBeq a b = true → a = b
  | MVal.nil, b => by cases b <;> simp [mvalBeq]
  | MVal.bool _, b => by cases b <;> simp [mvalBeq]
  | MVal.int _, b => by cases b <;> simp [mvalBeq]
  | MVal.f32 _, b => by cases b <;> simp [mvalBeq]
  | MVal.f64 _, b => by cases b <;> simp [mvalBeq]
  | MVal.str _, b => by cases b <;> simp [mvalBeq]
  | MVal.bin _, b => by cases b <;> simp [mvalBeq]
  | MVal.list xs, b => by
    cases b <;> simp [mvalBeq]
    exact fun h => mvalBeqList_sound xs _ h
  | MVal.tup xs, b => by
    cases b <;> simp [mvalBeq]
    exact fun h => mvalBeqList_sound xs _ h
  | MVal.map kv, b => by
    cases b <;> simp [mvalBeq]
    exact fun h => mvalBeqKVs_sound kv _ h
  | MVal.omap kv, b => by
    cases b <;> simp [mvalBeq]
    exact fun h => mvalBeqKVs_sound kv _ h
  | MVal.ext _ _, b => by cases b <;> simp [mvalBeq]
  | MVal.extCoro _, b => by cases b <;> simp [mvalBeq]

/-- Pointwise structural equality is sound on lists. -/
def mvalBeqList_sound : ∀ xs ys, mvalBeqList xs ys = true → xs = ys
  | [], ys => by cases ys <;> simp [mvalBeqList]
  | x :: xs, ys => by
    cases ys with
    | nil => simp [mvalBeqList]
    | cons y ys =>
      simp only [mvalBeqList, Bool.and_eq_true, List.cons.injEq]
      exact fun ⟨h1, h2⟩ => ⟨mvalBeq_sound x y h1, mvalBeqList_sound xs ys h2⟩

/-- Pointwise structural equality is sound on key-value lists. -/
def mvalBeqKVs_sound : ∀ t t', mvalBeqKVs t t' = true → t = t'
  | [], t' => by cases t' <;> simp [mvalBeqKVs]
  | (k, v) :: t, t' => by
    cases t' with
    | nil => simp [mvalBeqKVs]
    | cons p t' =>
      obtain ⟨k', v'⟩ := p
      simp only [mvalBeqKVs, Bool.and_eq_true, List.cons.injEq, Prod.mk.injEq]
      exact fun ⟨⟨h1, h2⟩, h3⟩ =>
        ⟨⟨mvalBeq_sound k k' h1, mvalBeq_sound v v' h2⟩, mvalBeqKVs_sound t t' h3⟩

end

instance : DecidableEq MVal := fun a b =>
  if h : mvalBeq a b = true then Decidable.isTrue (mvalBeq_sound a b h)
  else Decidable.isFalse (fun he => h (he ▸ mvalBeq_refl a))

deriving instance DecidableEq for Except

/-- Unpack-side error outcomes.  insufficientData is mp_load's
InsufficientDataException; incompleteRead is the end-of-stream error that
asyncio's StreamReader.readexactly raises inside the streaming driver (the
streaming sources never raise InsufficientDataException themselves);
unsupportedType carries the extension type code it names; logicError is the
Exception raised by the debug helper _fail; structError models struct.error
from an invalid format string; fuel is the artificial out-of-fuel outcome of
the embedding. -/
inductive Err where
  | insufficientData : Err
  | incompleteRead : Err
  | invalidString : Err
  | reservedCode : Err
  | unhashableKey : Err
  | duplicateKey : Err
  | unsupportedType (c : Int) : Err
  | notImplemented : Err
  | logicError : Err
  | structError : Err
  | fuel : Err
  deriving DecidableEq, Repr

/-- Pack-side error outcomes (mp_dump).  unsupportedType is
UnsupportedTypeException; valueError is the ValueError raised for an invalid
float precision; floatUnmodeled marks the one spot the embedding does not
model: IEEE-754 narrowing (packing a double-pattern float at single
precision) and widening (packing a single-pattern float at double
precision), which no claim depends on. -/
inductive PErr where
  | unsupportedType : PErr
  | valueError : PErr
  | floatUnmodeled : PErr
  deriving DecidableEq, Repr

/-- Float precision selector, as the strings "single" / "double" used by
mp_dump._pack_float. -/
inductive FloatPrec where
  | single : FloatPrec
  | double : FloatPrec
  deriving DecidableEq, Repr

/-- Modelled from the spec: the module constant float_precision is computed by
platform detection code in the package __init__ that is not among the source
files (only mp_dump.py's use of it is); per spec section 4.1 the default is
double when the platform float has at least 13 significant decimal digits,
which holds on the platforms the tests run on. -/
def float_precision : FloatPrec := FloatPrec.double

/-- Call options, the kwargs dict threaded through dump / load.
ext_handlers is the call-scoped code-to-handler override map consulted only
by the streaming decoder (as_load._unpack_ext); a handler receives the Ext
object, modelled as its type code and payload. -/
structure Options where
  use_tuple : Bool
  use_ordered_dict : Bool
  allow_invalid_utf8 : Bool
  force_float_precision : Option FloatPrec
  ext_handlers : Int → Option (Int → List Nat → MVal)

/-- Options with every kwarg absent (an empty options dict). -/
def defaultOpts : Options :=
  ⟨false, false, false, none, fun _ => none⟩

/-- Big-endian bytes of v, w bytes wide (the layout struct.pack produces for
the unsigned formats B, >H, >I, >Q; the signed formats write the two's
complement, supplied by the callers). -/
def beBytes : Nat → Nat → List Nat
  | 0, _ => []
  | w + 1, v => (v >>> (8 * w)) % 256 :: beBytes w v

/-- Big-endian value of a byte list (what struct.unpack computes for the
unsigned formats). -/
def beVal (bs : List Nat) : Nat :=
  bs.foldl (fun acc b => acc * 256 + b) 0

/-- Two's complement reading of a w-byte unsigned value (struct.unpack's
signed formats b, >h, >i, >q). -/
def toSigned (w : Nat) (v : Nat) : Int :=
  if v < 2 ^ (8 * w - 1) then (v : Int) else (v : Int) - 2 ^ (8 * w)

/-- Strict UTF-8 validity, as decided by Python's str(data, "utf-8"):
surrogates and overlong encodings rejected, four-byte sequences capped at
U+10FFFF. -/
def utf8Valid : List Nat → Bool
  | [] => true
  | b :: t =>
    if b ≤ 0x7F then utf8Valid t
    else if 0xC2 ≤ b ∧ b ≤ 0xDF then
      match t with
      | c1 :: t' => (0x80 ≤ c1 && c1 ≤ 0xBF) && utf8Valid t'
      | [] => false
    else if b = 0xE0 then
      match t with
      | c1 :: c2 :: t' => (0xA0 ≤ c1 && c1 ≤ 0xBF) && (0x80 ≤ c2 && c2 ≤ 0xBF) && utf8Valid t'
      | _ => false
    else if (0xE1 ≤ b ∧ b ≤ 0xEC) ∨ b = 0xEE ∨ b = 0xEF then
      match t with
      | c1 :: c2 :: t' => (0x80 ≤ c1 && c1 ≤ 0xBF) && (0x80 ≤ c2 && c2 ≤ 0xBF) && utf8Valid t'
      | _ => false
    else if b = 0xED then
      match t with
      | c1 :: c2 :: t' => (0x80 ≤ c1 && c1 ≤ 0x9F) && (0x80 ≤ c2 && c2 ≤ 0xBF) && utf8Valid t'
      | _ => false
    else if b = 0xF0 then
      match t with
      | c1 :: c2 :: c3 :: t' =>
        (0x90 ≤ c1 && c1 ≤ 0xBF) && (0x80 ≤ c2 && c2 ≤ 0xBF) && (0x80 ≤ c3 && c3 ≤ 0xBF)
          && utf8Valid t'
      | _ => false
    else if 0xF1 ≤ b ∧ b ≤ 0xF3 then
      match t with
      | c1 :: c2 :: c3 :: t' =>
        (0x80 ≤ c1 && c1 ≤ 0xBF) && (0x80 ≤ c2 && c2 ≤ 0xBF) && (0x80 ≤ c3 && c3 ≤ 0xBF)
          && utf8Valid t'
      | _ => false
    else if b = 0xF4 then
      match t with
      | c1 :: c2 :: c3 :: t' =>
        (0x80 ≤ c1 && c1 ≤ 0x8F) && (0x80 ≤ c2 && c2 ≤ 0xBF) && (0x80 ≤ c3 && c3 ≤ 0xBF)
          && utf8Valid t'
      | _ => false
    else false

/-- Exact value of an IEEE-754 bit pattern: a dyadic rational num / 2 ^ den,
an infinity, or NaN. -/
inductive FVal where
  | rat (num : Int) (den : Nat) : FVal
  | inf (neg : Bool) : FVal
  | nan : FVal
  deriving DecidableEq

/-- Exact value of a float bit pattern with the given exponent-field width,
mantissa-field width and exponent bias (11 / 52 / 1023 for binary64,
8 / 23 / 127 for binary32).  Integer arithmetic only. -/
def fvalOfBits (ebits mbits bias : Nat) (w : Nat) : FVal :=
  let frac := w % 2 ^ mbits
  let e := (w >>> mbits) % 2 ^ ebits
  let neg := (w >>> (mbits + ebits)) % 2 = 1
  let sign : Int := if neg then -1 else 1
  if e = 2 ^ ebits - 1 then
    if frac = 0 then FVal.inf neg else FVal.nan
  else if e = 0 then
    FVal.rat (sign * frac) (mbits + bias - 1)
  else
    let m : Nat := 2 ^ mbits + frac
    let shift := mbits + bias
    if e ≥ shift then FVal.rat (sign * (m * 2 ^ (e - shift))) 0
    else FVal.rat (sign * m) (shift - e)

/-- Exact value of a binary64 pattern. -/
def fval64 (w : Nat) : FVal := fvalOfBits 11 52 1023 w

/-- Exact value of a binary32 pattern (the Python float that struct.unpack
of a big-endian single yields has exactly this value, every single being
exactly representable as a double). -/
def fval32 (w : Nat) : FVal := fvalOfBits 8 23 127 w

/-- Equality of exact float values, as Python == compares the underlying
reals: NaN equals nothing (not even itself), +0.0 equals -0.0, rationals
compare by cross multiplication. -/
def fvalEq : FVal → FVal → Bool
  | FVal.rat n1 d1, FVal.rat n2 d2 => n1 * 2 ^ d2 = n2 * 2 ^ d1
  | FVal.inf s1, FVal.inf s2 => s1 = s2
  | _, _ => false

/-- Numeric reading of a value: Python treats bool, int and float as one
numeric tower for == (True == 1 == 1.0). -/
def numVal : MVal → Option FVal
  | MVal.bool b => some (FVal.rat (if b then 1 else 0) 0)
  | MVal.int n => some (FVal.rat n 0)
  | MVal.f32 w => some (fval32 w)
  | MVal.f64 w => some (fval64 w)
  | _ => none

mutual

/-- Python == on embedded values.  Numeric values compare through their exact
values (numVal); str / bin / ext compare componentwise; distinct coroutine
objects are never equal, and the decoders never compare a coroutine with
itself, so extCoro compares false.  Containers compare pointwise in order;
for dict this is an over-approximation of Python's order-insensitive dict
equality, but the decoders apply pyEq only to already-hashed map keys, which
contain no dict or list, so the approximation is never observed by the
embedded code. -/
def pyEq : MVal → MVal → Bool
  | a, b =>
    match numVal a, numVal b with
    | some x, some y => fvalEq x y
    | _, _ =>
      match a, b with
      | MVal.nil, MVal.nil => true
      | MVal.str s1, MVal.str s2 => s1 = s2
      | MVal.bin s1, MVal.bin s2 => s1 = s2
      | MVal.ext t1 d1, MVal.ext t2 d2 => t1 = t2 && d1 = d2
      | MVal.list x1, MVal.list x2 => pyEqList x1 x2
      | MVal.tup x1, MVal.tup x2 => pyEqList x1 x2
      | MVal.map k1, MVal.map k2 => pyEqKVs k1 k2
      | MVal.omap k1, MVal.omap k2 => pyEqKVs k1 k2
      | _, _ => false

/-- Pointwise Python == on element lists. -/
def pyEqList : List MVal → List MVal → Bool
  | [], [] => true
  | x :: xs, y :: ys => pyEq x y && pyEqList xs ys
  | _, _ => false

/-- Pointwise Python == on key-value lists. -/
def pyEqKVs : List (MVal × MVal) → List (MVal × MVal) → Bool
  | [], [] => true
  | (k1, v1) :: t1, (k2, v2) :: t2 => pyEq k1 k2 && pyEq v1 v2 && pyEqKVs t1 t2
  | _, _ => false

end

mutual

/-- Canonical conversion applied to decoded map keys
(mp_load._deep_list_to_tuple, identical in as_load and as_loader): a list
becomes a tuple, recursively; anything else, including an existing tuple, is
returned unchanged. -/
def deep_list_to_tuple : MVal → MVal
  | MVal.list xs => MVal.tup (deepListToTupleList xs)
  | v => v

/-- Elementwise list-to-tuple conversion. -/
def deepListToTupleList : List MVal → List MVal
  | [] => []
  | x :: xs => deep_list_to_tuple x :: deepListToTupleList xs

end

mutual

/-- Whether hash(v) succeeds in Python: dict, OrderedDict and list are
unhashable; a tuple hashes exactly when all its elements do; every other
embedded value (including Ext, whose class defines a hash, and coroutine
objects) is hashable. -/
def isHashable : MVal → Bool
  | MVal.list _ => false
  | MVal.map _ => false
  | MVal.omap _ => false
  | MVal.tup xs => isHashableList xs
  | _ => true

/-- Conjunction of isHashable over a list. -/
def isHashableList : List MVal → Bool
  | [] => true
  | x :: xs => isHashable x && isHashableList xs

end

/-!
Encoder: embedding of src/umsgpack/mp_dump.py.  Each _pack_* function
returns the bytes it would write to the sink, in write order.  The builtins
and custom registries live in the package __init__ and are populated only
when an extension module (mpk_*.py) is imported; this embedding models the
module-initial state, in which both are empty, so mpdump's builtin-extension
scan falls through and the custom-class last-chance lookup fails.
-/

/-- Embedding of mp_dump._pack_integer: single-byte forms for 7-bit positive
and 5-bit negative values, then ascending 8/16/32/64-bit signed or unsigned
forms, failing on magnitudes outside 64-bit range.  struct.pack's signed
formats write the two's complement, here the euclidean remainder by the width. -/
def pack_integer (obj : Int) : Except PErr (List Nat) :=
  if obj < 0 then
    if obj ≥ -32 then .ok [(obj % 256).toNat]
    else if obj ≥ -(2 ^ 7) then .ok (0xD0 :: beBytes 1 (obj % 2 ^ 8).toNat)
    else if obj ≥ -(2 ^ 15) then .ok (0xD1 :: beBytes 2 (obj % 2 ^ 16).toNat)
    else if obj ≥ -(2 ^ 31) then .ok (0xD2 :: beBytes 4 (obj % 2 ^ 32).toNat)
    else if obj ≥ -(2 ^ 63) then .ok (0xD3 :: beBytes 8 (obj % 2 ^ 64).toNat)
    else .error PErr.unsupportedType
  else
    if obj < 128 then .ok [obj.toNat]
    else if obj < 2 ^ 8 then .ok (0xCC :: beBytes 1 obj.toNat)
    else if obj < 2 ^ 16 then .ok (0xCD :: beBytes 2 obj.toNat)
    else if obj < 2 ^ 32 then .ok (0xCE :: beBytes 4 obj.toNat)
    else if obj < 2 ^ 64 then .ok (0xCF :: beBytes 8 obj.toNat)
    else .error PErr.unsupportedType

/-- Embedding of mp_dump._pack_boolean. -/
def pack_boolean (obj : Bool) : List Nat :=
  if obj then [0xC3] else [0xC2]

/-- Embedding of mp_dump._pack_float.  The float value is a bit pattern, so
only the cases needing no IEEE-754 conversion are modelled: a double-pattern
at double precision and a single-pattern at single precision (this second
case is exact because struct.pack of a Python float that is a widened single
narrows back to the same single).  The remaining combinations would need
rounding / widening, which no claim exercises; they yield floatUnmodeled.
The ValueError branch for an invalid precision string is unrepresentable in
the typed FloatPrec embedding. -/
def pack_float (options : Options) (v : MVal) : Except PErr (List Nat) :=
  match options.force_float_precision.getD float_precision, v with
  | FloatPrec.double, MVal.f64 w => .ok (0xCB :: beBytes 8 w)
  | FloatPrec.single, MVal.f32 w => .ok (0xCA :: beBytes 4 w)
  | _, _ => .error PErr.floatUnmodeled

/-- Embedding of mp_dump._pack_string.  The argument is the UTF-8 encoding
of the Python str (bytes(obj, "utf-8")).  For a length below 32 the tag is
0xA0 | len, written here as 0xA0 + len (the low five bits of 0xA0 are
zero). -/
def pack_string (bs : List Nat) : Except PErr (List Nat) :=
  let obj_len := bs.length
  if obj_len < 32 then .ok ((0xA0 + obj_len) :: bs)
  else if obj_len < 2 ^ 8 then .ok (0xD9 :: beBytes 1 obj_len ++ bs)
  else if obj_len < 2 ^ 16 then .ok (0xDA :: beBytes 2 obj_len ++ bs)
  else if obj_len < 2 ^ 32 then .ok (0xDB :: beBytes 4 obj_len ++ bs)
  else .error PErr.unsupportedType

/-- Embedding of mp_dump._pack_binary. -/
def pack_binary (bs : List Nat) : Except PErr (List Nat) :=
  let obj_len := bs.length
  if obj_len < 2 ^ 8 then .ok (0xC4 :: beBytes 1 obj_len ++ bs)
  else if obj_len < 2 ^ 16 then .ok (0xC5 :: beBytes 2 obj_len ++ bs)
  else if obj_len < 2 ^ 32 then .ok (0xC6 :: beBytes 4 obj_len ++ bs)
  else .error PErr.unsupportedType

/-- Fixed-size extension tag table of mp_dump._pack_ext (the tb bytes
argument, indexed by payload length, zero meaning no fixed form). -/
def extFixTag (n : Nat) : Nat :=
  if n = 1 then 0xD4
  else if n = 2 then 0xD5
  else if n = 4 then 0xD6
  else if n = 8 then 0xD7
  else if n = 16 then 0xD8
  else 0

/-- Embedding of mp_dump._pack_ext: header (fixed tag, or length-prefixed
0xC7/0xC8/0xC9 form), type byte (otype & 0xFF), then the raw payload. -/
def pack_ext (otype : Int) (odata : List Nat) : Except PErr (List Nat) :=
  let obj_len := odata.length
  let ot := (otype % 256).toNat
  let code := if obj_len ≤ 16 then extFixTag obj_len else 0
  if code ≠ 0 then .ok (code :: ot :: odata)
  else if obj_len < 2 ^ 8 then .ok (0xC7 :: obj_len :: ot :: odata)
  else if obj_len < 2 ^ 16 then .ok (0xC8 :: beBytes 2 obj_len ++ ot :: odata)
  else if obj_len < 2 ^ 32 then .ok (0xC9 :: beBytes 4 obj_len ++ ot :: odata)
  else .error PErr.unsupportedType

/-- Array header of mp_dump._pack_array: fixed form 0x90 | len only for
lengths strictly below 16 (0x90 + len, the low nibble of 0x90 being zero),
then 16- and 32-bit length prefixes. -/
def array_header (n : Nat) : Except PErr (List Nat) :=
  if n < 16 then .ok [0x90 + n]
  else if n < 2 ^ 16 then .ok (0xDC :: beBytes 2 n)
  else if n < 2 ^ 32 then .ok (0xDD :: beBytes 4 n)
  else .error PErr.unsupportedType

/-- Map header of mp_dump._pack_map: fixed form 0x80 | len for lengths below
16, then 16- and 32-bit length prefixes. -/
def map_header (n : Nat) : Except PErr (List Nat) :=
  if n < 16 then .ok [0x80 + n]
  else if n < 2 ^ 16 then .ok (0xDE :: beBytes 2 n)
  else if n < 2 ^ 32 then .ok (0xDF :: beBytes 4 n)
  else .error PErr.unsupportedType

mutual

/-- Embedding of mp_dump.mpdump with the module-initial (empty) builtins and
custom registries: None, then the native type cases in source order (bool
before int, since Python bool subclasses int); an Ext instance or a
coroutine object matches no native case and no registered custom class, so
it falls to _utype and fails with UnsupportedTypeException. -/
def mpdump (options : Options) : MVal → Except PErr (List Nat)
  | MVal.nil => .ok [0xC0]
  | MVal.bool b => .ok (pack_boolean b)
  | MVal.int n => pack_integer n
  | MVal.f32 w => pack_float options (MVal.f32 w)
  | MVal.f64 w => pack_float options (MVal.f64 w)
  | MVal.str bs => pack_string bs
  | MVal.bin bs => pack_binary bs
  | MVal.list xs =>
    match array_header xs.length, mpdumpList options xs with
    | .ok h, .ok body => .ok (h ++ body)
    | .error e, _ => .error e
    | _, .error e => .error e
  | MVal.tup xs =>
    match array_header xs.length, mpdumpList options xs with
    | .ok h, .ok body => .ok (h ++ body)
    | .error e, _ => .error e
    | _, .error e => .error e
  | MVal.map kvs =>
    match map_header kvs.length, mpdumpKVs options kvs with
    | .ok h, .ok body => .ok (h ++ body)
    | .error e, _ => .error e
    | _, .error e => .error e
  | MVal.omap kvs =>
    match map_header kvs.length, mpdumpKVs options kvs with
    | .ok h, .ok body => .ok (h ++ body)
    | .error e, _ => .error e
    | _, .error e => .error e
  | MVal.ext _ _ => .error PErr.unsupportedType
  | MVal.extCoro _ => .error PErr.unsupportedType

/-- Elementwise encoding of an array body, in traversal order. -/
def mpdumpList (options : Options) : List MVal → Except PErr (List Nat)
  | [] => .ok []
  | x :: xs =>
    match mpdump options x, mpdumpList options xs with
    | .ok b, .ok rest => .ok (b ++ rest)
    | .error e, _ => .error e
    | _, .error e => .error e

/-- Key-then-value encoding of a map body, in container iteration
(insertion) order. -/
def mpdumpKVs (options : Options) : List (MVal × MVal) → Except PErr (List Nat)
  | [] => .ok []
  | (k, v) :: t =>
    match mpdump options k, mpdump options v, mpdumpKVs options t with
    | .ok bk, .ok bv, .ok rest => .ok (bk ++ bv ++ rest)
    | .error e, _, _ => .error e
    | _, .error e, _ => .error e
    | _, _, .error e => .error e

end

/-- Embedding of the dumps API entry point with an empty options dict. -/
def dumps (v : MVal) : Except PErr (List Nat) :=
  mpdump defaultOpts v

/-- Integer encoding as worded by the claim: a single byte for 0 <= n <= 127
and for -32 <= n <= -1; failure exactly when n >= 2^64 or n < -(2^63);
otherwise the smallest fitting unsigned form (tags 0xCC/0xCD/0xCE/0xCF) for
non-negative n or the smallest fitting signed form (tags 0xD0/0xD1/0xD2/0xD3)
for negative n, with big-endian payloads.  This definition follows the
specification text and is compared against pack_integer. -/
def specIntBytes (n : Int) : Except PErr (List Nat) :=
  if 0 ≤ n ∧ n ≤ 127 then .ok [n.toNat]
  else if -32 ≤ n ∧ n ≤ -1 then .ok [(n + 256).toNat]
  else if 2 ^ 64 ≤ n ∨ n < -(2 ^ 63) then .error PErr.unsupportedType
  else if 0 ≤ n then
    if n < 2 ^ 8 then .ok (0xCC :: beBytes 1 n.toNat)
    else if n < 2 ^ 16 then .ok (0xCD :: beBytes 2 n.toNat)
    else if n < 2 ^ 32 then .ok (0xCE :: beBytes 4 n.toNat)
    else .ok (0xCF :: beBytes 8 n.toNat)
  else
    if -(2 ^ 7) ≤ n then .ok (0xD0 :: beBytes 1 (n % 2 ^ 8).toNat)
    else if -(2 ^ 15) ≤ n then .ok (0xD1 :: beBytes 2 (n % 2 ^ 16).toNat)
    else if -(2 ^ 31) ≤ n then .ok (0xD2 :: beBytes 4 (n % 2 ^ 32).toNat)
    else .ok (0xD3 :: beBytes 8 (n % 2 ^ 64).toNat)

/-!
Buffered decoder: embedding of src/umsgpack/mp_load.py.  The byte source is
the flat remaining-bytes list; byte acquisition is take-or-fail, which is
what _read_except computes over any compliant source (theorem
read_except_eq_readN below proves this for the chunked-source embedding of
_read_except).  The debug helper _fail, which raises a bare Exception, is
the Err.logicError outcome.
-/

/-- Decoder result: a decoded value and the unconsumed remainder of the
source. -/
abbrev MpRes := Except Err (MVal × List Nat)

/-- Recursive reference to the top-level decoder, passed to the container
helpers the way mp_load's module-level functions call back into mpload. -/
abbrev MpRec := List Nat → MpRes

/-- The packers registry of the package __init__ (code to registered
ext_serializable class): a registered class is its unpackb class method,
taking the raw payload and the options dict.  The registry is empty at
module initialisation and is populated by importing mpk_* extension
modules, so it is a parameter here.  A class lacking unpackb
(NotImplementedError) is not representable: a registered entry always has
its unpack operation. -/
abbrev Packers := Int → Option (List Nat → Options → MVal)

/-- The empty (module-initial) packers registry. -/
def noPackers : Packers := fun _ => none

/-- Take-or-fail byte acquisition on the flat source: exactly the result of
mp_load._read_except over a compliant byte source (theorem
read_except_eq_readN). -/
def readN (n : Nat) (bs : List Nat) : Except Err (List Nat × List Nat) :=
  if n ≤ bs.length then .ok (bs.take n, bs.drop n) else .error Err.insufficientData

/-- Signedness and width for code - 0xCC, from the sliced format string
"B >H>I>Qb >h>i>q" of _unpack_integer: entries 0-3 are the unsigned formats
B, >H, >I, >Q, entries 4-7 the signed b, >h, >i, >q; the width equals
1 << (ic & 3) for every in-range ic.  Out-of-range indices yield an empty
or invalid format and hence struct.error (the IndexError fallback to _fail
cannot fire in Python: string slicing clamps instead of raising). -/
def intFmt (ic : Nat) : Option (Bool × Nat) :=
  if ic = 0 then some (false, 1)
  else if ic = 1 then some (false, 2)
  else if ic = 2 then some (false, 4)
  else if ic = 3 then some (false, 8)
  else if ic = 4 then some (true, 1)
  else if ic = 5 then some (true, 2)
  else if ic = 6 then some (true, 4)
  else if ic = 7 then some (true, 8)
  else none

/-- Embedding of mp_load._unpack_integer: 5-bit negative and 7-bit positive
single-byte forms, then the table-driven 8/16/32/64-bit unsigned and signed
forms for codes 0xCC-0xD3. -/
def unpack_integer (code : Nat) (bs : List Nat) : MpRes :=
  if code &&& 0xE0 = 0xE0 then .ok (MVal.int (toSigned 1 code), bs)
  else if code &&& 0x80 = 0 then .ok (MVal.int code, bs)
  else
    match intFmt (code - 0xCC) with
    | none => .error Err.structError
    | some (signed, w) =>
      match readN w bs with
      | .error e => .error e
      | .ok (data, rest) =>
        .ok (MVal.int (if signed then toSigned w (beVal data) else beVal data), rest)

/-- Embedding of mp_load._unpack_float: 0xCA reads a big-endian single
pattern, 0xCB a double pattern; any other code is the unreachable _fail. -/
def unpack_float (code : Nat) (bs : List Nat) : MpRes :=
  if code = 0xCA then
    match readN 4 bs with
    | .error e => .error e
    | .ok (data, rest) => .ok (MVal.f32 (beVal data), rest)
  else if code = 0xCB then
    match readN 8 bs with
    | .error e => .error e
    | .ok (data, rest) => .ok (MVal.f64 (beVal data), rest)
  else .error Err.logicError

/-- Length field of a string tag: fixstr length from the tag's low five bits
(ic & ~0xE0), else an 8/16/32-bit big-endian length prefix. -/
def string_length (code : Nat) (bs : List Nat) : Except Err (Nat × List Nat) :=
  if code &&& 0xE0 = 0xA0 then .ok (code &&& 0x1F, bs)
  else if code = 0xD9 then
    match readN 1 bs with
    | .error e => .error e
    | .ok (data, rest) => .ok (beVal data, rest)
  else if code = 0xDA then
    match readN 2 bs with
    | .error e => .error e
    | .ok (data, rest) => .ok (beVal data, rest)
  else if code = 0xDB then
    match readN 4 bs with
    | .error e => .error e
    | .ok (data, rest) => .ok (beVal data, rest)
  else .error Err.logicError

/-- Embedding of mp_load._unpack_string: read the length, read the payload,
decode as UTF-8; on invalid UTF-8 either return the raw bytes
(allow_invalid_utf8) or fail with InvalidStringException. -/
def unpack_string (options : Options) (code : Nat) (bs : List Nat) : MpRes :=
  match string_length code bs with
  | .error e => .error e
  | .ok (length, bs1) =>
    match readN length bs1 with
    | .error e => .error e
    | .ok (data, rest) =>
      if utf8Valid data then .ok (MVal.str data, rest)
      else if options.allow_invalid_utf8 then .ok (MVal.bin data, rest)
      else .error Err.invalidString

/-- Embedding of mp_load._unpack_binary: 8/16/32-bit length prefix, then the
raw payload. -/
def unpack_binary (code : Nat) (bs : List Nat) : MpRes :=
  if code = 0xC4 then
    match readN 1 bs with
    | .error e => .error e
    | .ok (ld, bs1) =>
      match readN (beVal ld) bs1 with
      | .error e => .error e
      | .ok (data, rest) => .ok (MVal.bin data, rest)
  else if code = 0xC5 then
    match readN 2 bs with
    | .error e => .error e
    | .ok (ld, bs1) =>
      match readN (beVal ld) bs1 with
      | .error e => .error e
      | .ok (data, rest) => .ok (MVal.bin data, rest)
  else if code = 0xC6 then
    match readN 4 bs with
    | .error e => .error e
    | .ok (ld, bs1) =>
      match readN (beVal ld) bs1 with
      | .error e => .error e
      | .ok (data, rest) => .ok (MVal.bin data, rest)
  else .error Err.logicError

/-- Payload length of an extension tag: the find over the fixext tag bytes
0xD4-0xD8 gives lengths 1/2/4/8/16, else an 8/16/32-bit length prefix is
read for 0xC7/0xC8/0xC9. -/
def ext_length (code : Nat) (bs : List Nat) : Except Err (Nat × List Nat) :=
  let n : Int :=
    if code = 0xD4 then 0
    else if code = 0xD5 then 1
    else if code = 0xD6 then 2
    else if code = 0xD7 then 3
    else if code = 0xD8 then 4
    else -1
  if 0 ≤ n then .ok (1 <<< n.toNat, bs)
  else if code = 0xC7 then
    match readN 1 bs with
    | .error e => .error e
    | .ok (data, rest) => .ok (beVal data, rest)
  else if code = 0xC8 then
    match readN 2 bs with
    | .error e => .error e
    | .ok (data, rest) => .ok (beVal data, rest)
  else if code = 0xC9 then
    match readN 4 bs with
    | .error e => .error e
    | .ok (data, rest) => .ok (beVal data, rest)
  else .error Err.logicError

/-- Embedding of mp_load._unpack_ext: length, then the signed type byte,
then the payload; a type registered in packers is unpacked by its class
(unpackb(ext_data, options)), otherwise the decode fails with
UnsupportedTypeException naming the code. -/
def unpack_ext (pk : Packers) (options : Options) (code : Nat) (bs : List Nat) : MpRes :=
  match ext_length code bs with
  | .error e => .error e
  | .ok (length, bs1) =>
    match readN 1 bs1 with
    | .error e => .error e
    | .ok (tb, bs2) =>
      let ext_type := toSigned 1 (beVal tb)
      match readN length bs2 with
      | .error e => .error e
      | .ok (ext_data, rest) =>
        match pk ext_type with
        | some cls => .ok (cls ext_data options, rest)
        | none => .error (Err.unsupportedType ext_type)

/-- Length field of an array tag: fixarray length from the low nibble
(ic & ~0xF0), else a 16/32-bit length prefix. -/
def array_length (code : Nat) (bs : List Nat) : Except Err (Nat × List Nat) :=
  if code &&& 0xF0 = 0x90 then .ok (code &&& 0x0F, bs)
  else if code = 0xDC then
    match readN 2 bs with
    | .error e => .error e
    | .ok (data, rest) => .ok (beVal data, rest)
  else if code = 0xDD then
    match readN 4 bs with
    | .error e => .error e
    | .ok (data, rest) => .ok (beVal data, rest)
  else .error Err.logicError

/-- Element loop of mp_load._unpack_array: decode count elements in order
through the recursive reference. -/
def unpack_array_go (rec : MpRec) : Nat → List MVal → List Nat →
    Except Err (List MVal × List Nat)
  | 0, acc, bs => .ok (acc, bs)
  | count + 1, acc, bs =>
    match rec bs with
    | .error e => .error e
    | .ok (v, bs') => unpack_array_go rec count (acc ++ [v]) bs'

/-- Embedding of mp_load._unpack_array: read the length, decode that many
elements, and deliver a tuple under use_tuple, else a list. -/
def unpack_array (rec : MpRec) (options : Options) (code : Nat) (bs : List Nat) : MpRes :=
  match array_length code bs with
  | .error e => .error e
  | .ok (length, bs1) =>
    match unpack_array_go rec length [] bs1 with
    | .error e => .error e
    | .ok (xs, rest) => .ok (if options.use_tuple then MVal.tup xs else MVal.list xs, rest)

/-- Length field of a map tag: fixmap length from the low nibble, else a
16/32-bit length prefix. -/
def map_length (code : Nat) (bs : List Nat) : Except Err (Nat × List Nat) :=
  if code &&& 0xF0 = 0x80 then .ok (code &&& 0x0F, bs)
  else if code = 0xDE then
    match readN 2 bs with
    | .error e => .error e
    | .ok (data, rest) => .ok (beVal data, rest)
  else if code = 0xDF then
    match readN 4 bs with
    | .error e => .error e
    | .ok (data, rest) => .ok (beVal data, rest)
  else .error Err.logicError

/-- Entry loop of mp_load._unpack_map: decode a key; a key that decoded to a
list is converted to a tuple (deep_list_to_tuple is the identity on
non-lists, exactly matching the guarded call in the source); then hash(k)
is attempted (UnhashableKeyException on failure) and membership in the map
built so far is tested with Python == (DuplicateKeyException on a hit);
only then is the value decoded and the pair stored.  The d[k] = v
assignment cannot raise once hash(k) succeeded, so the second
UnhashableKeyException site is unreachable. -/
def unpack_map_go (rec : MpRec) : Nat → List (MVal × MVal) → List Nat →
    Except Err (List (MVal × MVal) × List Nat)
  | 0, d, bs => .ok (d, bs)
  | count + 1, d, bs =>
    match rec bs with
    | .error e => .error e
    | .ok (k0, bs1) =>
      let k := deep_list_to_tuple k0
      if isHashable k = false then .error Err.unhashableKey
      else if d.any (fun p => pyEq k p.1) then .error Err.duplicateKey
      else
        match rec bs1 with
        | .error e => .error e
        | .ok (v, bs2) => unpack_map_go rec count (d ++ [(k, v)]) bs2

/-- Embedding of mp_load._unpack_map: read the length, run the entry loop
into a dict (OrderedDict under use_ordered_dict). -/
def unpack_map (rec : MpRec) (options : Options) (code : Nat) (bs : List Nat) : MpRes :=
  match map_length code bs with
  | .error e => .error e
  | .ok (length, bs1) =>
    match unpack_map_go rec length [] bs1 with
    | .error e => .error e
    | .ok (d, rest) =>
      .ok (if options.use_ordered_dict then MVal.omap d else MVal.map d, rest)

/-- Embedding of mp_load.mpload: read one tag byte and dispatch over its
range, exactly following the source's comparison chain; (None, 0, False,
True)[ic - 0xC0] is the indexed-tuple branch for 0xC0/0xC2/0xC3.  Fuel
bounds the recursion depth. -/
def mpload (pk : Packers) (options : Options) : Nat → List Nat → MpRes
  | 0, _ => .error Err.fuel
  | fuel + 1, bs =>
    match bs with
    | [] => .error Err.insufficientData
    | ic :: bs =>
      if ic ≤ 0x7F ∨ (0xCC ≤ ic ∧ ic ≤ 0xD3) ∨ (0xE0 ≤ ic ∧ ic ≤ 0xFF) then
        unpack_integer ic bs
      else if ic ≤ 0xC9 then
        if ic ≤ 0xC3 then
          if ic ≤ 0x8F then unpack_map (mpload pk options fuel) options ic bs
          else if ic ≤ 0x9F then unpack_array (mpload pk options fuel) options ic bs
          else if ic ≤ 0xBF then unpack_string options ic bs
          else if ic = 0xC1 then .error Err.reservedCode
          else
            .ok ((if ic - 0xC0 = 0 then MVal.nil
                  else if ic - 0xC0 = 1 then MVal.int 0
                  else if ic - 0xC0 = 2 then MVal.bool false
                  else MVal.bool true), bs)
        else if ic ≤ 0xC6 then unpack_binary ic bs
        else unpack_ext pk options ic bs
      else if ic ≤ 0xCB then unpack_float ic bs
      else if ic ≤ 0xD8 then unpack_ext pk options ic bs
      else if ic ≤ 0xDB then unpack_string options ic bs
      else if ic ≤ 0xDD then unpack_array (mpload pk options fuel) options ic bs
      else unpack_map (mpload pk options fuel) options ic bs

/-!
Byte acquisition of the buffered driver: embedding of
mp_load._read_except over a chunked source.  A source is the underlying
byte list together with a chunking oracle g: the i-th read call, asked for
k bytes, returns the next min (g i k) k (available) bytes — a compliant
read never returns more than asked nor more than the source holds, and a
read returning zero bytes is the end-of-data signal the source gives.
-/

/-- One fp.read(k) call against the chunked source: the oracle chooses the
chunk size, clamped to the request and to the bytes available. -/
def readCall (g : Nat → Nat → Nat) (i : Nat) (k : Nat) (bs : List Nat) :
    List Nat × List Nat :=
  let s := min (min (g i k) k) bs.length
  (bs.take s, bs.drop s)

/-- Accumulation loop of mp_load._read_except: while fewer than n bytes are
held, read the shortfall; a zero-byte read while short raises
InsufficientDataException.  The source's first read (before the while loop
in the source) is exactly the first iteration of this loop from an empty
accumulator: a read of n bytes whose zero-length outcome raises. -/
def read_except_go (g : Nat → Nat → Nat) (i n : Nat) (acc bs : List Nat) :
    Except Err (List Nat × List Nat) :=
  if h : acc.length < n then
    let c := (readCall g i (n - acc.length) bs).1
    if hc : c.length = 0 then .error Err.insufficientData
    else read_except_go g (i + 1) n (acc ++ c) (readCall g i (n - acc.length) bs).2
  else .ok (acc, bs)
termination_by n - acc.length
decreasing_by
  simp only [List.length_append]
  have hc2 : ((readCall g i (n - acc.length) bs).1).length ≠ 0 := hc
  omega

/-- Embedding of mp_load._read_except: zero requests return the empty bytes
without touching the source; otherwise reads are looped until n bytes are
accumulated or a read returns zero bytes. -/
def read_except (g : Nat → Nat → Nat) (n : Nat) (bs : List Nat) :
    Except Err (List Nat × List Nat) :=
  if n = 0 then .ok ([], bs) else read_except_go g 0 n [] bs

/-!
Streaming decoder: embedding of src/umsgpack/as_load.py (the aloader class
of as_loader.py runs the identical logic with options held in attributes).
The StreamReader is modelled by the flat list of bytes it will deliver;
readexactly(n) waits until n bytes are available, so chunk boundaries are
invisible to the decoder, and it raises the stream's end-of-data error
(IncompleteReadError / EOFError, Err.incompleteRead here) when the stream
ends short.  Every read goes through _re, which also reports the exact
bytes just read to the observer, if one is configured; the third result
component is the list of those per-read chunks in call order (the trace is
collected unconditionally, the observer merely receives it).
-/

/-- Streaming decoder result: decoded value, unconsumed stream, and the
per-read observer chunk trace. -/
abbrev AsRes := Except Err (MVal × List Nat × List (List Nat))

/-- Recursive reference to the streaming top-level decoder. -/
abbrev AsRec := List Nat → List (List Nat) → AsRes

/-- The global ext_type_to_class registry of the package __init__, consulted
by as_load._unpack_ext: a registered class is its unpackb static method,
taking only the raw payload (unlike the buffered registry it receives no
options).  Empty at module initialisation. -/
abbrev ExtClasses := Int → Option (List Nat → MVal)

/-- The empty (module-initial) ext_type_to_class registry. -/
def noExtClasses : ExtClasses := fun _ => none

/-- Embedding of as_load._re: readexactly(n) followed by the observer
update with exactly the bytes just read (a zero-length read also reports a
zero-length chunk). -/
def as_re (n : Nat) (bs : List Nat) (tr : List (List Nat)) :
    Except Err (List Nat × List Nat × List (List Nat)) :=
  if n ≤ bs.length then .ok (bs.take n, bs.drop n, tr ++ [bs.take n])
  else .error Err.incompleteRead

/-- Embedding of as_load._unpack_integer (same table-driven logic as the
buffered decoder; single-byte forms perform no read, so no observer
update). -/
def as_unpack_integer (code : Nat) (bs : List Nat) (tr : List (List Nat)) : AsRes :=
  if code &&& 0xE0 = 0xE0 then .ok (MVal.int (toSigned 1 code), bs, tr)
  else if code &&& 0x80 = 0 then .ok (MVal.int code, bs, tr)
  else
    match intFmt (code - 0xCC) with
    | none => .error Err.structError
    | some (signed, w) =>
      match as_re w bs tr with
      | .error e => .error e
      | .ok (data, rest, tr') =>
        .ok (MVal.int (if signed then toSigned w (beVal data) else beVal data), rest, tr')

/-- Embedding of as_load._unpack_float. -/
def as_unpack_float (code : Nat) (bs : List Nat) (tr : List (List Nat)) : AsRes :=
  if code = 0xCA then
    match as_re 4 bs tr with
    | .error e => .error e
    | .ok (data, rest, tr') => .ok (MVal.f32 (beVal data), rest, tr')
  else if code = 0xCB then
    match as_re 8 bs tr with
    | .error e => .error e
    | .ok (data, rest, tr') => .ok (MVal.f64 (beVal data), rest, tr')
  else .error Err.logicError

/-- String length field of the streaming decoder (reads traced). -/
def as_string_length (code : Nat) (bs : List Nat) (tr : List (List Nat)) :
    Except Err (Nat × List Nat × List (List Nat)) :=
  if code &&& 0xE0 = 0xA0 then .ok (code &&& 0x1F, bs, tr)
  else if code = 0xD9 then
    match as_re 1 bs tr with
    | .error e => .error e
    | .ok (data, rest, tr') => .ok (beVal data, rest, tr')
  else if code = 0xDA then
    match as_re 2 bs tr with
    | .error e => .error e
    | .ok (data, rest, tr') => .ok (beVal data, rest, tr')
  else if code = 0xDB then
    match as_re 4 bs tr with
    | .error e => .error e
    | .ok (data, rest, tr') => .ok (beVal data, rest, tr')
  else .error Err.logicError

/-- Embedding of as_load._unpack_string. -/
def as_unpack_string (options : Options) (code : Nat) (bs : List Nat)
    (tr : List (List Nat)) : AsRes :=
  match as_string_length code bs tr with
  | .error e => .error e
  | .ok (length, bs1, tr1) =>
    match as_re length bs1 tr1 with
    | .error e => .error e
    | .ok (data, rest, tr') =>
      if utf8Valid data then .ok (MVal.str data, rest, tr')
      else if options.allow_invalid_utf8 then .ok (MVal.bin data, rest, tr')
      else .error Err.invalidString

/-- Embedding of as_load._unpack_binary. -/
def as_unpack_binary (code : Nat) (bs : List Nat) (tr : List (List Nat)) : AsRes :=
  if code = 0xC4 then
    match as_re 1 bs tr with
    | .error e => .error e
    | .ok (ld, bs1, tr1) =>
      match as_re (beVal ld) bs1 tr1 with
      | .error e => .error e
      | .ok (data, rest, tr') => .ok (MVal.bin data, rest, tr')
  else if code = 0xC5 then
    match as_re 2 bs tr with
    | .error e => .error e
    | .ok (ld, bs1, tr1) =>
      match as_re (beVal ld) bs1 tr1 with
      | .error e => .error e
      | .ok (data, rest, tr') => .ok (MVal.bin data, rest, tr')
  else if code = 0xC6 then
    match as_re 4 bs tr with
    | .error e => .error e
    | .ok (ld, bs1, tr1) =>
      match as_re (beVal ld) bs1 tr1 with
      | .error e => .error e
      | .ok (data, rest, tr') => .ok (MVal.bin data, rest, tr')
  else .error Err.logicError

/-- Extension payload length of the streaming decoder (reads traced). -/
def as_ext_length (code : Nat) (bs : List Nat) (tr : List (List Nat)) :
    Except Err (Nat × List Nat × List (List Nat)) :=
  let n : Int :=
    if code = 0xD4 then 0
    else if code = 0xD5 then 1
    else if code = 0xD6 then 2
    else if code = 0xD7 then 3
    else if code = 0xD8 then 4
    else -1
  if 0 ≤ n then .ok (1 <<< n.toNat, bs, tr)
  else if code = 0xC7 then
    match as_re 1 bs tr with
    | .error e => .error e
    | .ok (data, rest, tr') => .ok (beVal data, rest, tr')
  else if code = 0xC8 then
    match as_re 2 bs tr with
    | .error e => .error e
    | .ok (data, rest, tr') => .ok (beVal data, rest, tr')
  else if code = 0xC9 then
    match as_re 4 bs tr with
    | .error e => .error e
    | .ok (data, rest, tr') => .ok (beVal data, rest, tr')
  else .error Err.logicError

/-- Embedding of the body of as_load._unpack_ext: length, signed type byte,
payload, Ext object; then the call-scoped ext_handlers override is
consulted, then the global ext_type_to_class registry (unpackb(ext_data)),
and otherwise the raw Ext object is returned — this function never fails
with UnsupportedTypeException.  This body is what the coroutine created by
_unpack would compute; because the await on it is missing in _unpack
(as_load.py lines 210 and 214, likewise as_loader.py), the body never
actually runs and _unpack returns the coroutine object itself
(MVal.extCoro). -/
def as_unpack_ext (ec : ExtClasses) (options : Options) (code : Nat) (bs : List Nat)
    (tr : List (List Nat)) : AsRes :=
  match as_ext_length code bs tr with
  | .error e => .error e
  | .ok (length, bs1, tr1) =>
    match as_re 1 bs1 tr1 with
    | .error e => .error e
    | .ok (tb, bs2, tr2) =>
      let ext_type := toSigned 1 (beVal tb)
      match as_re length bs2 tr2 with
      | .error e => .error e
      | .ok (ext_data, rest, tr') =>
        match options.ext_handlers ext_type with
        | some h => .ok (h ext_type ext_data, rest, tr')
        | none =>
          match ec ext_type with
          | some cls => .ok (cls ext_data, rest, tr')
          | none => .ok (MVal.ext ext_type ext_data, rest, tr')

/-- Element loop of as_load._unpack_array. -/
def as_unpack_array_go (rec : AsRec) : Nat → List MVal → List Nat → List (List Nat) →
    Except Err (List MVal × List Nat × List (List Nat))
  | 0, acc, bs, tr => .ok (acc, bs, tr)
  | count + 1, acc, bs, tr =>
    match rec bs tr with
    | .error e => .error e
    | .ok (v, bs', tr') => as_unpack_array_go rec count (acc ++ [v]) bs' tr'

/-- Array length field of the streaming decoder. -/
def as_array_length (code : Nat) (bs : List Nat) (tr : List (List Nat)) :
    Except Err (Nat × List Nat × List (List Nat)) :=
  if code &&& 0xF0 = 0x90 then .ok (code &&& 0x0F, bs, tr)
  else if code = 0xDC then
    match as_re 2 bs tr with
    | .error e => .error e
    | .ok (data, rest, tr') => .ok (beVal data, rest, tr')
  else if code = 0xDD then
    match as_re 4 bs tr with
    | .error e => .error e
    | .ok (data, rest, tr') => .ok (beVal data, rest, tr')
  else .error Err.logicError

/-- Embedding of as_load._unpack_array. -/
def as_unpack_array (rec : AsRec) (options : Options) (code : Nat) (bs : List Nat)
    (tr : List (List Nat)) : AsRes :=
  match as_array_length code bs tr with
  | .error e => .error e
  | .ok (length, bs1, tr1) =>
    match as_unpack_array_go rec length [] bs1 tr1 with
    | .error e => .error e
    | .ok (xs, rest, tr') =>
      .ok (if options.use_tuple then MVal.tup xs else MVal.list xs, rest, tr')

/-- Map length field of the streaming decoder. -/
def as_map_length (code : Nat) (bs : List Nat) (tr : List (List Nat)) :
    Except Err (Nat × List Nat × List (List Nat)) :=
  if code &&& 0xF0 = 0x80 then .ok (code &&& 0x0F, bs, tr)
  else if code = 0xDE then
    match as_re 2 bs tr with
    | .error e => .error e
    | .ok (data, rest, tr') => .ok (beVal data, rest, tr')
  else if code = 0xDF then
    match as_re 4 bs tr with
    | .error e => .error e
    | .ok (data, rest, tr') => .ok (beVal data, rest, tr')
  else .error Err.logicError

/-- Entry loop of as_load._unpack_map, with the same key conversion, hash
check and duplicate check as the buffered loop. -/
def as_unpack_map_go (rec : AsRec) : Nat → List (MVal × MVal) → List Nat →
    List (List Nat) → Except Err (List (MVal × MVal) × List Nat × List (List Nat))
  | 0, d, bs, tr => .ok (d, bs, tr)
  | count + 1, d, bs, tr =>
    match rec bs tr with
    | .error e => .error e
    | .ok (k0, bs1, tr1) =>
      let k := deep_list_to_tuple k0
      if isHashable k = false then .error Err.unhashableKey
      else if d.any (fun p => pyEq k p.1) then .error Err.duplicateKey
      else
        match rec bs1 tr1 with
        | .error e => .error e
        | .ok (v, bs2, tr2) => as_unpack_map_go rec count (d ++ [(k, v)]) bs2 tr2

/-- Embedding of as_load._unpack_map. -/
def as_unpack_map (rec : AsRec) (options : Options) (code : Nat) (bs : List Nat)
    (tr : List (List Nat)) : AsRes :=
  match as_map_length code bs tr with
  | .error e => .error e
  | .ok (length, bs1, tr1) =>
    match as_unpack_map_go rec length [] bs1 tr1 with
    | .error e => .error e
    | .ok (d, rest, tr') =>
      .ok (if options.use_ordered_dict then MVal.omap d else MVal.map d, rest, tr')

/-- Embedding of as_load._unpack: the same tag dispatch as mpload, except
that the two extension branches lack the await (as_load.py lines 210 and
214): calling the async _unpack_ext builds a coroutine object and returns
it at once as the decoded value, consuming no byte beyond the tag — the
extension's length, type and payload bytes are left unread in the stream.
aload (and aloader.load) returns this result unchanged, and invokes the
observer no further time on completion. -/
def as_unpack (ec : ExtClasses) (options : Options) :
    Nat → List Nat → List (List Nat) → AsRes
  | 0, _, _ => .error Err.fuel
  | fuel + 1, bs, tr =>
    match as_re 1 bs tr with
    | .error e => .error e
    | .ok (cb, bs, tr) =>
      let ic := beVal cb
      if ic ≤ 0x7F ∨ (0xCC ≤ ic ∧ ic ≤ 0xD3) ∨ (0xE0 ≤ ic ∧ ic ≤ 0xFF) then
        as_unpack_integer ic bs tr
      else if ic ≤ 0xC9 then
        if ic ≤ 0xC3 then
          if ic ≤ 0x8F then as_unpack_map (as_unpack ec options fuel) options ic bs tr
          else if ic ≤ 0x9F then as_unpack_array (as_unpack ec options fuel) options ic bs tr
          else if ic ≤ 0xBF then as_unpack_string options ic bs tr
          else if ic = 0xC1 then .error Err.reservedCode
          else
            .ok ((if ic - 0xC0 = 0 then MVal.nil
                  else if ic - 0xC0 = 1 then MVal.int 0
                  else if ic - 0xC0 = 2 then MVal.bool false
                  else MVal.bool true), bs, tr)
        else if ic ≤ 0xC6 then as_unpack_binary ic bs tr
        else .ok (MVal.extCoro ic, bs, tr)
      else if ic ≤ 0xCB then as_unpack_float ic bs tr
      else if ic ≤ 0xD8 then .ok (MVal.extCoro ic, bs, tr)
      else if ic ≤ 0xDB then as_unpack_string options ic bs tr
      else if ic ≤ 0xDD then as_unpack_array (as_unpack ec options fuel) options ic bs tr
      else as_unpack_map (as_unpack ec options fuel) options ic bs tr

/-!
Grammar scanner: a structural walk of one encoded value that reports
whether an extension tag is reachable.  It reads tag and length fields at
exactly the positions the decoders do and skips payloads, but performs no
value construction and no key checks, so it over-approximates the set of
inputs on which a decode meets an extension tag.  It is the formal reading
of an input containing no extension encoding, used to delimit where the
buffered and streaming drivers agree (the streaming driver handles
extension tags differently; see as_unpack).
-/

/-- Scanner outcome: the walk skipped one value cleanly leaving rest, or it
stopped (short data, reserved or invalid tag, out of fuel — positions where
both decoders fail alike), or it met an extension tag. -/
inductive Scan where
  | clean (rest : List Nat) : Scan
  | stop : Scan
  | extHit : Scan
  deriving DecidableEq

/-- Skip a payload of n bytes. -/
def scan_skip (n : Nat) (bs : List Nat) : Scan :=
  if n ≤ bs.length then Scan.clean (bs.drop n) else Scan.stop

/-- Element loop of the scanner. -/
def scan_go (sc : List Nat → Scan) : Nat → List Nat → Scan
  | 0, bs => Scan.clean bs
  | count + 1, bs =>
    match sc bs with
    | Scan.clean r => scan_go sc count r
    | s => s

/-- One-value scanner, following the decoders' tag dispatch; extension tags
(0xC7-0xC9 and 0xD4-0xD8) report extHit. -/
def mscan : Nat → List Nat → Scan
  | 0, _ => Scan.stop
  | fuel + 1, bs =>
    match bs with
    | [] => Scan.stop
    | ic :: bs =>
      if ic ≤ 0x7F ∨ (0xCC ≤ ic ∧ ic ≤ 0xD3) ∨ (0xE0 ≤ ic ∧ ic ≤ 0xFF) then
        if ic &&& 0xE0 = 0xE0 then Scan.clean bs
        else if ic &&& 0x80 = 0 then Scan.clean bs
        else
          match intFmt (ic - 0xCC) with
          | none => Scan.stop
          | some (_, w) => scan_skip w bs
      else if ic ≤ 0xC9 then
        if ic ≤ 0xC3 then
          if ic ≤ 0x8F then
            match map_length ic bs with
            | .error _ => Scan.stop
            | .ok (length, bs1) => scan_go (mscan fuel) (2 * length) bs1
          else if ic ≤ 0x9F then
            match array_length ic bs with
            | .error _ => Scan.stop
            | .ok (length, bs1) => scan_go (mscan fuel) length bs1
          else if ic ≤ 0xBF then
            match string_length ic bs with
            | .error _ => Scan.stop
            | .ok (length, bs1) => scan_skip length bs1
          else if ic = 0xC1 then Scan.stop
          else Scan.clean bs
        else if ic ≤ 0xC6 then
          if ic = 0xC4 then
            match readN 1 bs with
            | .error _ => Scan.stop
            | .ok (ld, bs1) => scan_skip (beVal ld) bs1
          else if ic = 0xC5 then
            match readN 2 bs with
            | .error _ => Scan.stop
            | .ok (ld, bs1) => scan_skip (beVal ld) bs1
          else
            match readN 4 bs with
            | .error _ => Scan.stop
            | .ok (ld, bs1) => scan_skip (beVal ld) bs1
        else Scan.extHit
      else if ic ≤ 0xCB then
        if ic = 0xCA then scan_skip 4 bs else scan_skip 8 bs
      else if ic ≤ 0xD8 then Scan.extHit
      else if ic ≤ 0xDB then
        match string_length ic bs with
        | .error _ => Scan.stop
        | .ok (length, bs1) => scan_skip length bs1
      else if ic ≤ 0xDD then
        match array_length ic bs with
        | .error _ => Scan.stop
        | .ok (length, bs1) => scan_go (mscan fuel) length bs1
      else
        match map_length ic bs with
        | .error _ => Scan.stop
        | .ok (length, bs1) => scan_go (mscan fuel) (2 * length) bs1

/-- Error correspondence between the drivers: source exhaustion is
InsufficientDataException in the buffered driver but the stream's
end-of-data error in the streaming driver; every other error is shared. -/
def asErrOf (e : Err) : Err :=
  if e = Err.insufficientData then Err.incompleteRead else e

/-- Result correspondence between the drivers: equal values and remainders
on success (the streaming trace unconstrained), corresponding errors on
failure. -/
def MatchRes (m : MpRes) (a : AsRes) : Prop :=
  match m, a with
  | .ok (v, r), .ok (v', r', _) => v = v' ∧ r = r'
  | .error e, .error e' => e' = asErrOf e
  | _, _ => False

/-!
Extension registry: embedding of umsgpack.ext_serializable
(src/umsgpack/__init__.py, lines 119-151).  A class object is identified by
a Nat; the registry state is the pair of association tables
ext_type_to_class and ext_class_to_type, both empty at module load.
-/

/-- Registration errors: TypeError for a non-integer code (unrepresentable
here, the embedded code argument being typed Int) and ValueError for the
range check and both already-registered checks. -/
inductive RegErr where
  | typeError : RegErr
  | valueError : RegErr
  deriving DecidableEq

/-- Registry state: the two association tables, in registration order. -/
structure Registry where
  ext_type_to_class : List (Int × Nat)
  ext_class_to_type : List (Nat × Int)
  deriving DecidableEq

/-- The module-initial empty registry. -/
def emptyRegistry : Registry := ⟨[], []⟩

/-- Embedding of ext_serializable's wrapper applied to a class: the
TypeError check on a non-integer code is enforced by the Int type here;
then the range check, the code-already-registered check, the
class-already-registered check, and finally insertion into both tables. -/
def ext_serializable (ext_type : Int) (cls : Nat) (st : Registry) :
    Except RegErr Registry :=
  if ¬(-128 ≤ ext_type ∧ ext_type ≤ 127) then .error RegErr.valueError
  else if st.ext_type_to_class.any (fun p => p.1 == ext_type) then .error RegErr.valueError
  else if st.ext_class_to_type.any (fun p => p.1 == cls) then .error RegErr.valueError
  else .ok ⟨st.ext_type_to_class ++ [(ext_type, cls)],
            st.ext_class_to_type ++ [(cls, ext_type)]⟩

/-- Registry invariant: each code and each class appears at most once in
its table. -/
def RegInv (st : Registry) : Prop :=
  (st.ext_type_to_class.map Prod.fst).Nodup ∧ (st.ext_class_to_type.map Prod.fst).Nodup

/-!
Well-formed native values: the closed set of the round-trip claim.  The
predicates are parameterised by the decode options, because the container
type a decode produces is fixed by use_tuple / use_ordered_dict: a value
round-trips when its containers match the option-selected types.  Map keys
get their own predicate: a key must be hashable, and a tuple key is legal
under either option because the decoder converts a key decoded as a list
back to a tuple (deep_list_to_tuple).
-/

/-- Pairwise Python-distinctness of the keys of a map, as required for the
map to be a constructible Python dict and to pass the decoder's duplicate
check. -/
def distinctKeys : List (MVal × MVal) → Bool
  | [] => true
  | (k, _) :: t => t.all (fun p => !pyEq k p.1 && !pyEq p.1 k) && distinctKeys t

/-- Whether the effective float precision under these options is double
(the platform default; see float_precision). -/
def doublePrec (o : Options) : Bool :=
  match o.force_float_precision.getD float_precision with
  | FloatPrec.double => true
  | FloatPrec.single => false

mutual

/-- Well-formed value of the native closed set under the given decode
options: None, bool, 64-bit-range int, double float (as the platform
default precision encodes it), UTF-8 string, bytes, and containers of
well-formed values whose kind matches the options, with map keys
well-formed as keys and pairwise distinct.  Lengths are below 2^32 so the
encoder accepts them. -/
def wfVal (o : Options) : MVal → Bool
  | MVal.nil => true
  | MVal.bool _ => true
  | MVal.int n => decide (-(2 ^ 63) ≤ n ∧ n < 2 ^ 64)
  | MVal.f32 _ => false
  | MVal.f64 w => doublePrec o && decide (w < 2 ^ 64)
  | MVal.str bs => utf8Valid bs && decide (bs.length < 2 ^ 32)
  | MVal.bin bs => decide (bs.length < 2 ^ 32)
  | MVal.list xs => !o.use_tuple && decide (xs.length < 2 ^ 32) && wfList o xs
  | MVal.tup xs => o.use_tuple && decide (xs.length < 2 ^ 32) && wfList o xs
  | MVal.map kvs =>
    !o.use_ordered_dict && decide (kvs.length < 2 ^ 32) && distinctKeys kvs && wfKVs o kvs
  | MVal.omap kvs =>
    o.use_ordered_dict && decide (kvs.length < 2 ^ 32) && distinctKeys kvs && wfKVs o kvs
  | MVal.ext _ _ => false
  | MVal.extCoro _ => false

/-- Well-formed values, elementwise. -/
def wfList (o : Options) : List MVal → Bool
  | [] => true
  | x :: xs => wfVal o x && wfList o xs

/-- Well-formed map entries: key well-formed as a key, value well-formed. -/
def wfKVs (o : Options) : List (MVal × MVal) → Bool
  | [] => true
  | (k, v) :: t => wfKey o k && wfVal o v && wfKVs o t

/-- Well-formed map key: a hashable member of the closed set — scalars,
strings, bytes, or a tuple of well-formed keys (lists, dicts and Ext are
excluded: the first two are unhashable or change shape, Ext is not
encodable without a registration). -/
def wfKey (o : Options) : MVal → Bool
  | MVal.nil => true
  | MVal.bool _ => true
  | MVal.int n => decide (-(2 ^ 63) ≤ n ∧ n < 2 ^ 64)
  | MVal.f32 _ => false
  | MVal.f64 w => doublePrec o && decide (w < 2 ^ 64)
  | MVal.str bs => utf8Valid bs && decide (bs.length < 2 ^ 32)
  | MVal.bin bs => decide (bs.length < 2 ^ 32)
  | MVal.tup xs => decide (xs.length < 2 ^ 32) && wfKeyList o xs
  | _ => false

/-- Well-formed keys, elementwise. -/
def wfKeyList (o : Options) : List MVal → Bool
  | [] => true
  | x :: xs => wfKey o x && wfKeyList o xs

end

mutual

/-- Shape of a well-formed key as the decoder first builds it, before key
conversion: under use_tuple it is the key itself; otherwise every tuple
was encoded as an array and decodes to a list. -/
def listifyKey (o : Options) : MVal → MVal
  | MVal.tup xs =>
    if o.use_tuple then MVal.tup (listifyKeyList o xs) else MVal.list (listifyKeyList o xs)
  | v => v

/-- Elementwise listifyKey. -/
def listifyKeyList (o : Options) : List MVal → List MVal
  | [] => []
  | x :: xs => listifyKey o x :: listifyKeyList o xs

end

mutual

/-- Structural size of a value, an upper bound for the decoder fuel a
round trip needs (one unit per nesting level). -/
def msize : MVal → Nat
  | MVal.list xs => 1 + msizeList xs
  | MVal.tup xs => 1 + msizeList xs
  | MVal.map kvs => 1 + msizeKVs kvs
  | MVal.omap kvs => 1 + msizeKVs kvs
  | _ => 1

/-- Sum of element sizes. -/
def msizeList : List MVal → Nat
  | [] => 0
  | x :: xs => msize x + msizeList xs

/-- Sum of entry sizes. -/
def msizeKVs : List (MVal × MVal) → Nat
  | [] => 0
  | (k, v) :: t => msize k + msize v + msizeKVs t

end

mutual

/-- Whether no float inside the value is a NaN (Python == is reflexive on
the value exactly then). -/
def nanFree : MVal → Bool
  | MVal.f32 w =>
    match fval32 w with
    | FVal.nan => false
    | _ => true
  | MVal.f64 w =>
    match fval64 w with
    | FVal.nan => false
    | _ => true
  | MVal.list xs => nanFreeList xs
  | MVal.tup xs => nanFreeList xs
  | MVal.map kvs => nanFreeKVs kvs
  | MVal.omap kvs => nanFreeKVs kvs
  | _ => true

/-- Elementwise nanFree. -/
def nanFreeList : List MVal → Bool
  | [] => true
  | x :: xs => nanFree x && nanFreeList xs

/-- Entrywise nanFree. -/
def nanFreeKVs : List (MVal × MVal) → Bool
  | [] => true
  | (k, v) :: t => nanFree k && nanFree v && nanFreeKVs t

end

/-- Accumulation loop invariant: against a source whose oracle always offers
at least one byte when asked for any, the loop delivers the shortfall off
the front of the source exactly when available, and fails with
InsufficientDataException exactly when the source is short. -/
theorem read_except_go_spec (g : Nat → Nat → Nat)
    (hg : ∀ i k, 0 < k → 0 < g i k) :
    ∀ i n acc bs,
      read_except_go g i n acc bs =
        if n ≤ acc.length + bs.length then
          .ok (acc ++ bs.take (n - acc.length), bs.drop (n - acc.length))
        else .error Err.insufficientData := by
  intro i n acc bs
  generalize hm : n - acc.length = m
  induction m using Nat.strong_induction_on generalizing i n acc bs with
  | _ m ih =>
    subst hm
    rw [read_except_go]
    by_cases h : acc.length < n
    · rw [dif_pos h]
      by_cases hb : bs.length = 0
      · have hc : ((readCall g i (n - acc.length) bs).1).length = 0 := by
          simp [readCall, hb]
        rw [dif_pos hc, if_neg (by omega)]
      · obtain ⟨s, hsdef⟩ :
            ∃ s, min (min (g i (n - acc.length)) (n - acc.length)) bs.length = s :=
          ⟨_, rfl⟩
        have hgpos := hg i (n - acc.length) (by omega)
        have hspos : 0 < s := by omega
        have hslen : s ≤ bs.length := by omega
        have hsk : s ≤ n - acc.length := by omega
        have hc1 : (readCall g i (n - acc.length) bs).1 = bs.take s := by
          simp only [readCall]
          rw [hsdef]
        have hc2 : (readCall g i (n - acc.length) bs).2 = bs.drop s := by
          simp only [readCall]
          rw [hsdef]
        have htlen : (bs.take s).length = s := by
          rw [List.length_take]
          omega
        have hc : ¬((readCall g i (n - acc.length) bs).1).length = 0 := by
          rw [hc1, htlen]
          omega
        rw [dif_neg hc, hc1, hc2,
          ih (n - (acc ++ bs.take s).length)
            (by simp only [List.length_append, htlen]; omega) _ _ _ _ rfl]
        simp only [List.length_append, htlen, List.length_drop]
        by_cases hn : n ≤ acc.length + bs.length
        · rw [if_pos (by omega), if_pos hn]
          have ht : n - (acc.length + s) = n - acc.length - s := by omega
          have hst : s + (n - acc.length - s) = n - acc.length := by omega
          have htk : bs.take s ++ (bs.drop s).take (n - acc.length - s)
              = bs.take (n - acc.length) := by
            have h2 := (List.take_add bs s (n - acc.length - s)).symm
            rwa [hst] at h2
          have hdr : (bs.drop s).drop (n - acc.length - s) = bs.drop (n - acc.length) := by
            rw [List.drop_drop]
            congr 1
          rw [ht, List.append_assoc, htk, hdr]
        · rw [if_neg (by omega), if_neg hn]
    · rw [dif_neg h, if_pos (by omega)]
      have h0 : n - acc.length = 0 := by omega
      rw [h0]
      simp

/-!
Byte-level lemmas shared by the claim proofs.
-/

/-- beBytes always produces exactly w bytes. -/
theorem length_beBytes (w v : Nat) : (beBytes w v).length = w := by
  induction w generalizing v with
  | zero => rfl
  | succ w ih => simp [beBytes, ih]

/-- Folding the big-endian bytes of v accumulates v modulo the width. -/
theorem beVal_foldl (w v acc : Nat) :
    (beBytes w v).foldl (fun a b => a * 256 + b) acc = acc * 2 ^ (8 * w) + v % 2 ^ (8 * w) := by
  induction w generalizing v acc with
  | zero => simp [beBytes, Nat.mod_one]
  | succ w ih =>
    rw [beBytes, List.foldl_cons, ih]
    have hshift : v >>> (8 * w) = v / 2 ^ (8 * w) := Nat.shiftRight_eq_div_pow v (8 * w)
    have hmul : 2 ^ (8 * (w + 1)) = 2 ^ (8 * w) * 256 := by ring
    rw [hshift, hmul, Nat.mod_mul]
    ring

/-- Reading back the big-endian bytes of v yields v modulo the width. -/
theorem beVal_beBytes (w v : Nat) : beVal (beBytes w v) = v % 2 ^ (8 * w) := by
  rw [beVal, beVal_foldl]
  simp

/-- readN consumes exactly a w-byte prefix. -/
theorem readN_exact (w : Nat) (data rest : List Nat) (h : data.length = w) :
    readN w (data ++ rest) = .ok (data, rest) := by
  subst h
  rw [readN, if_pos (by simp), List.take_left, List.drop_left]

/-- as_re consumes exactly a w-byte prefix and traces it. -/
theorem as_re_exact (w : Nat) (data rest : List Nat) (tr : List (List Nat))
    (h : data.length = w) :
    as_re w (data ++ rest) tr = .ok (data, rest, tr ++ [data]) := by
  subst h
  rw [as_re, if_pos (by simp), List.take_left, List.drop_left]

/-- read_except over any positively-chunked source equals take-or-fail on
the flat bytes (the bridge justifying readN inside the flat-source
decoder). -/
theorem read_except_eq_readN (g : Nat → Nat → Nat)
    (hg : ∀ i k, 0 < k → 0 < g i k) (n : Nat) (bs : List Nat) :
    read_except g n bs = readN n bs := by
  rw [read_except, readN]
  by_cases h0 : n = 0
  · subst h0
    rw [if_pos rfl, if_pos (Nat.zero_le _)]
    simp
  · rw [if_neg h0, read_except_go_spec g hg]
    simp only [List.length_nil, Nat.zero_add, List.nil_append, Nat.sub_zero]

/-!
Claim theorems.
-/

/-- C8: the buffered driver's byte acquisition (_read_except), asked for n
bytes, repeatedly calls the source's read until n bytes have accumulated and
returns exactly those n bytes; it raises InsufficientDataException exactly
when a read call returns zero bytes while fewer than n bytes have
accumulated — against a source that offers at least one byte whenever asked
and data remains, that happens exactly when the source holds fewer than n
bytes.  Stated over every chunking oracle g, so reads of every size are
covered. -/
theorem C8_read_except_accumulates (g : Nat → Nat → Nat) (n : Nat) (bs : List Nat)
    (hg : ∀ i k, 0 < k → 0 < g i k) :
    read_except g n bs = readN n bs ∧
    (n ≤ bs.length →
      read_except g n bs = .ok (bs.take n, bs.drop n) ∧ (bs.take n).length = n) ∧
    (bs.length < n → read_except g n bs = .error Err.insufficientData) := by
  have hmain := read_except_eq_readN g hg n bs
  refine ⟨hmain, fun h => ⟨?_, ?_⟩, fun h => ?_⟩
  · rw [hmain, readN, if_pos h]
  · rw [List.length_take]
    omega
  · rw [hmain, readN, if_neg (by omega)]

/-- Witness for C8 at a one-byte-per-read source: three bytes satisfy a
two-byte request exactly and fail a five-byte request. -/
theorem C8_witness :
    read_except (fun _ _ => 1) 2 [5, 6, 7] = .ok ([5, 6], [7]) ∧
    read_except (fun _ _ => 1) 5 [5, 6, 7] = .error Err.insufficientData := by
  have h1 := (C8_read_except_accumulates (fun _ _ => 1) 2 [5, 6, 7]
    (fun _ _ _ => Nat.one_pos)).2.1 (by decide)
  have h2 := (C8_read_except_accumulates (fun _ _ => 1) 5 [5, 6, 7]
    (fun _ _ _ => Nat.one_pos)).2.2 (by decide)
  exact ⟨by simpa using h1.1, h2⟩

/-- C5: pack_integer encodes exactly as the specification words it — single
bytes for 0..127 and -32..-1, then the smallest fitting unsigned form
(0xCC/0xCD/0xCE/0xCF) for non-negative values and the smallest fitting
signed form (0xD0/0xD1/0xD2/0xD3) for negative values, all payloads
big-endian, failing with UnsupportedTypeException exactly for n ≥ 2^64 or
n < -(2^63). -/
theorem C5_pack_integer_matches_spec (n : Int) : pack_integer n = specIntBytes n := by
  unfold pack_integer specIntBytes
  by_cases hneg : n < 0
  · rw [if_pos hneg, if_neg (show ¬(0 ≤ n ∧ n ≤ 127) by omega)]
    by_cases h1 : n ≥ -32
    · rw [if_pos h1, if_pos (show -32 ≤ n ∧ n ≤ -1 by omega)]
      have h : n % 256 = n + 256 := by omega
      rw [h]
    · rw [if_neg h1, if_neg (show ¬(-32 ≤ n ∧ n ≤ -1) by omega)]
      by_cases h2 : n ≥ -(2 ^ 7)
      · rw [if_pos h2, if_neg (show ¬(2 ^ 64 ≤ n ∨ n < -(2 ^ 63)) by omega),
          if_neg (show ¬(0 ≤ n) by omega), if_pos (show -(2 ^ 7) ≤ n by omega)]
      · rw [if_neg h2]
        by_cases h3 : n ≥ -(2 ^ 15)
        · rw [if_pos h3, if_neg (show ¬(2 ^ 64 ≤ n ∨ n < -(2 ^ 63)) by omega),
            if_neg (show ¬(0 ≤ n) by omega), if_neg (show ¬(-(2 ^ 7) ≤ n) by omega),
            if_pos (show -(2 ^ 15) ≤ n by omega)]
        · rw [if_neg h3]
          by_cases h4 : n ≥ -(2 ^ 31)
          · rw [if_pos h4, if_neg (show ¬(2 ^ 64 ≤ n ∨ n < -(2 ^ 63)) by omega),
              if_neg (show ¬(0 ≤ n) by omega), if_neg (show ¬(-(2 ^ 7) ≤ n) by omega),
              if_neg (show ¬(-(2 ^ 15) ≤ n) by omega), if_pos (show -(2 ^ 31) ≤ n by omega)]
          · rw [if_neg h4]
            by_cases h5 : n ≥ -(2 ^ 63)
            · rw [if_pos h5, if_neg (show ¬(2 ^ 64 ≤ n ∨ n < -(2 ^ 63)) by omega),
                if_neg (show ¬(0 ≤ n) by omega), if_neg (show ¬(-(2 ^ 7) ≤ n) by omega),
                if_neg (show ¬(-(2 ^ 15) ≤ n) by omega),
                if_neg (show ¬(-(2 ^ 31) ≤ n) by omega)]
            · rw [if_neg h5, if_pos (show 2 ^ 64 ≤ n ∨ n < -(2 ^ 63) by omega)]
  · rw [if_neg hneg]
    by_cases h1 : n < 128
    · rw [if_pos h1, if_pos (show 0 ≤ n ∧ n ≤ 127 by omega)]
    · rw [if_neg h1, if_neg (show ¬(0 ≤ n ∧ n ≤ 127) by omega),
        if_neg (show ¬(-32 ≤ n ∧ n ≤ -1) by omega)]
      by_cases h2 : n < 2 ^ 8
      · rw [if_pos h2, if_neg (show ¬(2 ^ 64 ≤ n ∨ n < -(2 ^ 63)) by omega),
          if_pos (show 0 ≤ n by omega), if_pos h2]
      · rw [if_neg h2]
        by_cases h3 : n < 2 ^ 16
        · rw [if_pos h3, if_neg (show ¬(2 ^ 64 ≤ n ∨ n < -(2 ^ 63)) by omega),
            if_pos (show 0 ≤ n by omega), if_neg h2, if_pos h3]
        · rw [if_neg h3]
          by_cases h4 : n < 2 ^ 32
          · rw [if_pos h4, if_neg (show ¬(2 ^ 64 ≤ n ∨ n < -(2 ^ 63)) by omega),
              if_pos (show 0 ≤ n by omega), if_neg h2, if_neg h3, if_pos h4]
          · rw [if_neg h4]
            by_cases h5 : n < 2 ^ 64
            · rw [if_pos h5, if_neg (show ¬(2 ^ 64 ≤ n ∨ n < -(2 ^ 63)) by omega),
                if_pos (show 0 ≤ n by omega), if_neg h2, if_neg h3, if_neg h4]
            · rw [if_neg h5, if_pos (show 2 ^ 64 ≤ n ∨ n < -(2 ^ 63) by omega)]

/-- C6: the encoder's exact byte vectors — single-byte 0x7F and -1, empty
string 0xA0, empty array 0x90, empty map 0x80, 32-bit unsigned
0xCE FF FF FF FF, and a 16-element array using the 16-bit array header
0xDC 00 10 while a 15-element array still uses the fixed form 0x9F. -/
theorem C6_exact_byte_vectors :
    dumps (MVal.int 0x7F) = .ok [0x7F] ∧
    dumps (MVal.int (-1)) = .ok [0xFF] ∧
    dumps (MVal.str []) = .ok [0xA0] ∧
    dumps (MVal.list []) = .ok [0x90] ∧
    dumps (MVal.map []) = .ok [0x80] ∧
    dumps (MVal.int 0xFFFFFFFF) = .ok [0xCE, 0xFF, 0xFF, 0xFF, 0xFF] ∧
    dumps (MVal.list (List.replicate 16 (MVal.int 1)))
      = .ok (0xDC :: 0x00 :: 0x10 :: List.replicate 16 1) ∧
    dumps (MVal.list (List.replicate 15 (MVal.int 1)))
      = .ok (0x9F :: List.replicate 15 1) := by
  decide

/-- C9: ext_serializable fails with a ValueError-class error on a code
outside [-128,127], on a code already in the code-to-class table, and on a
class already in the class-to-code table (a non-integer code's TypeError
being enforced by the Int type of the embedding); otherwise it appends the
pair to both tables, so each successful registration preserves the
invariant that every code and every class is registered at most once. -/
theorem C9_ext_serializable_spec (ext_type : Int) (cls : Nat) (st : Registry) :
    (¬(-128 ≤ ext_type ∧ ext_type ≤ 127) →
      ext_serializable ext_type cls st = .error RegErr.valueError) ∧
    ((-128 ≤ ext_type ∧ ext_type ≤ 127) →
      ext_type ∈ st.ext_type_to_class.map Prod.fst →
      ext_serializable ext_type cls st = .error RegErr.valueError) ∧
    ((-128 ≤ ext_type ∧ ext_type ≤ 127) →
      ext_type ∉ st.ext_type_to_class.map Prod.fst →
      cls ∈ st.ext_class_to_type.map Prod.fst →
      ext_serializable ext_type cls st = .error RegErr.valueError) ∧
    ((-128 ≤ ext_type ∧ ext_type ≤ 127) →
      ext_type ∉ st.ext_type_to_class.map Prod.fst →
      cls ∉ st.ext_class_to_type.map Prod.fst →
      ext_serializable ext_type cls st =
        .ok ⟨st.ext_type_to_class ++ [(ext_type, cls)],
             st.ext_class_to_type ++ [(cls, ext_type)]⟩ ∧
      (RegInv st →
        RegInv ⟨st.ext_type_to_class ++ [(ext_type, cls)],
                st.ext_class_to_type ++ [(cls, ext_type)]⟩)) := by
  have hcode : (st.ext_type_to_class.any (fun p => p.1 == ext_type)) = true ↔
      ext_type ∈ st.ext_type_to_class.map Prod.fst := by
    rw [List.any_eq_true]
    constructor
    · rintro ⟨p, hp, he⟩
      rw [beq_iff_eq] at he
      exact List.mem_map.mpr ⟨p, hp, he⟩
    · intro hm
      obtain ⟨p, hp, he⟩ := List.mem_map.mp hm
      exact ⟨p, hp, beq_iff_eq.mpr he⟩
  have hcls : (st.ext_class_to_type.any (fun p => p.1 == cls)) = true ↔
      cls ∈ st.ext_class_to_type.map Prod.fst := by
    rw [List.any_eq_true]
    constructor
    · rintro ⟨p, hp, he⟩
      rw [beq_iff_eq] at he
      exact List.mem_map.mpr ⟨p, hp, he⟩
    · intro hm
      obtain ⟨p, hp, he⟩ := List.mem_map.mp hm
      exact ⟨p, hp, beq_iff_eq.mpr he⟩
  refine ⟨fun h => ?_, fun h hmem => ?_, fun h hnc hmem => ?_, fun h hnc hncls => ⟨?_, fun hinv => ?_⟩⟩
  · rw [ext_serializable, if_pos h]
  · rw [ext_serializable, if_neg (by simpa using h)]
    rw [if_pos (hcode.mpr hmem)]
  · rw [ext_serializable, if_neg (by simpa using h),
      if_neg (by rw [hcode]; exact hnc), if_pos (hcls.mpr hmem)]
  · rw [ext_serializable, if_neg (by simpa using h),
      if_neg (by rw [hcode]; exact hnc), if_neg (by rw [hcls]; exact hncls)]
  · obtain ⟨h1, h2⟩ := hinv
    constructor
    · simp only [List.map_append, List.map_cons, List.map_nil]
      rw [List.nodup_append]
      exact ⟨h1, List.nodup_singleton _, by
        intro a ha hb
        simp only [List.mem_singleton] at hb
        exact hnc (hb ▸ ha)⟩
    · simp only [List.map_append, List.map_cons, List.map_nil]
      rw [List.nodup_append]
      exact ⟨h2, List.nodup_singleton _, by
        intro a ha hb
        simp only [List.mem_singleton] at hb
        exact hncls (hb ▸ ha)⟩

/-- Witness for C9: a fresh registration succeeds and keeps the invariant;
an out-of-range code, a code collision and a class collision each fail. -/
theorem C9_witness :
    ext_serializable 0x50 7 emptyRegistry = .ok ⟨[(0x50, 7)], [(7, 0x50)]⟩ ∧
    ext_serializable 200 7 emptyRegistry = .error RegErr.valueError ∧
    ext_serializable 0x50 8 ⟨[(0x50, 7)], [(7, 0x50)]⟩ = .error RegErr.valueError ∧
    ext_serializable 0x51 7 ⟨[(0x50, 7)], [(7, 0x50)]⟩ = .error RegErr.valueError ∧
    RegInv ⟨[(0x50, 7)], [(7, 0x50)]⟩ := by
  refine ⟨?_, ?_, ?_, ?_, ?_⟩
  · exact ((C9_ext_serializable_spec 0x50 7 emptyRegistry).2.2.2 (by decide)
      (by decide) (by decide)).1
  · exact (C9_ext_serializable_spec 200 7 emptyRegistry).1 (by decide)
  · exact (C9_ext_serializable_spec 0x50 8 ⟨[(0x50, 7)], [(7, 0x50)]⟩).2.1 (by decide)
      (by decide)
  · exact (C9_ext_serializable_spec 0x51 7 ⟨[(0x50, 7)], [(7, 0x50)]⟩).2.2.1 (by decide)
      (by decide) (by decide)
  · exact ((C9_ext_serializable_spec 0x50 7 emptyRegistry).2.2.2 (by decide)
      (by decide) (by decide)).2 ⟨List.nodup_nil, List.nodup_nil⟩

/-- beVal of a single byte is that byte. -/
theorem beVal_single (x : Nat) : beVal [x] = x := by
  simp [beVal]

/-- The buffered dispatch routes every extension tag to _unpack_ext. -/
theorem mpload_ext_dispatch (pk : Packers) (options : Options) (fuel : Nat)
    (tag : Nat) (bs : List Nat)
    (htag : (0xC7 ≤ tag ∧ tag ≤ 0xC9) ∨ (0xD4 ≤ tag ∧ tag ≤ 0xD8)) :
    mpload pk options (fuel + 1) (tag :: bs) = unpack_ext pk options tag bs := by
  rcases htag with ⟨h1, h2⟩ | ⟨h1, h2⟩ <;> interval_cases tag <;> rfl

/-- The streaming dispatch returns the un-awaited _unpack_ext coroutine for
every extension tag, consuming only the tag byte. -/
theorem as_unpack_ext_dispatch (ec : ExtClasses) (options : Options) (fuel : Nat)
    (tag : Nat) (bs : List Nat) (tr : List (List Nat))
    (htag : (0xC7 ≤ tag ∧ tag ≤ 0xC9) ∨ (0xD4 ≤ tag ∧ tag ≤ 0xD8)) :
    as_unpack ec options (fuel + 1) (tag :: bs) tr
      = .ok (MVal.extCoro tag, bs, tr ++ [[tag]]) := by
  have hre : as_re 1 (tag :: bs) tr = .ok ([tag], bs, tr ++ [[tag]]) :=
    as_re_exact 1 [tag] bs tr rfl
  rcases htag with ⟨h1, h2⟩ | ⟨h1, h2⟩ <;> interval_cases tag <;>
    simp only [as_unpack, hre, beVal_single] <;> rfl

/-- One extension object decode in the buffered driver, after the length
field: the type byte is read, the payload is read, and the registry decides
the outcome. -/
theorem unpack_ext_spec (pk : Packers) (options : Options) (code : Nat)
    (bs : List Nat) (L ot : Nat) (d rest : List Nat)
    (hlen : ext_length code bs = .ok (L, ot :: (d ++ rest)))
    (hd : d.length = L) :
    unpack_ext pk options code bs =
      match pk (toSigned 1 ot) with
      | some cls => .ok (cls d options, rest)
      | none => .error (Err.unsupportedType (toSigned 1 ot)) := by
  rw [unpack_ext, hlen]
  dsimp only
  have h1 : readN 1 (ot :: (d ++ rest)) = .ok ([ot], d ++ rest) :=
    readN_exact 1 [ot] (d ++ rest) rfl
  rw [h1]
  dsimp only
  have h2 : readN L (d ++ rest) = .ok (d, rest) := readN_exact L d rest hd
  rw [beVal_single, h2]

/-- C2 (amended): decoding an Extension whose type code has no registered
class: the buffered driver fails with UnsupportedTypeException naming the
code; the streaming driver does not fail — lacking the await on
_unpack_ext, it returns the un-awaited coroutine object right after the tag
byte, leaving length, type and payload bytes unconsumed, whatever handlers
or classes are registered.  Quantified over every wire form _pack_ext can
emit. -/
theorem C2_unregistered_ext (pk : Packers) (ec : ExtClasses) (options : Options)
    (t : Int) (d w rest : List Nat) (fuel : Nat) (tr : List (List Nat))
    (hpk : pk (toSigned 1 ((t % 256).toNat)) = none)
    (hw : pack_ext t d = .ok w) :
    mpload pk options (fuel + 1) (w ++ rest)
      = .error (Err.unsupportedType (toSigned 1 ((t % 256).toNat))) ∧
    ∃ tag body, w = tag :: body ∧
      as_unpack ec options (fuel + 1) (w ++ rest) tr
        = .ok (MVal.extCoro tag, body ++ rest, tr ++ [[tag]]) := by
  simp only [pack_ext] at hw
  by_cases h1 : d.length = 1
  · simp only [h1, extFixTag] at hw
    norm_num at hw
    subst hw
    refine ⟨?_, 0xD4, _, rfl, ?_⟩
    · have hshape : (0xD4 :: (t % 256).toNat :: d) ++ rest
          = 0xD4 :: ((t % 256).toNat :: (d ++ rest)) := by simp
      rw [hshape, mpload_ext_dispatch pk options fuel 0xD4 _ (Or.inr (by decide)),
        unpack_ext_spec pk options 0xD4 _ 1 ((t % 256).toNat) d rest rfl h1, hpk]
    · have hshape : (0xD4 :: (t % 256).toNat :: d) ++ rest
          = 0xD4 :: (((t % 256).toNat :: d) ++ rest) := by simp
      rw [hshape, as_unpack_ext_dispatch ec options fuel 0xD4 _ tr (Or.inr (by decide))]
  by_cases h2 : d.length = 2
  · simp only [h2, extFixTag] at hw
    norm_num at hw
    subst hw
    refine ⟨?_, 0xD5, _, rfl, ?_⟩
    · have hshape : (0xD5 :: (t % 256).toNat :: d) ++ rest
          = 0xD5 :: ((t % 256).toNat :: (d ++ rest)) := by simp
      rw [hshape, mpload_ext_dispatch pk options fuel 0xD5 _ (Or.inr (by decide)),
        unpack_ext_spec pk options 0xD5 _ 2 ((t % 256).toNat) d rest rfl h2, hpk]
    · have hshape : (0xD5 :: (t % 256).toNat :: d) ++ rest
          = 0xD5 :: (((t % 256).toNat :: d) ++ rest) := by simp
      rw [hshape, as_unpack_ext_dispatch ec options fuel 0xD5 _ tr (Or.inr (by decide))]
  by_cases h4 : d.length = 4
  · simp only [h4, extFixTag] at hw
    norm_num at hw
    subst hw
    refine ⟨?_, 0xD6, _, rfl, ?_⟩
    · have hshape : (0xD6 :: (t % 256).toNat :: d) ++ rest
          = 0xD6 :: ((t % 256).toNat :: (d ++ rest)) := by simp
      rw [hshape, mpload_ext_dispatch pk options fuel 0xD6 _ (Or.inr (by decide)),
        unpack_ext_spec pk options 0xD6 _ 4 ((t % 256).toNat) d rest rfl h4, hpk]
    · have hshape : (0xD6 :: (t % 256).toNat :: d) ++ rest
          = 0xD6 :: (((t % 256).toNat :: d) ++ rest) := by simp
      rw [hshape, as_unpack_ext_dispatch ec options fuel 0xD6 _ tr (Or.inr (by decide))]
  by_cases h8 : d.length = 8
  · simp only [h8, extFixTag] at hw
    norm_num at hw
    subst hw
    refine ⟨?_, 0xD7, _, rfl, ?_⟩
    · have hshape : (0xD7 :: (t % 256).toNat :: d) ++ rest
          = 0xD7 :: ((t % 256).toNat :: (d ++ rest)) := by simp
      rw [hshape, mpload_ext_dispatch pk options fuel 0xD7 _ (Or.inr (by decide)),
        unpack_ext_spec pk options 0xD7 _ 8 ((t % 256).toNat) d rest rfl h8, hpk]
    · have hshape : (0xD7 :: (t % 256).toNat :: d) ++ rest
          = 0xD7 :: (((t % 256).toNat :: d) ++ rest) := by simp
      rw [hshape, as_unpack_ext_dispatch ec options fuel 0xD7 _ tr (Or.inr (by decide))]
  by_cases h16 : d.length = 16
  · simp only [h16, extFixTag] at hw
    norm_num at hw
    subst hw
    refine ⟨?_, 0xD8, _, rfl, ?_⟩
    · have hshape : (0xD8 :: (t % 256).toNat :: d) ++ rest
          = 0xD8 :: ((t % 256).toNat :: (d ++ rest)) := by simp
      rw [hshape, mpload_ext_dispatch pk options fuel 0xD8 _ (Or.inr (by decide)),
        unpack_ext_spec pk options 0xD8 _ 16 ((t % 256).toNat) d rest rfl h16, hpk]
    · have hshape : (0xD8 :: (t % 256).toNat :: d) ++ rest
          = 0xD8 :: (((t % 256).toNat :: d) ++ rest) := by simp
      rw [hshape, as_unpack_ext_dispatch ec options fuel 0xD8 _ tr (Or.inr (by decide))]
  have hfix : extFixTag d.length = 0 := by
    rw [extFixTag, if_neg h1, if_neg h2, if_neg h4, if_neg h8, if_neg h16]
  rw [hfix] at hw
  simp only [ite_self] at hw
  norm_num at hw
  by_cases hc7 : d.length < 256
  · rw [if_pos hc7] at hw
    simp only [Except.ok.injEq] at hw
    subst hw
    refine ⟨?_, 0xC7, _, rfl, ?_⟩
    · have hshape : (0xC7 :: d.length :: (t % 256).toNat :: d) ++ rest
          = 0xC7 :: (d.length :: ((t % 256).toNat :: (d ++ rest))) := by simp
      have hr : readN 1 (d.length :: ((t % 256).toNat :: (d ++ rest)))
          = .ok ([d.length], (t % 256).toNat :: (d ++ rest)) :=
        readN_exact 1 [d.length] _ rfl
      have hlen : ext_length 0xC7 (d.length :: ((t % 256).toNat :: (d ++ rest)))
          = .ok (d.length, (t % 256).toNat :: (d ++ rest)) := by
        simp [ext_length, hr, beVal_single]
      rw [hshape, mpload_ext_dispatch pk options fuel 0xC7 _ (Or.inl (by decide)),
        unpack_ext_spec pk options 0xC7 _ d.length ((t % 256).toNat) d rest hlen rfl, hpk]
    · have hshape : (0xC7 :: d.length :: (t % 256).toNat :: d) ++ rest
          = 0xC7 :: ((d.length :: (t % 256).toNat :: d) ++ rest) := by simp
      rw [hshape, as_unpack_ext_dispatch ec options fuel 0xC7 _ tr (Or.inl (by decide))]
  · rw [if_neg hc7] at hw
    by_cases hc8 : d.length < 65536
    · rw [if_pos hc8] at hw
      simp only [Except.ok.injEq] at hw
      subst hw
      refine ⟨?_, 0xC8, _, rfl, ?_⟩
      · have hshape : (0xC8 :: (beBytes 2 d.length ++ (t % 256).toNat :: d)) ++ rest
            = 0xC8 :: (beBytes 2 d.length ++ ((t % 256).toNat :: (d ++ rest))) := by simp
        have hr : readN 2 (beBytes 2 d.length ++ ((t % 256).toNat :: (d ++ rest)))
            = .ok (beBytes 2 d.length, (t % 256).toNat :: (d ++ rest)) :=
          readN_exact 2 _ _ (length_beBytes 2 d.length)
        have hmod : d.length % 2 ^ (8 * 2) = d.length := Nat.mod_eq_of_lt (by omega)
        have hlen : ext_length 0xC8 (beBytes 2 d.length ++ ((t % 256).toNat :: (d ++ rest)))
            = .ok (d.length, (t % 256).toNat :: (d ++ rest)) := by
          simp [ext_length, hr, beVal_beBytes, hmod]
          omega
        rw [hshape, mpload_ext_dispatch pk options fuel 0xC8 _ (Or.inl (by decide)),
          unpack_ext_spec pk options 0xC8 _ d.length ((t % 256).toNat) d rest hlen rfl, hpk]
      · have hshape : (0xC8 :: (beBytes 2 d.length ++ (t % 256).toNat :: d)) ++ rest
            = 0xC8 :: ((beBytes 2 d.length ++ (t % 256).toNat :: d) ++ rest) := by simp
        rw [hshape, as_unpack_ext_dispatch ec options fuel 0xC8 _ tr (Or.inl (by decide))]
    · rw [if_neg hc8] at hw
      by_cases hc9 : d.length < 4294967296
      · rw [if_pos hc9] at hw
        simp only [Except.ok.injEq] at hw
        subst hw
        refine ⟨?_, 0xC9, _, rfl, ?_⟩
        · have hshape : (0xC9 :: (beBytes 4 d.length ++ (t % 256).toNat :: d)) ++ rest
              = 0xC9 :: (beBytes 4 d.length ++ ((t % 256).toNat :: (d ++ rest))) := by simp
          have hr : readN 4 (beBytes 4 d.length ++ ((t % 256).toNat :: (d ++ rest)))
              = .ok (beBytes 4 d.length, (t % 256).toNat :: (d ++ rest)) :=
            readN_exact 4 _ _ (length_beBytes 4 d.length)
          have hmod : d.length % 2 ^ (8 * 4) = d.length := Nat.mod_eq_of_lt (by omega)
          have hlen : ext_length 0xC9 (beBytes 4 d.length ++ ((t % 256).toNat :: (d ++ rest)))
              = .ok (d.length, (t % 256).toNat :: (d ++ rest)) := by
            simp [ext_length, hr, beVal_beBytes, hmod]
            omega
          rw [hshape, mpload_ext_dispatch pk options fuel 0xC9 _ (Or.inl (by decide)),
            unpack_ext_spec pk options 0xC9 _ d.length ((t % 256).toNat) d rest hlen rfl, hpk]
        · have hshape : (0xC9 :: (beBytes 4 d.length ++ (t % 256).toNat :: d)) ++ rest
              = 0xC9 :: ((beBytes 4 d.length ++ (t % 256).toNat :: d) ++ rest) := by simp
          rw [hshape, as_unpack_ext_dispatch ec options fuel 0xC9 _ tr (Or.inl (by decide))]
      · rw [if_neg hc9] at hw
        exact absurd hw (by simp)

/-- Witness for C2: type code 0 with a one-byte payload and empty
registries — the buffered driver fails naming code 0, the streaming driver
returns the coroutine after the tag. -/
theorem C2_witness :
    mpload noPackers defaultOpts 1 [0xD4, 0x00, 0x07]
      = .error (Err.unsupportedType 0) ∧
    as_unpack noExtClasses defaultOpts 1 [0xD4, 0x00, 0x07] []
      = .ok (MVal.extCoro 0xD4, [0x00, 0x07], [[0xD4]]) := by
  have h := C2_unregistered_ext noPackers noExtClasses defaultOpts 0 [0x07]
    [0xD4, 0x00, 0x07] [] 0 [] rfl (by decide)
  refine ⟨by simpa using h.1, ?_⟩
  obtain ⟨tag, body, hwe, has⟩ := h.2
  injection hwe with ht hb
  subst ht
  subst hb
  simpa using has

/-- Counterexample to C2 as stated: the streaming decode of an Extension
with no override handler and no registered class does not fail with
UnsupportedType — it succeeds, yielding the un-awaited _unpack_ext
coroutine object with the payload bytes unconsumed. -/
theorem C2_counterexample :
    as_unpack noExtClasses defaultOpts 2 [0xD4, 0x00, 0x07] []
      = .ok (MVal.extCoro 0xD4, [0x00, 0x07], [[0xD4]]) ∧
    ∀ e, as_unpack noExtClasses defaultOpts 2 [0xD4, 0x00, 0x07] [] ≠ .error e := by
  have hok : as_unpack noExtClasses defaultOpts 2 [0xD4, 0x00, 0x07] []
      = .ok (MVal.extCoro 0xD4, [0x00, 0x07], [[0xD4]]) := by decide
  exact ⟨hok, fun e he => Except.noConfusion (hok ▸ he)⟩

/-- C7: in the buffered map-entry loop, after the key has been decoded
(and, if it decoded to a list, been converted recursively to a tuple), the
loop raises UnhashableKeyException when the converted key is unhashable and
DuplicateKeyException when it Python-equals a key already stored; the
outcome is the same for every continuation of the input after the key, so
both checks precede any read of the value's bytes. -/
theorem C7_map_key_checks (rec : MpRec) (count : Nat)
    (d : List (MVal × MVal)) (keyB tail : List Nat) (k : MVal)
    (hkey : rec (keyB ++ tail) = .ok (k, tail)) :
    (isHashable (deep_list_to_tuple k) = false →
      unpack_map_go rec (count + 1) d (keyB ++ tail) = .error Err.unhashableKey) ∧
    (isHashable (deep_list_to_tuple k) = true →
      d.any (fun p => pyEq (deep_list_to_tuple k) p.1) = true →
      unpack_map_go rec (count + 1) d (keyB ++ tail) = .error Err.duplicateKey) := by
  constructor
  · intro hh
    rw [unpack_map_go, hkey]
    simp [hh]
  · intro hh hd
    rw [unpack_map_go, hkey]
    simp [hh, hd]

/-- Witness for C7: an empty-map key (1-fuel decode of tag 0x80) fails the
hash check; an integer key equal to one already stored fails the duplicate
check — under the same continuation bytes. -/
theorem C7_witness :
    unpack_map_go (mpload noPackers defaultOpts 1) 1 [] ([0x80] ++ [0xC2])
      = .error Err.unhashableKey ∧
    unpack_map_go (mpload noPackers defaultOpts 1) 1 [(MVal.int 1, MVal.nil)]
      ([0x01] ++ [0xC2]) = .error Err.duplicateKey := by
  constructor
  · exact (C7_map_key_checks (mpload noPackers defaultOpts 1) 0 [] [0x80] [0xC2]
      (MVal.map []) (by decide)).1 (by decide)
  · exact (C7_map_key_checks (mpload noPackers defaultOpts 1) 0 [(MVal.int 1, MVal.nil)]
      [0x01] [0xC2] (MVal.int 1) (by decide)).2 (by decide) (by decide)

/-- Physical byte source: every entry fits a byte. -/
abbrev Bytes (bs : List Nat) : Prop := ∀ b ∈ bs, b < 256

/-- Results the claim forbids: the debug-only _fail (logicError) and a
struct.error from an out-of-range format slice (structError). -/
def CleanRes (r : MpRes) : Prop :=
  r ≠ .error Err.logicError ∧ r ≠ .error Err.structError

/-- A clean result whose leftover bytes are again a byte source. -/
def CleanOk (r : MpRes) : Prop :=
  CleanRes r ∧ ∀ v rest, r = .ok (v, rest) → Bytes rest

/-- Clean length-field result with byte-valued leftovers. -/
def CleanLen (r : Except Err (Nat × List Nat)) : Prop :=
  r ≠ .error Err.logicError ∧ r ≠ .error Err.structError ∧
    ∀ n rest, r = .ok (n, rest) → Bytes rest

theorem bytes_take (bs : List Nat) (n : Nat) (hb : Bytes bs) : Bytes (bs.take n) :=
  fun b hm => hb b (List.take_subset n bs hm)

theorem bytes_drop (bs : List Nat) (n : Nat) (hb : Bytes bs) : Bytes (bs.drop n) :=
  fun b hm => hb b (List.drop_subset n bs hm)

theorem readN_cases (n : Nat) (bs : List Nat) :
    readN n bs = .error Err.insufficientData ∨ readN n bs = .ok (bs.take n, bs.drop n) := by
  rw [readN]
  split
  · exact Or.inr rfl
  · exact Or.inl rfl

theorem readN_clean_len (n : Nat) (bs : List Nat) (hb : Bytes bs) :
    CleanLen (match readN n bs with
      | .error e => .error e
      | .ok (data, rest) => .ok (beVal data, rest)) := by
  rcases readN_cases n bs with h | h <;> rw [h]
  · exact ⟨by simp, by simp, by simp⟩
  · refine ⟨by simp, by simp, ?_⟩
    intro m rest hr
    simp only [Except.ok.injEq, Prod.mk.injEq] at hr
    rw [← hr.2]
    exact bytes_drop bs n hb

theorem unpack_integer_body_clean (w : Nat) (signed : Bool) (bs : List Nat)
    (hb : Bytes bs) :
    CleanOk (match readN w bs with
      | .error e => .error e
      | .ok (data, rest) =>
        .ok (MVal.int (if signed then toSigned w (beVal data) else beVal data), rest)) := by
  rcases readN_cases w bs with h | h <;> rw [h]
  · exact ⟨⟨by simp, by simp⟩, by simp⟩
  · refine ⟨⟨by simp, by simp⟩, ?_⟩
    intro v rest hr
    simp only [Except.ok.injEq, Prod.mk.injEq] at hr
    rw [← hr.2]
    exact bytes_drop bs w hb

theorem unpack_integer_clean (ic : Nat) (bs : List Nat) (hb : Bytes bs)
    (h : ic ≤ 0x7F ∨ (0xCC ≤ ic ∧ ic ≤ 0xD3) ∨ (0xE0 ≤ ic ∧ ic ≤ 0xFF)) :
    CleanOk (unpack_integer ic bs) := by
  rcases h with h | ⟨h1, h2⟩ | ⟨h1, h2⟩
  · have he : ¬(ic &&& 0xE0 = 0xE0) := by interval_cases ic <;> decide
    have h8 : ic &&& 0x80 = 0 := by interval_cases ic <;> decide
    rw [unpack_integer, if_neg he, if_pos h8]
    exact ⟨⟨by simp, by simp⟩, fun v rest hr => by
      simp only [Except.ok.injEq, Prod.mk.injEq] at hr
      rw [← hr.2]
      exact hb⟩
  · interval_cases ic <;>
      first
        | exact unpack_integer_body_clean 1 false bs hb
        | exact unpack_integer_body_clean 2 false bs hb
        | exact unpack_integer_body_clean 4 false bs hb
        | exact unpack_integer_body_clean 8 false bs hb
        | exact unpack_integer_body_clean 1 true bs hb
        | exact unpack_integer_body_clean 2 true bs hb
        | exact unpack_integer_body_clean 4 true bs hb
        | exact unpack_integer_body_clean 8 true bs hb
  · have he : ic &&& 0xE0 = 0xE0 := by interval_cases ic <;> decide
    rw [unpack_integer, if_pos he]
    exact ⟨⟨by simp, by simp⟩, fun v rest hr => by
      simp only [Except.ok.injEq, Prod.mk.injEq] at hr
      rw [← hr.2]
      exact hb⟩

theorem unpack_float_clean (ic : Nat) (bs : List Nat) (hb : Bytes bs)
    (h : ic = 0xCA ∨ ic = 0xCB) : CleanOk (unpack_float ic bs) := by
  rcases h with h | h <;> subst h
  · rw [unpack_float, if_pos rfl]
    rcases readN_cases 4 bs with h2 | h2 <;> rw [h2] <;> dsimp only
    · exact ⟨⟨by simp, by simp⟩, by simp⟩
    · refine ⟨⟨by simp, by simp⟩, fun v rest hr => ?_⟩
      simp only [Except.ok.injEq, Prod.mk.injEq] at hr
      rw [← hr.2]
      exact bytes_drop bs 4 hb
  · rw [unpack_float, if_neg (by decide), if_pos rfl]
    rcases readN_cases 8 bs with h2 | h2 <;> rw [h2] <;> dsimp only
    · exact ⟨⟨by simp, by simp⟩, by simp⟩
    · refine ⟨⟨by simp, by simp⟩, fun v rest hr => ?_⟩
      simp only [Except.ok.injEq, Prod.mk.injEq] at hr
      rw [← hr.2]
      exact bytes_drop bs 8 hb

theorem string_length_clean (ic : Nat) (bs : List Nat) (hb : Bytes bs)
    (h : (0xA0 ≤ ic ∧ ic ≤ 0xBF) ∨ ic = 0xD9 ∨ ic = 0xDA ∨ ic = 0xDB) :
    CleanLen (string_length ic bs) := by
  rcases h with ⟨h1, h2⟩ | h | h | h
  · have ha : ic &&& 0xE0 = 0xA0 := by interval_cases ic <;> decide
    rw [string_length, if_pos ha]
    exact ⟨by simp, by simp, fun n rest hr => by
      simp only [Except.ok.injEq, Prod.mk.injEq] at hr
      rw [← hr.2]
      exact hb⟩
  · subst h
    rw [string_length, if_neg (by decide), if_pos rfl]
    exact readN_clean_len 1 bs hb
  · subst h
    rw [string_length, if_neg (by decide), if_neg (by decide), if_pos rfl]
    exact readN_clean_len 2 bs hb
  · subst h
    rw [string_length, if_neg (by decide), if_neg (by decide), if_neg (by decide),
      if_pos rfl]
    exact readN_clean_len 4 bs hb

theorem unpack_string_clean (options : Options) (ic : Nat) (bs : List Nat)
    (hb : Bytes bs)
    (h : (0xA0 ≤ ic ∧ ic ≤ 0xBF) ∨ ic = 0xD9 ∨ ic = 0xDA ∨ ic = 0xDB) :
    CleanOk (unpack_string options ic bs) := by
  have hlen := string_length_clean ic bs hb h
  rw [unpack_string]
  cases hs : string_length ic bs with
  | error e =>
    dsimp only
    rw [hs] at hlen
    have he1 : e ≠ Err.logicError := fun hc => hlen.1 (by rw [hc])
    have he2 : e ≠ Err.structError := fun hc => hlen.2.1 (by rw [hc])
    exact ⟨⟨by simp [he1], by simp [he2]⟩, by simp⟩
  | ok p =>
    obtain ⟨length, bs1⟩ := p
    dsimp only
    have hb1 : Bytes bs1 := hlen.2.2 length bs1 hs
    rcases readN_cases length bs1 with h2 | h2 <;> rw [h2] <;> dsimp only
    · exact ⟨⟨by simp, by simp⟩, by simp⟩
    · split
      · refine ⟨⟨by simp, by simp⟩, fun v rest hr => ?_⟩
        simp only [Except.ok.injEq, Prod.mk.injEq] at hr
        rw [← hr.2]
        exact bytes_drop bs1 length hb1
      · split
        · refine ⟨⟨by simp, by simp⟩, fun v rest hr => ?_⟩
          simp only [Except.ok.injEq, Prod.mk.injEq] at hr
          rw [← hr.2]
          exact bytes_drop bs1 length hb1
        · exact ⟨⟨by simp, by simp⟩, by simp⟩

theorem unpack_binary_body_clean (w : Nat) (bs : List Nat) (hb : Bytes bs) :
    CleanOk (match readN w bs with
      | .error e => .error e
      | .ok (ld, bs1) =>
        match readN (beVal ld) bs1 with
        | .error e => .error e
        | .ok (data, rest) => .ok (MVal.bin data, rest)) := by
  rcases readN_cases w bs with h2 | h2 <;> rw [h2] <;> dsimp only
  · exact ⟨⟨by simp, by simp⟩, by simp⟩
  · rcases readN_cases (beVal (bs.take w)) (bs.drop w) with h3 | h3 <;> rw [h3] <;> dsimp only
    · exact ⟨⟨by simp, by simp⟩, by simp⟩
    · refine ⟨⟨by simp, by simp⟩, fun v rest hr => ?_⟩
      simp only [Except.ok.injEq, Prod.mk.injEq] at hr
      rw [← hr.2]
      exact bytes_drop _ _ (bytes_drop bs w hb)

theorem unpack_binary_clean (ic : Nat) (bs : List Nat) (hb : Bytes bs)
    (h : ic = 0xC4 ∨ ic = 0xC5 ∨ ic = 0xC6) : CleanOk (unpack_binary ic bs) := by
  rcases h with h | h | h <;> subst h
  · rw [unpack_binary, if_pos rfl]
    exact unpack_binary_body_clean 1 bs hb
  · rw [unpack_binary, if_neg (by decide), if_pos rfl]
    exact unpack_binary_body_clean 2 bs hb
  · rw [unpack_binary, if_neg (by decide), if_neg (by decide), if_pos rfl]
    exact unpack_binary_body_clean 4 bs hb

theorem ext_length_clean (ic : Nat) (bs : List Nat) (hb : Bytes bs)
    (h : (0xC7 ≤ ic ∧ ic ≤ 0xC9) ∨ (0xD4 ≤ ic ∧ ic ≤ 0xD8)) :
    CleanLen (ext_length ic bs) := by
  rcases h with ⟨h1, h2⟩ | ⟨h1, h2⟩
  · interval_cases ic
    · exact readN_clean_len 1 bs hb
    · exact readN_clean_len 2 bs hb
    · exact readN_clean_len 4 bs hb
  · interval_cases ic <;>
      exact ⟨by simp [ext_length], by simp [ext_length], fun n rest hr => by
        simp only [ext_length] at hr
        norm_num at hr
        rw [← hr.2]
        exact hb⟩

theorem unpack_ext_clean (pk : Packers) (options : Options) (ic : Nat)
    (bs : List Nat) (hb : Bytes bs)
    (h : (0xC7 ≤ ic ∧ ic ≤ 0xC9) ∨ (0xD4 ≤ ic ∧ ic ≤ 0xD8)) :
    CleanOk (unpack_ext pk options ic bs) := by
  have hlen := ext_length_clean ic bs hb h
  rw [unpack_ext]
  cases hl : ext_length ic bs with
  | error e =>
    dsimp only
    rw [hl] at hlen
    have he1 : e ≠ Err.logicError := fun hc => hlen.1 (by rw [hc])
    have he2 : e ≠ Err.structError := fun hc => hlen.2.1 (by rw [hc])
    exact ⟨⟨by simp [he1], by simp [he2]⟩, by simp⟩
  | ok p =>
    obtain ⟨length, bs1⟩ := p
    dsimp only
    have hb1 : Bytes bs1 := hlen.2.2 length bs1 hl
    rcases readN_cases 1 bs1 with h2 | h2 <;> rw [h2] <;> dsimp only
    · exact ⟨⟨by simp, by simp⟩, by simp⟩
    · have hb2 : Bytes (bs1.drop 1) := bytes_drop bs1 1 hb1
      rcases readN_cases length (bs1.drop 1) with h3 | h3 <;> rw [h3] <;> dsimp only
      · exact ⟨⟨by simp, by simp⟩, by simp⟩
      · cases pk (toSigned 1 (beVal (bs1.take 1))) with
        | some cls =>
          dsimp only
          refine ⟨⟨by simp, by simp⟩, fun v rest hr => ?_⟩
          simp only [Except.ok.injEq, Prod.mk.injEq] at hr
          rw [← hr.2]
          exact bytes_drop _ _ hb2
        | none => exact ⟨⟨by simp, by simp⟩, by simp⟩

theorem array_length_clean (ic : Nat) (bs : List Nat) (hb : Bytes bs)
    (h : (0x90 ≤ ic ∧ ic ≤ 0x9F) ∨ ic = 0xDC ∨ ic = 0xDD) :
    CleanLen (array_length ic bs) := by
  rcases h with ⟨h1, h2⟩ | h | h
  · have ha : ic &&& 0xF0 = 0x90 := by interval_cases ic <;> decide
    rw [array_length, if_pos ha]
    exact ⟨by simp, by simp, fun n rest hr => by
      simp only [Except.ok.injEq, Prod.mk.injEq] at hr
      rw [← hr.2]
      exact hb⟩
  · subst h
    rw [array_length, if_neg (by decide), if_pos rfl]
    exact readN_clean_len 2 bs hb
  · subst h
    rw [array_length, if_neg (by decide), if_neg (by decide), if_pos rfl]
    exact readN_clean_len 4 bs hb

theorem map_length_clean (ic : Nat) (bs : List Nat) (hb : Bytes bs)
    (h : (0x80 ≤ ic ∧ ic ≤ 0x8F) ∨ ic = 0xDE ∨ ic = 0xDF) :
    CleanLen (map_length ic bs) := by
  rcases h with ⟨h1, h2⟩ | h | h
  · have ha : ic &&& 0xF0 = 0x80 := by interval_cases ic <;> decide
    rw [map_length, if_pos ha]
    exact ⟨by simp, by simp, fun n rest hr => by
      simp only [Except.ok.injEq, Prod.mk.injEq] at hr
      rw [← hr.2]
      exact hb⟩
  · subst h
    rw [map_length, if_neg (by decide), if_pos rfl]
    exact readN_clean_len 2 bs hb
  · subst h
    rw [map_length, if_neg (by decide), if_neg (by decide), if_pos rfl]
    exact readN_clean_len 4 bs hb

theorem unpack_array_go_clean (rec : MpRec)
    (hrec : ∀ bs, Bytes bs → CleanOk (rec bs)) :
    ∀ count acc bs, Bytes bs →
      (unpack_array_go rec count acc bs ≠ .error Err.logicError ∧
       unpack_array_go rec count acc bs ≠ .error Err.structError ∧
       ∀ xs rest, unpack_array_go rec count acc bs = .ok (xs, rest) → Bytes rest) := by
  intro count
  induction count with
  | zero =>
    intro acc bs hb
    rw [unpack_array_go]
    exact ⟨by simp, by simp, fun xs rest hr => by
      simp only [Except.ok.injEq, Prod.mk.injEq] at hr
      rw [← hr.2]
      exact hb⟩
  | succ n ih =>
    intro acc bs hb
    rw [unpack_array_go]
    cases hr : rec bs with
    | error e =>
      dsimp only
      have hcl := hrec bs hb
      rw [hr] at hcl
      have he1 : e ≠ Err.logicError := fun hc => hcl.1.1 (by rw [hc])
      have he2 : e ≠ Err.structError := fun hc => hcl.1.2 (by rw [hc])
      exact ⟨by simp [he1], by simp [he2], by simp⟩
    | ok p =>
      obtain ⟨v, bs'⟩ := p
      dsimp only
      exact ih (acc ++ [v]) bs' ((hrec bs hb).2 v bs' hr)

theorem unpack_array_clean (rec : MpRec)
    (hrec : ∀ bs, Bytes bs → CleanOk (rec bs)) (options : Options) (ic : Nat)
    (bs : List Nat) (hb : Bytes bs)
    (h : (0x90 ≤ ic ∧ ic ≤ 0x9F) ∨ ic = 0xDC ∨ ic = 0xDD) :
    CleanOk (unpack_array rec options ic bs) := by
  have hlen := array_length_clean ic bs hb h
  rw [unpack_array]
  cases hl : array_length ic bs with
  | error e =>
    dsimp only
    rw [hl] at hlen
    have he1 : e ≠ Err.logicError := fun hc => hlen.1 (by rw [hc])
    have he2 : e ≠ Err.structError := fun hc => hlen.2.1 (by rw [hc])
    exact ⟨⟨by simp [he1], by simp [he2]⟩, by simp⟩
  | ok p =>
    obtain ⟨length, bs1⟩ := p
    dsimp only
    have hb1 : Bytes bs1 := hlen.2.2 length bs1 hl
    have hgo := unpack_array_go_clean rec hrec length [] bs1 hb1
    cases hg : unpack_array_go rec length [] bs1 with
    | error e =>
      dsimp only
      rw [hg] at hgo
      have he1 : e ≠ Err.logicError := fun hc => hgo.1 (by rw [hc])
      have he2 : e ≠ Err.structError := fun hc => hgo.2.1 (by rw [hc])
      exact ⟨⟨by simp [he1], by simp [he2]⟩, by simp⟩
    | ok p =>
      obtain ⟨xs, rest⟩ := p
      dsimp only
      refine ⟨⟨by simp, by simp⟩, fun v r hr => ?_⟩
      simp only [Except.ok.injEq, Prod.mk.injEq] at hr
      rw [← hr.2]
      exact hgo.2.2 xs rest hg

theorem unpack_map_go_clean (rec : MpRec)
    (hrec : ∀ bs, Bytes bs → CleanOk (rec bs)) :
    ∀ count d bs, Bytes bs →
      (unpack_map_go rec count d bs ≠ .error Err.logicError ∧
       unpack_map_go rec count d bs ≠ .error Err.structError ∧
       ∀ xs rest, unpack_map_go rec count d bs = .ok (xs, rest) → Bytes rest) := by
  intro count
  induction count with
  | zero =>
    intro d bs hb
    rw [unpack_map_go]
    exact ⟨by simp, by simp, fun xs rest hr => by
      simp only [Except.ok.injEq, Prod.mk.injEq] at hr
      rw [← hr.2]
      exact hb⟩
  | succ n ih =>
    intro d bs hb
    rw [unpack_map_go]
    cases hr : rec bs with
    | error e =>
      dsimp only
      have hcl := hrec bs hb
      rw [hr] at hcl
      have he1 : e ≠ Err.logicError := fun hc => hcl.1.1 (by rw [hc])
      have he2 : e ≠ Err.structError := fun hc => hcl.1.2 (by rw [hc])
      exact ⟨by simp [he1], by simp [he2], by simp⟩
    | ok p =>
      obtain ⟨k0, bs1⟩ := p
      dsimp only
      have hb1 : Bytes bs1 := (hrec bs hb).2 k0 bs1 hr
      split
      · exact ⟨by simp, by simp, by simp⟩
      · split
        · exact ⟨by simp, by simp, by simp⟩
        · cases hv : rec bs1 with
          | error e =>
            dsimp only
            have hcl := hrec bs1 hb1
            rw [hv] at hcl
            have he1 : e ≠ Err.logicError := fun hc => hcl.1.1 (by rw [hc])
            have he2 : e ≠ Err.structError := fun hc => hcl.1.2 (by rw [hc])
            exact ⟨by simp [he1], by simp [he2], by simp⟩
          | ok p =>
            obtain ⟨v, bs2⟩ := p
            dsimp only
            exact ih _ bs2 ((hrec bs1 hb1).2 v bs2 hv)

theorem unpack_map_clean (rec : MpRec)
    (hrec : ∀ bs, Bytes bs → CleanOk (rec bs)) (options : Options) (ic : Nat)
    (bs : List Nat) (hb : Bytes bs)
    (h : (0x80 ≤ ic ∧ ic ≤ 0x8F) ∨ ic = 0xDE ∨ ic = 0xDF) :
    CleanOk (unpack_map rec options ic bs) := by
  have hlen := map_length_clean ic bs hb h
  rw [unpack_map]
  cases hl : map_length ic bs with
  | error e =>
    dsimp only
    rw [hl] at hlen
    have he1 : e ≠ Err.logicError := fun hc => hlen.1 (by rw [hc])
    have he2 : e ≠ Err.structError := fun hc => hlen.2.1 (by rw [hc])
    exact ⟨⟨by simp [he1], by simp [he2]⟩, by simp⟩
  | ok p =>
    obtain ⟨length, bs1⟩ := p
    dsimp only
    have hb1 : Bytes bs1 := hlen.2.2 length bs1 hl
    have hgo := unpack_map_go_clean rec hrec length [] bs1 hb1
    cases hg : unpack_map_go rec length [] bs1 with
    | error e =>
      dsimp only
      rw [hg] at hgo
      have he1 : e ≠ Err.logicError := fun hc => hgo.1 (by rw [hc])
      have he2 : e ≠ Err.structError := fun hc => hgo.2.1 (by rw [hc])
      exact ⟨⟨by simp [he1], by simp [he2]⟩, by simp⟩
    | ok p =>
      obtain ⟨d, rest⟩ := p
      dsimp only
      refine ⟨⟨by simp, by simp⟩, fun v r hr => ?_⟩
      simp only [Except.ok.injEq, Prod.mk.injEq] at hr
      rw [← hr.2]
      exact hgo.2.2 d rest hg

theorem mpload_clean (pk : Packers) (options : Options) :
    ∀ fuel bs, Bytes bs → CleanOk (mpload pk options fuel bs) := by
  intro fuel
  induction fuel with
  | zero =>
    intro bs hb
    exact ⟨⟨by simp [mpload], by simp [mpload]⟩, by simp [mpload]⟩
  | succ fuel ih =>
    intro bs hb
    cases bs with
    | nil => exact ⟨⟨by simp [mpload], by simp [mpload]⟩, by simp [mpload]⟩
    | cons ic bs =>
      have hic : ic < 256 := hb ic (List.mem_cons_self ic bs)
      have hrest : Bytes bs := fun b hm => hb b (List.mem_cons_of_mem ic hm)
      rw [mpload]
      by_cases hint : ic ≤ 0x7F ∨ (0xCC ≤ ic ∧ ic ≤ 0xD3) ∨ (0xE0 ≤ ic ∧ ic ≤ 0xFF)
      · rw [if_pos hint]
        exact unpack_integer_clean ic bs hrest hint
      · rw [if_neg hint]
        push_neg at hint
        obtain ⟨hn1, hn2, hn3⟩ := hint
        by_cases hc9 : ic ≤ 0xC9
        · rw [if_pos hc9]
          by_cases hc3 : ic ≤ 0xC3
          · rw [if_pos hc3]
            by_cases h8f : ic ≤ 0x8F
            · rw [if_pos h8f]
              exact unpack_map_clean _ ih options ic bs hrest (Or.inl ⟨by omega, h8f⟩)
            · rw [if_neg h8f]
              by_cases h9f : ic ≤ 0x9F
              · rw [if_pos h9f]
                exact unpack_array_clean _ ih options ic bs hrest (Or.inl ⟨by omega, h9f⟩)
              · rw [if_neg h9f]
                by_cases hbf : ic ≤ 0xBF
                · rw [if_pos hbf]
                  exact unpack_string_clean options ic bs hrest (Or.inl ⟨by omega, hbf⟩)
                · rw [if_neg hbf]
                  by_cases hc1 : ic = 0xC1
                  · rw [if_pos hc1]
                    exact ⟨⟨by simp, by simp⟩, by simp⟩
                  · rw [if_neg hc1]
                    exact ⟨⟨by simp, by simp⟩, fun v rest hr => by
                      simp only [Except.ok.injEq, Prod.mk.injEq] at hr
                      rw [← hr.2]
                      exact hrest⟩
          · rw [if_neg hc3]
            by_cases hc6 : ic ≤ 0xC6
            · rw [if_pos hc6]
              exact unpack_binary_clean ic bs hrest (by omega)
            · rw [if_neg hc6]
              exact unpack_ext_clean pk options ic bs hrest (Or.inl ⟨by omega, hc9⟩)
        · rw [if_neg hc9]
          by_cases hcb : ic ≤ 0xCB
          · rw [if_pos hcb]
            exact unpack_float_clean ic bs hrest (by omega)
          · rw [if_neg hcb]
            by_cases hd8 : ic ≤ 0xD8
            · rw [if_pos hd8]
              exact unpack_ext_clean pk options ic bs hrest (Or.inr ⟨by omega, hd8⟩)
            · rw [if_neg hd8]
              by_cases hdb : ic ≤ 0xDB
              · rw [if_pos hdb]
                exact unpack_string_clean options ic bs hrest (by omega)
              · rw [if_neg hdb]
                by_cases hdd : ic ≤ 0xDD
                · rw [if_pos hdd]
                  exact unpack_array_clean _ ih options ic bs hrest (by omega)
                · rw [if_neg hdd]
                  exact unpack_map_clean _ ih options ic bs hrest (by omega)

/-- C10: the buffered decoder's tag dispatch is total over tag bytes — for
every byte-valued input, every options dict and every registry, mpload
never produces the debug-only Logic error of _fail nor a struct.error from
the IndexError fallback's format slice in _unpack_integer: each handler is
reached only with tag bytes its branches cover. -/
theorem C10_dispatch_no_logic_error (pk : Packers) (options : Options)
    (fuel : Nat) (bs : List Nat) (hb : Bytes bs) :
    mpload pk options fuel bs ≠ .error Err.logicError ∧
    mpload pk options fuel bs ≠ .error Err.structError :=
  (mpload_clean pk options fuel bs hb).1

/-- Witness for C10 on a concrete two-byte array input. -/
theorem C10_witness :
    mpload noPackers defaultOpts 2 [0x91, 0xC3] ≠ .error Err.logicError ∧
    mpload noPackers defaultOpts 2 [0x91, 0xC3] ≠ .error Err.structError :=
  C10_dispatch_no_logic_error noPackers defaultOpts 2 [0x91, 0xC3] (by decide)

/-- Observer trace invariant for one streaming step: on success the trace
has only been appended to, and the appended chunks concatenate to exactly
the bytes the step consumed. -/
def TraceOk {α : Type} (bs : List Nat) (tr : List (List Nat))
    (r : Except Err (α × List Nat × List (List Nat))) : Prop :=
  ∀ x bs' tr', r = .ok (x, bs', tr') → ∃ new, tr' = tr ++ new ∧ new.flatten ++ bs' = bs

theorem traceok_comp {new1 new2 : List (List Nat)} {bs bs1 bs2 : List Nat}
    {tr tr1 tr2 : List (List Nat)}
    (h1 : tr1 = tr ++ new1) (h2 : new1.flatten ++ bs1 = bs)
    (h3 : tr2 = tr1 ++ new2) (h4 : new2.flatten ++ bs2 = bs1) :
    ∃ new, tr2 = tr ++ new ∧ new.flatten ++ bs2 = bs := by
  refine ⟨new1 ++ new2, ?_, ?_⟩
  · rw [h3, h1, List.append_assoc]
  · rw [List.flatten_append, List.append_assoc, h4, h2]

theorem as_re_traceok (n : Nat) (bs : List Nat) (tr : List (List Nat)) :
    TraceOk bs tr (as_re n bs tr) := by
  intro x bs' tr' hr
  rw [as_re] at hr
  split at hr
  · simp only [Except.ok.injEq, Prod.mk.injEq] at hr
    obtain ⟨hx, hbs, htr⟩ := hr
    refine ⟨[bs.take n], htr.symm, ?_⟩
    rw [← hbs]
    simp [List.take_append_drop]
  · exact absurd hr (by simp)

theorem as_unpack_integer_traceok (code : Nat) (bs : List Nat) (tr : List (List Nat)) :
    TraceOk bs tr (as_unpack_integer code bs tr) := by
  intro x bs' tr' hr
  rw [as_unpack_integer] at hr
  split at hr
  · simp only [Except.ok.injEq, Prod.mk.injEq] at hr
    exact ⟨[], by simp [hr.2.2.symm], by simp [hr.2.1.symm]⟩
  · split at hr
    · simp only [Except.ok.injEq, Prod.mk.injEq] at hr
      exact ⟨[], by simp [hr.2.2.symm], by simp [hr.2.1.symm]⟩
    · cases hif : intFmt (code - 0xCC) with
      | none => rw [hif] at hr; exact absurd hr (by simp)
      | some p =>
        obtain ⟨signed, w⟩ := p
        rw [hif] at hr
        dsimp only at hr
        cases hre : as_re w bs tr with
        | error e => rw [hre] at hr; exact absurd hr (by simp)
        | ok p =>
          obtain ⟨data, rest, tr1⟩ := p
          rw [hre] at hr
          simp only [Except.ok.injEq, Prod.mk.injEq] at hr
          obtain ⟨nw, hn1, hn2⟩ := as_re_traceok w bs tr data rest tr1 hre
          exact ⟨nw, by rw [← hr.2.2, hn1], by rw [← hr.2.1, hn2]⟩

theorem as_unpack_float_traceok (code : Nat) (bs : List Nat) (tr : List (List Nat)) :
    TraceOk bs tr (as_unpack_float code bs tr) := by
  intro x bs' tr' hr
  rw [as_unpack_float] at hr
  split at hr
  · cases hre : as_re 4 bs tr with
    | error e => rw [hre] at hr; exact absurd hr (by simp)
    | ok p =>
      obtain ⟨data, rest, tr1⟩ := p
      rw [hre] at hr
      simp only [Except.ok.injEq, Prod.mk.injEq] at hr
      obtain ⟨nw, hn1, hn2⟩ := as_re_traceok 4 bs tr data rest tr1 hre
      exact ⟨nw, by rw [← hr.2.2, hn1], by rw [← hr.2.1, hn2]⟩
  · split at hr
    · cases hre : as_re 8 bs tr with
      | error e => rw [hre] at hr; exact absurd hr (by simp)
      | ok p =>
        obtain ⟨data, rest, tr1⟩ := p
        rw [hre] at hr
        simp only [Except.ok.injEq, Prod.mk.injEq] at hr
        obtain ⟨nw, hn1, hn2⟩ := as_re_traceok 8 bs tr data rest tr1 hre
        exact ⟨nw, by rw [← hr.2.2, hn1], by rw [← hr.2.1, hn2]⟩
    · exact absurd hr (by simp)

theorem length_field_traceok (w : Nat) (bs : List Nat) (tr : List (List Nat)) :
    TraceOk bs tr (match as_re w bs tr with
      | .error e => .error e
      | .ok (data, rest, tr') => .ok (beVal data, rest, tr')) := by
  intro x bs' tr' hr
  cases hre : as_re w bs tr with
  | error e => rw [hre] at hr; exact absurd hr (by simp)
  | ok p =>
    obtain ⟨data, rest, tr1⟩ := p
    rw [hre] at hr
    simp only [Except.ok.injEq, Prod.mk.injEq] at hr
    obtain ⟨nw, hn1, hn2⟩ := as_re_traceok w bs tr data rest tr1 hre
    exact ⟨nw, by rw [← hr.2.2, hn1], by rw [← hr.2.1, hn2]⟩

theorem as_string_length_traceok (code : Nat) (bs : List Nat) (tr : List (List Nat)) :
    TraceOk bs tr (as_string_length code bs tr) := by
  intro x bs' tr' hr
  rw [as_string_length] at hr
  split at hr
  · simp only [Except.ok.injEq, Prod.mk.injEq] at hr
    exact ⟨[], by simp [hr.2.2.symm], by simp [hr.2.1.symm]⟩
  · split at hr
    · exact length_field_traceok 1 bs tr x bs' tr' hr
    · split at hr
      · exact length_field_traceok 2 bs tr x bs' tr' hr
      · split at hr
        · exact length_field_traceok 4 bs tr x bs' tr' hr
        · exact absurd hr (by simp)

theorem as_unpack_string_traceok (options : Options) (code : Nat) (bs : List Nat)
    (tr : List (List Nat)) : TraceOk bs tr (as_unpack_string options code bs tr) := by
  intro x bs' tr' hr
  rw [as_unpack_string] at hr
  cases hsl : as_string_length code bs tr with
  | error e => rw [hsl] at hr; exact absurd hr (by simp)
  | ok p =>
    obtain ⟨length, bs1, tr1⟩ := p
    rw [hsl] at hr
    dsimp only at hr
    obtain ⟨n1, h1, h2⟩ := as_string_length_traceok code bs tr length bs1 tr1 hsl
    cases hre : as_re length bs1 tr1 with
    | error e => rw [hre] at hr; exact absurd hr (by simp)
    | ok p =>
      obtain ⟨data, rest, tr2⟩ := p
      rw [hre] at hr
      obtain ⟨n2, h3, h4⟩ := as_re_traceok length bs1 tr1 data rest tr2 hre
      dsimp only at hr
      split at hr
      · simp only [Except.ok.injEq, Prod.mk.injEq] at hr
        obtain ⟨nw, hn1, hn2⟩ := traceok_comp h1 h2 h3 h4
        exact ⟨nw, by rw [← hr.2.2, hn1], by rw [← hr.2.1, hn2]⟩
      · split at hr
        · simp only [Except.ok.injEq, Prod.mk.injEq] at hr
          obtain ⟨nw, hn1, hn2⟩ := traceok_comp h1 h2 h3 h4
          exact ⟨nw, by rw [← hr.2.2, hn1], by rw [← hr.2.1, hn2]⟩
        · exact absurd hr (by simp)

theorem as_unpack_binary_traceok (code : Nat) (bs : List Nat)
    (tr : List (List Nat)) : TraceOk bs tr (as_unpack_binary code bs tr) := by
  have body : ∀ w, TraceOk bs tr (match as_re w bs tr with
      | .error e => .error e
      | .ok (ld, bs1, tr1) =>
        match as_re (beVal ld) bs1 tr1 with
        | .error e => .error e
        | .ok (data, rest, tr2) => .ok (MVal.bin data, rest, tr2)) := by
    intro w x bs' tr' hr
    cases hre : as_re w bs tr with
    | error e => rw [hre] at hr; exact absurd hr (by simp)
    | ok p =>
      obtain ⟨ld, bs1, tr1⟩ := p
      rw [hre] at hr
      dsimp only at hr
      obtain ⟨n1, h1, h2⟩ := as_re_traceok w bs tr ld bs1 tr1 hre
      cases hre2 : as_re (beVal ld) bs1 tr1 with
      | error e => rw [hre2] at hr; exact absurd hr (by simp)
      | ok p =>
        obtain ⟨data, rest, tr2⟩ := p
        rw [hre2] at hr
        simp only [Except.ok.injEq, Prod.mk.injEq] at hr
        obtain ⟨n2, h3, h4⟩ := as_re_traceok (beVal ld) bs1 tr1 data rest tr2 hre2
        obtain ⟨nw, hn1, hn2⟩ := traceok_comp h1 h2 h3 h4
        exact ⟨nw, by rw [← hr.2.2, hn1], by rw [← hr.2.1, hn2]⟩
  intro x bs' tr' hr
  rw [as_unpack_binary] at hr
  split at hr
  · exact body 1 x bs' tr' hr
  · split at hr
    · exact body 2 x bs' tr' hr
    · split at hr
      · exact body 4 x bs' tr' hr
      · exact absurd hr (by simp)

theorem as_array_length_traceok (code : Nat) (bs : List Nat) (tr : List (List Nat)) :
    TraceOk bs tr (as_array_length code bs tr) := by
  intro x bs' tr' hr
  rw [as_array_length] at hr
  split at hr
  · simp only [Except.ok.injEq, Prod.mk.injEq] at hr
    exact ⟨[], by simp [hr.2.2.symm], by simp [hr.2.1.symm]⟩
  · split at hr
    · exact length_field_traceok 2 bs tr x bs' tr' hr
    · split at hr
      · exact length_field_traceok 4 bs tr x bs' tr' hr
      · exact absurd hr (by simp)

theorem as_map_length_traceok (code : Nat) (bs : List Nat) (tr : List (List Nat)) :
    TraceOk bs tr (as_map_length code bs tr) := by
  intro x bs' tr' hr
  rw [as_map_length] at hr
  split at hr
  · simp only [Except.ok.injEq, Prod.mk.injEq] at hr
    exact ⟨[], by simp [hr.2.2.symm], by simp [hr.2.1.symm]⟩
  · split at hr
    · exact length_field_traceok 2 bs tr x bs' tr' hr
    · split at hr
      · exact length_field_traceok 4 bs tr x bs' tr' hr
      · exact absurd hr (by simp)

theorem as_unpack_array_go_traceok (rec : AsRec)
    (hrec : ∀ bs tr, TraceOk bs tr (rec bs tr)) :
    ∀ count acc bs tr, TraceOk bs tr (as_unpack_array_go rec count acc bs tr) := by
  intro count
  induction count with
  | zero =>
    intro acc bs tr x bs' tr' hr
    rw [as_unpack_array_go] at hr
    simp only [Except.ok.injEq, Prod.mk.injEq] at hr
    exact ⟨[], by simp [hr.2.2.symm], by simp [hr.2.1.symm]⟩
  | succ n ih =>
    intro acc bs tr x bs' tr' hr
    rw [as_unpack_array_go] at hr
    cases hre : rec bs tr with
    | error e => rw [hre] at hr; exact absurd hr (by simp)
    | ok p =>
      obtain ⟨v, bs1, tr1⟩ := p
      rw [hre] at hr
      dsimp only at hr
      obtain ⟨n1, h1, h2⟩ := hrec bs tr v bs1 tr1 hre
      obtain ⟨n2, h3, h4⟩ := ih (acc ++ [v]) bs1 tr1 x bs' tr' hr
      exact traceok_comp h1 h2 h3 h4

theorem as_unpack_array_traceok (rec : AsRec)
    (hrec : ∀ bs tr, TraceOk bs tr (rec bs tr)) (options : Options) (code : Nat)
    (bs : List Nat) (tr : List (List Nat)) :
    TraceOk bs tr (as_unpack_array rec options code bs tr) := by
  intro x bs' tr' hr
  rw [as_unpack_array] at hr
  cases hal : as_array_length code bs tr with
  | error e => rw [hal] at hr; exact absurd hr (by simp)
  | ok p =>
    obtain ⟨length, bs1, tr1⟩ := p
    rw [hal] at hr
    dsimp only at hr
    obtain ⟨n1, h1, h2⟩ := as_array_length_traceok code bs tr length bs1 tr1 hal
    cases hgo : as_unpack_array_go rec length [] bs1 tr1 with
    | error e => rw [hgo] at hr; exact absurd hr (by simp)
    | ok p =>
      obtain ⟨xs, rest, tr2⟩ := p
      rw [hgo] at hr
      simp only [Except.ok.injEq, Prod.mk.injEq] at hr
      obtain ⟨n2, h3, h4⟩ :=
        as_unpack_array_go_traceok rec hrec length [] bs1 tr1 xs rest tr2 hgo
      obtain ⟨nw, hn1, hn2⟩ := traceok_comp h1 h2 h3 h4
      exact ⟨nw, by rw [← hr.2.2, hn1], by rw [← hr.2.1, hn2]⟩

theorem as_unpack_map_go_traceok (rec : AsRec)
    (hrec : ∀ bs tr, TraceOk bs tr (rec bs tr)) :
    ∀ count d bs tr, TraceOk bs tr (as_unpack_map_go rec count d bs tr) := by
  intro count
  induction count with
  | zero =>
    intro d bs tr x bs' tr' hr
    rw [as_unpack_map_go] at hr
    simp only [Except.ok.injEq, Prod.mk.injEq] at hr
    exact ⟨[], by simp [hr.2.2.symm], by simp [hr.2.1.symm]⟩
  | succ n ih =>
    intro d bs tr x bs' tr' hr
    rw [as_unpack_map_go] at hr
    cases hre : rec bs tr with
    | error e => rw [hre] at hr; exact absurd hr (by simp)
    | ok p =>
      obtain ⟨k0, bs1, tr1⟩ := p
      rw [hre] at hr
      dsimp only at hr
      obtain ⟨n1, h1, h2⟩ := hrec bs tr k0 bs1 tr1 hre
      split at hr
      · exact absurd hr (by simp)
      · split at hr
        · exact absurd hr (by simp)
        · cases hrv : rec bs1 tr1 with
          | error e => rw [hrv] at hr; exact absurd hr (by simp)
          | ok p =>
            obtain ⟨v, bs2, tr2⟩ := p
            rw [hrv] at hr
            dsimp only at hr
            obtain ⟨n2, h3, h4⟩ := hrec bs1 tr1 v bs2 tr2 hrv
            obtain ⟨n12, h5, h6⟩ := traceok_comp h1 h2 h3 h4
            obtain ⟨n3, h7, h8⟩ := ih _ bs2 tr2 x bs' tr' hr
            exact traceok_comp h5 h6 h7 h8

theorem as_unpack_map_traceok (rec : AsRec)
    (hrec : ∀ bs tr, TraceOk bs tr (rec bs tr)) (options : Options) (code : Nat)
    (bs : List Nat) (tr : List (List Nat)) :
    TraceOk bs tr (as_unpack_map rec options code bs tr) := by
  intro x bs' tr' hr
  rw [as_unpack_map] at hr
  cases hal : as_map_length code bs tr with
  | error e => rw [hal] at hr; exact absurd hr (by simp)
  | ok p =>
    obtain ⟨length, bs1, tr1⟩ := p
    rw [hal] at hr
    dsimp only at hr
    obtain ⟨n1, h1, h2⟩ := as_map_length_traceok code bs tr length bs1 tr1 hal
    cases hgo : as_unpack_map_go rec length [] bs1 tr1 with
    | error e => rw [hgo] at hr; exact absurd hr (by simp)
    | ok p =>
      obtain ⟨d, rest, tr2⟩ := p
      rw [hgo] at hr
      simp only [Except.ok.injEq, Prod.mk.injEq] at hr
      obtain ⟨n2, h3, h4⟩ :=
        as_unpack_map_go_traceok rec hrec length [] bs1 tr1 d rest tr2 hgo
      obtain ⟨nw, hn1, hn2⟩ := traceok_comp h1 h2 h3 h4
      exact ⟨nw, by rw [← hr.2.2, hn1], by rw [← hr.2.1, hn2]⟩

set_option maxHeartbeats 2000000 in
theorem as_unpack_traceok (ec : ExtClasses) (options : Options) :
    ∀ fuel bs tr, TraceOk bs tr (as_unpack ec options fuel bs tr) := by
  intro fuel
  induction fuel with
  | zero =>
    intro bs tr x bs' tr' hr
    exact absurd hr (by simp [as_unpack])
  | succ fuel ih =>
    intro bs tr x bs' tr' hr
    rw [as_unpack] at hr
    cases hre : as_re 1 bs tr with
    | error e => rw [hre] at hr; exact absurd hr (by simp)
    | ok p =>
      obtain ⟨cb, bs1, tr1⟩ := p
      rw [hre] at hr
      dsimp only at hr
      obtain ⟨n1, h1, h2⟩ := as_re_traceok 1 bs tr cb bs1 tr1 hre
      have comp : ∀ {r : AsRes}, TraceOk bs1 tr1 r → r = .ok (x, bs', tr') →
          ∃ new, tr' = tr ++ new ∧ new.flatten ++ bs' = bs := by
        intro r htr hrr
        obtain ⟨n2, h3, h4⟩ := htr x bs' tr' hrr
        exact traceok_comp h1 h2 h3 h4
      split at hr
      · exact comp (as_unpack_integer_traceok _ bs1 tr1) hr
      · split at hr
        · split at hr
          · split at hr
            · exact comp (as_unpack_map_traceok _ ih options _ bs1 tr1) hr
            · split at hr
              · exact comp (as_unpack_array_traceok _ ih options _ bs1 tr1) hr
              · split at hr
                · exact comp (as_unpack_string_traceok options _ bs1 tr1) hr
                · split at hr
                  · exact absurd hr (by simp)
                  · simp only [Except.ok.injEq, Prod.mk.injEq] at hr
                    exact ⟨n1, by rw [← hr.2.2, h1], by rw [← hr.2.1, h2]⟩
          · split at hr
            · exact comp (as_unpack_binary_traceok _ bs1 tr1) hr
            · simp only [Except.ok.injEq, Prod.mk.injEq] at hr
              exact ⟨n1, by rw [← hr.2.2, h1], by rw [← hr.2.1, h2]⟩
        · split at hr
          · exact comp (as_unpack_float_traceok _ bs1 tr1) hr
          · split at hr
            · simp only [Except.ok.injEq, Prod.mk.injEq] at hr
              exact ⟨n1, by rw [← hr.2.2, h1], by rw [← hr.2.1, h2]⟩
            · split at hr
              · exact comp (as_unpack_string_traceok options _ bs1 tr1) hr
              · split at hr
                · exact comp (as_unpack_array_traceok _ ih options _ bs1 tr1) hr
                · exact comp (as_unpack_map_traceok _ ih options _ bs1 tr1) hr

/-- C4 (amended): during one streaming decode the observer is invoked once
per raw read with exactly the bytes just read (_re reports each readexactly
result, never aggregated — the trace collects precisely these chunks), and
for a completed top-level decode the concatenation of all delivered chunks
reproduces exactly the bytes consumed for that value.  No further
zero-length end-of-object invocation occurs: aload returns the moment
_unpack does. -/
theorem C4_observer_trace (ec : ExtClasses) (options : Options) (fuel : Nat)
    (bs : List Nat) (v : MVal) (rest : List Nat) (tr : List (List Nat))
    (h : as_unpack ec options fuel bs [] = .ok (v, rest, tr)) :
    tr.flatten ++ rest = bs := by
  obtain ⟨new, h1, h2⟩ := as_unpack_traceok ec options fuel bs [] v rest tr h
  rw [List.nil_append] at h1
  rw [h1]
  exact h2

/-- Witness for C4: a two-element array is consumed in three reads whose
chunks concatenate to the whole input. -/
theorem C4_witness :
    ([[0x92], [0x01], [0x02]] : List (List Nat)).flatten ++ []
      = [0x92, 0x01, 0x02] :=
  C4_observer_trace noExtClasses defaultOpts 2 [0x92, 0x01, 0x02]
    (MVal.list [MVal.int 1, MVal.int 2]) [] [[0x92], [0x01], [0x02]] (by decide)

/-- Counterexample to C4 as stated: the completed top-level decode of the
single byte 0x00 leaves the observer trace [[0x00]] — the observer is never
invoked once more with a zero-length chunk as an end-of-object marker. -/
theorem C4_counterexample :
    as_unpack noExtClasses defaultOpts 1 [0x00] [] = .ok (MVal.int 0, [], [[0x00]]) ∧
    ([[0x00]] : List (List Nat)).getLast? ≠ some [] :=
  ⟨by decide, by decide⟩

/-!
Lockstep correspondence between the buffered driver (mp_load) and the
streaming driver (as_load) on extension-free input, toward claim C1.  The
two drivers share their tag dispatch and value construction; they differ in
byte acquisition (readN against the buffer vs the traced readexactly) and
in the extension branches, where the streaming driver's missing await makes
it return a coroutine object.  mscan delimits the extension-free inputs.
-/

/-- Generic result correspondence between a buffered step and a streaming
step carrying a trace: equal payloads and remainders on success,
corresponding errors on failure. -/
def MatchGo {α : Type} (m : Except Err (α × List Nat))
    (a : Except Err (α × List Nat × List (List Nat))) : Prop :=
  match m, a with
  | .ok (x, r), .ok (x', r', _) => x = x' ∧ r = r'
  | .error e, .error e' => e' = asErrOf e
  | _, _ => False

/-- A MatchGo against a buffered error forces the corresponding streaming
error. -/
theorem matchgo_err {α : Type} {e : Err}
    {a : Except Err (α × List Nat × List (List Nat))}
    (h : MatchGo (.error e) a) : a = .error (asErrOf e) := by
  cases a with
  | error e' =>
    have h2 : e' = asErrOf e := h
    rw [h2]
  | ok p => exact (h : False).elim

/-- A MatchGo against a buffered success forces the same streaming payload
and remainder, with some trace. -/
theorem matchgo_ok {α : Type} {x : α} {r : List Nat}
    {a : Except Err (α × List Nat × List (List Nat))}
    (h : MatchGo (.ok (x, r)) a) : ∃ tr', a = .ok (x, r, tr') := by
  cases a with
  | error e => exact (h : False).elim
  | ok p =>
    obtain ⟨x', r', tr'⟩ := p
    have h2 : x = x' ∧ r = r' := h
    exact ⟨tr', by rw [h2.1, h2.2]⟩

/-- A MatchRes against a buffered error forces the corresponding streaming
error. -/
theorem matchres_err {e : Err} {a : AsRes}
    (h : MatchRes (.error e) a) : a = .error (asErrOf e) := by
  cases a with
  | error e' =>
    have h2 : e' = asErrOf e := h
    rw [h2]
  | ok p => exact (h : False).elim

/-- A MatchRes against a buffered success forces the same streaming value
and remainder, with some trace. -/
theorem matchres_ok {v : MVal} {r : List Nat} {a : AsRes}
    (h : MatchRes (.ok (v, r)) a) : ∃ tr', a = .ok (v, r, tr') := by
  cases a with
  | error e => exact (h : False).elim
  | ok p =>
    obtain ⟨v', r', tr'⟩ := p
    have h2 : v = v' ∧ r = r' := h
    exact ⟨tr', by rw [h2.1, h2.2]⟩

/-- The two byte acquisitions agree: both fail exactly when the request
exceeds the data (with their respective end-of-data errors), and both
deliver the same prefix/remainder split otherwise. -/
theorem rel_read (n : Nat) (bs : List Nat) (tr : List (List Nat)) :
    (¬ n ≤ bs.length ∧ readN n bs = .error Err.insufficientData ∧
      as_re n bs tr = .error Err.incompleteRead) ∨
    (n ≤ bs.length ∧ readN n bs = .ok (bs.take n, bs.drop n) ∧
      as_re n bs tr = .ok (bs.take n, bs.drop n, tr ++ [bs.take n])) := by
  rw [readN, as_re]
  by_cases h : n ≤ bs.length
  · exact Or.inr ⟨h, if_pos h, if_pos h⟩
  · exact Or.inl ⟨h, if_neg h, if_neg h⟩

/-- A big-endian length field read corresponds across the drivers. -/
theorem rel_length_field (n : Nat) (bs : List Nat) (tr : List (List Nat)) :
    MatchGo
      (match readN n bs with
        | .error e => .error e
        | .ok (data, rest) => .ok (beVal data, rest))
      (match as_re n bs tr with
        | .error e => .error e
        | .ok (data, rest, tr') => .ok (beVal data, rest, tr')) := by
  rcases rel_read n bs tr with ⟨_, h1, h2⟩ | ⟨_, h1, h2⟩ <;> rw [h1, h2]
  · exact rfl
  · exact ⟨rfl, rfl⟩

/-- The string length fields of the two drivers correspond. -/
theorem rel_string_length (code : Nat) (bs : List Nat) (tr : List (List Nat)) :
    MatchGo (string_length code bs) (as_string_length code bs tr) := by
  rw [string_length, as_string_length]
  by_cases h1 : code &&& 0xE0 = 0xA0
  · simp only [if_pos h1]; exact ⟨rfl, rfl⟩
  · simp only [if_neg h1]
    by_cases h2 : code = 0xD9
    · simp only [if_pos h2]; exact rel_length_field 1 bs tr
    · simp only [if_neg h2]
      by_cases h3 : code = 0xDA
      · simp only [if_pos h3]; exact rel_length_field 2 bs tr
      · simp only [if_neg h3]
        by_cases h4 : code = 0xDB
        · simp only [if_pos h4]; exact rel_length_field 4 bs tr
        · simp only [if_neg h4]; exact rfl

/-- The array length fields of the two drivers correspond. -/
theorem rel_array_length (code : Nat) (bs : List Nat) (tr : List (List Nat)) :
    MatchGo (array_length code bs) (as_array_length code bs tr) := by
  rw [array_length, as_array_length]
  by_cases h1 : code &&& 0xF0 = 0x90
  · simp only [if_pos h1]; exact ⟨rfl, rfl⟩
  · simp only [if_neg h1]
    by_cases h2 : code = 0xDC
    · simp only [if_pos h2]; exact rel_length_field 2 bs tr
    · simp only [if_neg h2]
      by_cases h3 : code = 0xDD
      · simp only [if_pos h3]; exact rel_length_field 4 bs tr
      · simp only [if_neg h3]; exact rfl

/-- The map length fields of the two drivers correspond. -/
theorem rel_map_length_field (code : Nat) (bs : List Nat) (tr : List (List Nat)) :
    MatchGo (map_length code bs) (as_map_length code bs tr) := by
  rw [map_length, as_map_length]
  by_cases h1 : code &&& 0xF0 = 0x80
  · simp only [if_pos h1]; exact ⟨rfl, rfl⟩
  · simp only [if_neg h1]
    by_cases h2 : code = 0xDE
    · simp only [if_pos h2]; exact rel_length_field 2 bs tr
    · simp only [if_neg h2]
      by_cases h3 : code = 0xDF
      · simp only [if_pos h3]; exact rel_length_field 4 bs tr
      · simp only [if_neg h3]; exact rfl

/-- Integer decodes correspond across the drivers, and a successful decode
leaves the remainder the scanner's integer branch computes. -/
theorem rel_integer (code : Nat) (bs : List Nat) (tr : List (List Nat)) :
    MatchRes (unpack_integer code bs) (as_unpack_integer code bs tr) ∧
    ∀ v r, unpack_integer code bs = .ok (v, r) →
      (if code &&& 0xE0 = 0xE0 then Scan.clean bs
       else if code &&& 0x80 = 0 then Scan.clean bs
       else
         match intFmt (code - 0xCC) with
         | none => Scan.stop
         | some (_, w) => scan_skip w bs) = Scan.clean r := by
  rw [unpack_integer, as_unpack_integer]
  by_cases hA : code &&& 0xE0 = 0xE0
  · simp only [if_pos hA]
    refine ⟨⟨rfl, rfl⟩, fun v r hr => ?_⟩
    injection hr with h; injection h with h1 h2
    rw [← h2]
  · simp only [if_neg hA]
    by_cases hB : code &&& 0x80 = 0
    · simp only [if_pos hB]
      refine ⟨⟨rfl, rfl⟩, fun v r hr => ?_⟩
      injection hr with h; injection h with h1 h2
      rw [← h2]
    · simp only [if_neg hB]
      cases hif : intFmt (code - 0xCC) with
      | none => exact ⟨rfl, fun v r hr => Except.noConfusion hr⟩
      | some p =>
        obtain ⟨signed, w⟩ := p
        dsimp only
        rcases rel_read w bs tr with ⟨hw, h1, h2⟩ | ⟨hw, h1, h2⟩ <;> rw [h1, h2]
        · exact ⟨rfl, fun v r hr => Except.noConfusion hr⟩
        · refine ⟨⟨rfl, rfl⟩, fun v r hr => ?_⟩
          injection hr with h; injection h with h1' h2'
          rw [scan_skip, if_pos hw, h2']

/-- Float decodes correspond across the drivers, and a successful decode
leaves the remainder the scanner's float branch computes. -/
theorem rel_float (code : Nat) (bs : List Nat) (tr : List (List Nat)) :
    MatchRes (unpack_float code bs) (as_unpack_float code bs tr) ∧
    ∀ v r, unpack_float code bs = .ok (v, r) →
      (if code = 0xCA then scan_skip 4 bs else scan_skip 8 bs) = Scan.clean r := by
  rw [unpack_float, as_unpack_float]
  by_cases hA : code = 0xCA
  · simp only [if_pos hA]
    rcases rel_read 4 bs tr with ⟨hw, h1, h2⟩ | ⟨hw, h1, h2⟩ <;> rw [h1, h2]
    · exact ⟨rfl, fun v r hr => Except.noConfusion hr⟩
    · refine ⟨⟨rfl, rfl⟩, fun v r hr => ?_⟩
      injection hr with h; injection h with h1' h2'
      rw [scan_skip, if_pos hw, h2']
  · simp only [if_neg hA]
    by_cases hB : code = 0xCB
    · simp only [if_pos hB]
      rcases rel_read 8 bs tr with ⟨hw, h1, h2⟩ | ⟨hw, h1, h2⟩ <;> rw [h1, h2]
      · exact ⟨rfl, fun v r hr => Except.noConfusion hr⟩
      · refine ⟨⟨rfl, rfl⟩, fun v r hr => ?_⟩
        injection hr with h; injection h with h1' h2'
        rw [scan_skip, if_pos hw, h2']
    · simp only [if_neg hB]
      exact ⟨rfl, fun v r hr => Except.noConfusion hr⟩

/-- String decodes correspond across the drivers, and a successful decode
leaves the remainder the scanner's string branch computes. -/
theorem rel_string (options : Options) (code : Nat) (bs : List Nat)
    (tr : List (List Nat)) :
    MatchRes (unpack_string options code bs) (as_unpack_string options code bs tr) ∧
    ∀ v r, unpack_string options code bs = .ok (v, r) →
      (match string_length code bs with
       | .error _ => Scan.stop
       | .ok (length, bs1) => scan_skip length bs1) = Scan.clean r := by
  have hlen := rel_string_length code bs tr
  rw [unpack_string, as_unpack_string]
  cases hl : string_length code bs with
  | error e =>
    rw [hl] at hlen
    rw [matchgo_err hlen]
    exact ⟨rfl, fun v r hr => Except.noConfusion hr⟩
  | ok p =>
    obtain ⟨L, bs1⟩ := p
    rw [hl] at hlen
    obtain ⟨tr1, ha⟩ := matchgo_ok hlen
    rw [ha]
    dsimp only
    rcases rel_read L bs1 tr1 with ⟨hw, h1, h2⟩ | ⟨hw, h1, h2⟩ <;> rw [h1, h2]
    · exact ⟨rfl, fun v r hr => Except.noConfusion hr⟩
    · dsimp only
      by_cases hu : utf8Valid (bs1.take L) = true
      · simp only [if_pos hu]
        refine ⟨⟨rfl, rfl⟩, fun v r hr => ?_⟩
        injection hr with h; injection h with h1' h2'
        rw [scan_skip, if_pos hw, h2']
      · simp only [if_neg hu]
        by_cases hiu : options.allow_invalid_utf8 = true
        · simp only [if_pos hiu]
          refine ⟨⟨rfl, rfl⟩, fun v r hr => ?_⟩
          injection hr with h; injection h with h1' h2'
          rw [scan_skip, if_pos hw, h2']
        · simp only [if_neg hiu]
          exact ⟨rfl, fun v r hr => Except.noConfusion hr⟩

/-- Binary decodes correspond across the drivers, and a successful decode
leaves the remainder the scanner's binary branch computes. -/
theorem rel_binary (code : Nat) (bs : List Nat) (tr : List (List Nat)) :
    MatchRes (unpack_binary code bs) (as_unpack_binary code bs tr) ∧
    ∀ v r, unpack_binary code bs = .ok (v, r) →
      (if code = 0xC4 then
         match readN 1 bs with
         | .error _ => Scan.stop
         | .ok (ld, bs1) => scan_skip (beVal ld) bs1
       else if code = 0xC5 then
         match readN 2 bs with
         | .error _ => Scan.stop
         | .ok (ld, bs1) => scan_skip (beVal ld) bs1
       else
         match readN 4 bs with
         | .error _ => Scan.stop
         | .ok (ld, bs1) => scan_skip (beVal ld) bs1) = Scan.clean r := by
  rw [unpack_binary, as_unpack_binary]
  by_cases hA : code = 0xC4
  · simp only [if_pos hA]
    rcases rel_read 1 bs tr with ⟨hw, h1, h2⟩ | ⟨hw, h1, h2⟩ <;> rw [h1, h2]
    · exact ⟨rfl, fun v r hr => Except.noConfusion hr⟩
    · dsimp only
      rcases rel_read (beVal (bs.take 1)) (bs.drop 1) (tr ++ [bs.take 1]) with
        ⟨hw2, h3, h4⟩ | ⟨hw2, h3, h4⟩ <;> rw [h3, h4]
      · exact ⟨rfl, fun v r hr => Except.noConfusion hr⟩
      · refine ⟨⟨rfl, rfl⟩, fun v r hr => ?_⟩
        injection hr with h; injection h with h1' h2'
        rw [scan_skip, if_pos hw2, h2']
  · simp only [if_neg hA]
    by_cases hB : code = 0xC5
    · simp only [if_pos hB]
      rcases rel_read 2 bs tr with ⟨hw, h1, h2⟩ | ⟨hw, h1, h2⟩ <;> rw [h1, h2]
      · exact ⟨rfl, fun v r hr => Except.noConfusion hr⟩
      · dsimp only
        rcases rel_read (beVal (bs.take 2)) (bs.drop 2) (tr ++ [bs.take 2]) with
          ⟨hw2, h3, h4⟩ | ⟨hw2, h3, h4⟩ <;> rw [h3, h4]
        · exact ⟨rfl, fun v r hr => Except.noConfusion hr⟩
        · refine ⟨⟨rfl, rfl⟩, fun v r hr => ?_⟩
          injection hr with h; injection h with h1' h2'
          rw [scan_skip, if_pos hw2, h2']
    · simp only [if_neg hB]
      by_cases hC : code = 0xC6
      · simp only [if_pos hC]
        rcases rel_read 4 bs tr with ⟨hw, h1, h2⟩ | ⟨hw, h1, h2⟩ <;> rw [h1, h2]
        · exact ⟨rfl, fun v r hr => Except.noConfusion hr⟩
        · dsimp only
          rcases rel_read (beVal (bs.take 4)) (bs.drop 4) (tr ++ [bs.take 4]) with
            ⟨hw2, h3, h4⟩ | ⟨hw2, h3, h4⟩ <;> rw [h3, h4]
          · exact ⟨rfl, fun v r hr => Except.noConfusion hr⟩
          · refine ⟨⟨rfl, rfl⟩, fun v r hr => ?_⟩
            injection hr with h; injection h with h1' h2'
            rw [scan_skip, if_pos hw2, h2']
      · simp only [if_neg hC]
        exact ⟨rfl, fun v r hr => Except.noConfusion hr⟩

/-- With the module-initial (empty) packers registry, a buffered extension
decode never succeeds: every path ends in an error. -/
theorem unpack_ext_no_ok (pk : Packers) (hpk : ∀ c, pk c = none)
    (options : Options) (code : Nat) (bs : List Nat) :
    ∀ v r, unpack_ext pk options code bs ≠ .ok (v, r) := by
  intro v r hr
  rw [unpack_ext] at hr
  cases h1 : ext_length code bs with
  | error e => rw [h1] at hr; exact Except.noConfusion hr
  | ok p =>
    obtain ⟨L, bs1⟩ := p
    rw [h1] at hr
    dsimp only at hr
    cases h2 : readN 1 bs1 with
    | error e => rw [h2] at hr; exact Except.noConfusion hr
    | ok q =>
      obtain ⟨tb, bs2⟩ := q
      rw [h2] at hr
      dsimp only at hr
      cases h3 : readN L bs2 with
      | error e => rw [h3] at hr; exact Except.noConfusion hr
      | ok s =>
        obtain ⟨d, rest⟩ := s
        rw [h3] at hr
        dsimp only at hr
        rw [hpk] at hr
        exact Except.noConfusion hr

/-- One unfolding step of the scanner's element loop. -/
theorem scan_go_succ (sc : List Nat → Scan) (k : Nat) (bs : List Nat) :
    scan_go sc (k + 1) bs =
      match sc bs with
      | Scan.clean r => scan_go sc k r
      | s => s := rfl

/-- The array element loops correspond, given that the recursive decoders
correspond and agree with the one-value scanner. -/
theorem rel_array_go (mrec : MpRec) (arec : AsRec) (sc : List Nat → Scan)
    (hrel : ∀ bs tr,
      (sc bs ≠ Scan.extHit → MatchRes (mrec bs) (arec bs tr)) ∧
      (∀ v r, mrec bs = .ok (v, r) → sc bs = Scan.clean r)) :
    ∀ count acc bs tr,
      (scan_go sc count bs ≠ Scan.extHit →
        MatchGo (unpack_array_go mrec count acc bs)
          (as_unpack_array_go arec count acc bs tr)) ∧
      (∀ xs r, unpack_array_go mrec count acc bs = .ok (xs, r) →
        scan_go sc count bs = Scan.clean r) := by
  intro count
  induction count with
  | zero =>
    intro acc bs tr
    refine ⟨fun _ => ⟨rfl, rfl⟩, fun xs r hr => ?_⟩
    injection hr with h; injection h with h1 h2
    rw [scan_go, ← h2]
  | succ n ih =>
    intro acc bs tr
    constructor
    · intro hs
      rw [scan_go_succ] at hs
      simp only [unpack_array_go, as_unpack_array_go]
      cases hm : mrec bs with
      | error e =>
        have hsne : sc bs ≠ Scan.extHit := by
          intro hx; rw [hx] at hs; exact hs rfl
        have h1 := (hrel bs tr).1 hsne
        rw [hm] at h1
        rw [matchres_err h1]
        exact rfl
      | ok p =>
        obtain ⟨v, bs'⟩ := p
        have hsne : sc bs ≠ Scan.extHit := by
          intro hx; rw [hx] at hs; exact hs rfl
        have h1 := (hrel bs tr).1 hsne
        rw [hm] at h1
        obtain ⟨tr', h2⟩ := matchres_ok h1
        rw [h2]
        dsimp only
        have h3 := (hrel bs tr).2 v bs' hm
        rw [h3] at hs
        dsimp only at hs
        exact (ih (acc ++ [v]) bs' tr').1 hs
    · intro xs r hr
      simp only [unpack_array_go] at hr
      cases hm : mrec bs with
      | error e => rw [hm] at hr; exact Except.noConfusion hr
      | ok p =>
        obtain ⟨v, bs'⟩ := p
        rw [hm] at hr
        dsimp only at hr
        have h3 := (hrel bs tr).2 v bs' hm
        rw [scan_go_succ, h3]
        dsimp only
        exact (ih (acc ++ [v]) bs' tr).2 xs r hr

/-- The map entry loops correspond, given that the recursive decoders
correspond and agree with the one-value scanner; each entry takes two
scanner steps (key, then value), while the key checks between them are
computed identically by both loops. -/
theorem rel_map_go (mrec : MpRec) (arec : AsRec) (sc : List Nat → Scan)
    (hrel : ∀ bs tr,
      (sc bs ≠ Scan.extHit → MatchRes (mrec bs) (arec bs tr)) ∧
      (∀ v r, mrec bs = .ok (v, r) → sc bs = Scan.clean r)) :
    ∀ count d bs tr,
      (scan_go sc (2 * count) bs ≠ Scan.extHit →
        MatchGo (unpack_map_go mrec count d bs)
          (as_unpack_map_go arec count d bs tr)) ∧
      (∀ xs r, unpack_map_go mrec count d bs = .ok (xs, r) →
        scan_go sc (2 * count) bs = Scan.clean r) := by
  intro count
  induction count with
  | zero =>
    intro d bs tr
    refine ⟨fun _ => ⟨rfl, rfl⟩, fun xs r hr => ?_⟩
    injection hr with h; injection h with h1 h2
    rw [← h2]
    rfl
  | succ n ih =>
    intro d bs tr
    have hTwo : 2 * (n + 1) = 2 * n + 1 + 1 := by ring
    rw [hTwo]
    constructor
    · intro hs
      rw [scan_go_succ] at hs
      simp only [unpack_map_go, as_unpack_map_go]
      cases hm : mrec bs with
      | error e =>
        have hsne : sc bs ≠ Scan.extHit := by
          intro hx; rw [hx] at hs; exact hs rfl
        have h1 := (hrel bs tr).1 hsne
        rw [hm] at h1
        rw [matchres_err h1]
        exact rfl
      | ok p =>
        obtain ⟨k0, bs1⟩ := p
        have hsne : sc bs ≠ Scan.extHit := by
          intro hx; rw [hx] at hs; exact hs rfl
        have h1 := (hrel bs tr).1 hsne
        rw [hm] at h1
        obtain ⟨tr1, ha⟩ := matchres_ok h1
        rw [ha]
        dsimp only
        have hscl := (hrel bs tr).2 k0 bs1 hm
        rw [hscl] at hs
        dsimp only at hs
        by_cases hh : isHashable (deep_list_to_tuple k0) = false
        · simp only [if_pos hh]
          exact rfl
        · simp only [if_neg hh]
          by_cases hd : d.any (fun p => pyEq (deep_list_to_tuple k0) p.1) = true
          · simp only [if_pos hd]
            exact rfl
          · simp only [if_neg hd]
            rw [scan_go_succ] at hs
            cases hm2 : mrec bs1 with
            | error e =>
              have hsne2 : sc bs1 ≠ Scan.extHit := by
                intro hx; rw [hx] at hs; exact hs rfl
              have h2 := (hrel bs1 tr1).1 hsne2
              rw [hm2] at h2
              rw [matchres_err h2]
              exact rfl
            | ok q =>
              obtain ⟨v, bs2⟩ := q
              have hsne2 : sc bs1 ≠ Scan.extHit := by
                intro hx; rw [hx] at hs; exact hs rfl
              have h2 := (hrel bs1 tr1).1 hsne2
              rw [hm2] at h2
              obtain ⟨tr2, ha2⟩ := matchres_ok h2
              rw [ha2]
              dsimp only
              have hscl2 := (hrel bs1 tr1).2 v bs2 hm2
              rw [hscl2] at hs
              dsimp only at hs
              exact (ih (d ++ [(deep_list_to_tuple k0, v)]) bs2 tr2).1 hs
    · intro xs r hr
      simp only [unpack_map_go] at hr
      cases hm : mrec bs with
      | error e => rw [hm] at hr; exact Except.noConfusion hr
      | ok p =>
        obtain ⟨k0, bs1⟩ := p
        rw [hm] at hr
        dsimp only at hr
        by_cases hh : isHashable (deep_list_to_tuple k0) = false
        · rw [if_pos hh] at hr; exact Except.noConfusion hr
        · rw [if_neg hh] at hr
          by_cases hd : d.any (fun p => pyEq (deep_list_to_tuple k0) p.1) = true
          · rw [if_pos hd] at hr; exact Except.noConfusion hr
          · rw [if_neg hd] at hr
            cases hm2 : mrec bs1 with
            | error e => rw [hm2] at hr; exact Except.noConfusion hr
            | ok q =>
              obtain ⟨v, bs2⟩ := q
              rw [hm2] at hr
              dsimp only at hr
              have hscl := (hrel bs tr).2 k0 bs1 hm
              have hscl2 := (hrel bs1 tr).2 v bs2 hm2
              rw [scan_go_succ, hscl]
              dsimp only
              rw [scan_go_succ, hscl2]
              dsimp only
              exact (ih (d ++ [(deep_list_to_tuple k0, v)]) bs2 tr).2 xs r hr

/-- Array decodes correspond across the drivers, and a successful decode
leaves the remainder the scanner's array branch computes. -/
theorem rel_array (mrec : MpRec) (arec : AsRec) (sc : List Nat → Scan)
    (hrel : ∀ bs tr,
      (sc bs ≠ Scan.extHit → MatchRes (mrec bs) (arec bs tr)) ∧
      (∀ v r, mrec bs = .ok (v, r) → sc bs = Scan.clean r))
    (options : Options) (code : Nat) (bs : List Nat) (tr : List (List Nat)) :
    ((match array_length code bs with
      | .error _ => Scan.stop
      | .ok (length, bs1) => scan_go sc length bs1) ≠ Scan.extHit →
      MatchRes (unpack_array mrec options code bs)
        (as_unpack_array arec options code bs tr)) ∧
    (∀ v r, unpack_array mrec options code bs = .ok (v, r) →
      (match array_length code bs with
       | .error _ => Scan.stop
       | .ok (length, bs1) => scan_go sc length bs1) = Scan.clean r) := by
  have hlen := rel_array_length code bs tr
  rw [unpack_array, as_unpack_array]
  cases hl : array_length code bs with
  | error e =>
    rw [hl] at hlen
    rw [matchgo_err hlen]
    exact ⟨fun _ => rfl, fun v r hr => Except.noConfusion hr⟩
  | ok p =>
    obtain ⟨L, bs1⟩ := p
    rw [hl] at hlen
    obtain ⟨tr1, ha⟩ := matchgo_ok hlen
    rw [ha]
    dsimp only
    have hgo := rel_array_go mrec arec sc hrel L [] bs1 tr1
    constructor
    · intro hs
      cases hg : unpack_array_go mrec L [] bs1 with
      | error e =>
        have h1 := hgo.1 hs
        rw [hg] at h1
        rw [matchgo_err h1]
        exact rfl
      | ok q =>
        obtain ⟨xs, rest⟩ := q
        have h1 := hgo.1 hs
        rw [hg] at h1
        obtain ⟨tr', h2⟩ := matchgo_ok h1
        rw [h2]
        exact ⟨rfl, rfl⟩
    · intro v r hr
      cases hg : unpack_array_go mrec L [] bs1 with
      | error e => rw [hg] at hr; exact Except.noConfusion hr
      | ok q =>
        obtain ⟨xs, rest⟩ := q
        rw [hg] at hr
        dsimp only at hr
        injection hr with h; injection h with h1 h2
        rw [← h2]
        exact hgo.2 xs rest hg

/-- Map decodes correspond across the drivers, and a successful decode
leaves the remainder the scanner's map branch computes. -/
theorem rel_map (mrec : MpRec) (arec : AsRec) (sc : List Nat → Scan)
    (hrel : ∀ bs tr,
      (sc bs ≠ Scan.extHit → MatchRes (mrec bs) (arec bs tr)) ∧
      (∀ v r, mrec bs = .ok (v, r) → sc bs = Scan.clean r))
    (options : Options) (code : Nat) (bs : List Nat) (tr : List (List Nat)) :
    ((match map_length code bs with
      | .error _ => Scan.stop
      | .ok (length, bs1) => scan_go sc (2 * length) bs1) ≠ Scan.extHit →
      MatchRes (unpack_map mrec options code bs)
        (as_unpack_map arec options code bs tr)) ∧
    (∀ v r, unpack_map mrec options code bs = .ok (v, r) →
      (match map_length code bs with
       | .error _ => Scan.stop
       | .ok (length, bs1) => scan_go sc (2 * length) bs1) = Scan.clean r) := by
  have hlen := rel_map_length_field code bs tr
  rw [unpack_map, as_unpack_map]
  cases hl : map_length code bs with
  | error e =>
    rw [hl] at hlen
    rw [matchgo_err hlen]
    exact ⟨fun _ => rfl, fun v r hr => Except.noConfusion hr⟩
  | ok p =>
    obtain ⟨L, bs1⟩ := p
    rw [hl] at hlen
    obtain ⟨tr1, ha⟩ := matchgo_ok hlen
    rw [ha]
    dsimp only
    have hgo := rel_map_go mrec arec sc hrel L [] bs1 tr1
    constructor
    · intro hs
      cases hg : unpack_map_go mrec L [] bs1 with
      | error e =>
        have h1 := hgo.1 hs
        rw [hg] at h1
        rw [matchgo_err h1]
        exact rfl
      | ok q =>
        obtain ⟨d, rest⟩ := q
        have h1 := hgo.1 hs
        rw [hg] at h1
        obtain ⟨tr', h2⟩ := matchgo_ok h1
        rw [h2]
        exact ⟨rfl, rfl⟩
    · intro v r hr
      cases hg : unpack_map_go mrec L [] bs1 with
      | error e => rw [hg] at hr; exact Except.noConfusion hr
      | ok q =>
        obtain ⟨d, rest⟩ := q
        rw [hg] at hr
        dsimp only at hr
        injection hr with h; injection h with h1 h2
        rw [← h2]
        exact hgo.2 d rest hg

/-- Main lockstep correspondence: with the module-initial (empty) packers
registry, the buffered and streaming drivers correspond on every input the
scanner walks without meeting an extension tag, and a successful buffered
decode always leaves exactly the remainder the scanner computes. -/
theorem rel_main (pk : Packers) (ec : ExtClasses) (options : Options)
    (hpk : ∀ c, pk c = none) :
    ∀ fuel bs tr,
      (mscan fuel bs ≠ Scan.extHit →
        MatchRes (mpload pk options fuel bs) (as_unpack ec options fuel bs tr)) ∧
      (∀ v r, mpload pk options fuel bs = .ok (v, r) →
        mscan fuel bs = Scan.clean r) := by
  intro fuel
  induction fuel with
  | zero =>
    intro bs tr
    exact ⟨fun _ => rfl, fun v r hr => Except.noConfusion hr⟩
  | succ fuel ih =>
    intro bs tr
    cases bs with
    | nil => exact ⟨fun _ => rfl, fun v r hr => Except.noConfusion hr⟩
    | cons ic bs =>
      have hre : as_re 1 (ic :: bs) tr = .ok ([ic], bs, tr ++ [[ic]]) :=
        as_re_exact 1 [ic] bs tr rfl
      simp only [mpload, as_unpack, mscan, hre, beVal_single]
      by_cases h1 : ic ≤ 0x7F ∨ (0xCC ≤ ic ∧ ic ≤ 0xD3) ∨ (0xE0 ≤ ic ∧ ic ≤ 0xFF)
      · simp only [if_pos h1]
        exact ⟨fun _ => (rel_integer ic bs (tr ++ [[ic]])).1,
               (rel_integer ic bs (tr ++ [[ic]])).2⟩
      · simp only [if_neg h1]
        by_cases h2 : ic ≤ 0xC9
        · simp only [if_pos h2]
          by_cases h3 : ic ≤ 0xC3
          · simp only [if_pos h3]
            by_cases h4 : ic ≤ 0x8F
            · simp only [if_pos h4]
              exact rel_map (mpload pk options fuel) (as_unpack ec options fuel)
                (mscan fuel) ih options ic bs (tr ++ [[ic]])
            · simp only [if_neg h4]
              by_cases h5 : ic ≤ 0x9F
              · simp only [if_pos h5]
                exact rel_array (mpload pk options fuel) (as_unpack ec options fuel)
                  (mscan fuel) ih options ic bs (tr ++ [[ic]])
              · simp only [if_neg h5]
                by_cases h6 : ic ≤ 0xBF
                · simp only [if_pos h6]
                  exact ⟨fun _ => (rel_string options ic bs (tr ++ [[ic]])).1,
                         (rel_string options ic bs (tr ++ [[ic]])).2⟩
                · simp only [if_neg h6]
                  by_cases h7 : ic = 0xC1
                  · simp only [if_pos h7]
                    exact ⟨fun _ => rfl, fun v r hr => Except.noConfusion hr⟩
                  · simp only [if_neg h7]
                    refine ⟨fun _ => ⟨rfl, rfl⟩, fun v r hr => ?_⟩
                    injection hr with h; injection h with ha hb
                    rw [← hb]
          · simp only [if_neg h3]
            by_cases h8 : ic ≤ 0xC6
            · simp only [if_pos h8]
              exact ⟨fun _ => (rel_binary ic bs (tr ++ [[ic]])).1,
                     (rel_binary ic bs (tr ++ [[ic]])).2⟩
            · simp only [if_neg h8]
              exact ⟨fun hne => absurd rfl hne,
                     fun v r hr => (unpack_ext_no_ok pk hpk options ic bs v r hr).elim⟩
        · simp only [if_neg h2]
          by_cases h9 : ic ≤ 0xCB
          · simp only [if_pos h9]
            exact ⟨fun _ => (rel_float ic bs (tr ++ [[ic]])).1,
                   (rel_float ic bs (tr ++ [[ic]])).2⟩
          · simp only [if_neg h9]
            by_cases h10 : ic ≤ 0xD8
            · simp only [if_pos h10]
              exact ⟨fun hne => absurd rfl hne,
                     fun v r hr => (unpack_ext_no_ok pk hpk options ic bs v r hr).elim⟩
            · simp only [if_neg h10]
              by_cases h11 : ic ≤ 0xDB
              · simp only [if_pos h11]
                exact ⟨fun _ => (rel_string options ic bs (tr ++ [[ic]])).1,
                       (rel_string options ic bs (tr ++ [[ic]])).2⟩
              · simp only [if_neg h11]
                by_cases h12 : ic ≤ 0xDD
                · simp only [if_pos h12]
                  exact rel_array (mpload pk options fuel) (as_unpack ec options fuel)
                    (mscan fuel) ih options ic bs (tr ++ [[ic]])
                · simp only [if_neg h12]
                  exact rel_map (mpload pk options fuel) (as_unpack ec options fuel)
                    (mscan fuel) ih options ic bs (tr ++ [[ic]])

/-- C1 (amended): with the registries in their module-initial (empty)
state, the buffered decode (mpload over a byte source) and the streaming
decode (_unpack over the same bytes) correspond on every input the grammar
scanner walks without meeting an extension tag: equal decoded values and
equal unconsumed remainders on success, and corresponding errors on
failure (source exhaustion is InsufficientDataException in the buffered
driver but the stream's end-of-data error in the streaming driver; every
other error is shared).  The extension-free restriction is necessary: on
extension input the drivers diverge, because the streaming _unpack misses
the await on _unpack_ext and returns the un-awaited coroutine object
(see the counterexample). -/
theorem C1_streaming_equivalence (pk : Packers) (ec : ExtClasses)
    (options : Options) (fuel : Nat) (bs : List Nat) (tr : List (List Nat))
    (hpk : ∀ c, pk c = none)
    (hscan : mscan fuel bs ≠ Scan.extHit) :
    MatchRes (mpload pk options fuel bs) (as_unpack ec options fuel bs tr) :=
  (rel_main pk ec options hpk fuel bs tr).1 hscan

/-- Witness for C1: the two-element array [1, nil] (92 01 C0) is
extension-free and decodes identically in both drivers. -/
theorem C1_witness :
    (∀ c, noPackers c = none) ∧
    mscan 2 [0x92, 0x01, 0xC0] ≠ Scan.extHit ∧
    MatchRes (mpload noPackers defaultOpts 2 [0x92, 0x01, 0xC0])
      (as_unpack noExtClasses defaultOpts 2 [0x92, 0x01, 0xC0] []) :=
  ⟨fun _ => rfl, by decide,
    C1_streaming_equivalence noPackers noExtClasses defaultOpts 2
      [0x92, 0x01, 0xC0] [] (fun _ => rfl) (by decide)⟩

/-- Counterexample to C1 as stated: on the fixext-1 input D4 00 00 the
buffered driver fails with UnsupportedTypeException for code 0, while the
streaming driver succeeds, returning the un-awaited _unpack_ext coroutine
object after consuming only the tag byte — neither equal values nor equal
error outcomes. -/
theorem C1_counterexample :
    mpload noPackers defaultOpts 1 [0xD4, 0x00, 0x00]
      = .error (Err.unsupportedType 0) ∧
    as_unpack noExtClasses defaultOpts 1 [0xD4, 0x00, 0x00] []
      = .ok (MVal.extCoro 0xD4, [0x00, 0x00], [[0xD4]]) :=
  ⟨by decide, by decide⟩

/-!
Round trip (claim C3): every well-formed value of the native closed set
encodes successfully, and decoding the encoding with matching options and
enough fuel returns the value itself with the input fully consumed.
Python == then accepts the result exactly when the value is NaN-free.
-/

/-- Every value has positive structural size. -/
theorem msize_pos : ∀ v, 1 ≤ msize v := by
  intro v
  cases v <;> simp [msize]

/-- Fixstr tag bits: for lengths below 32 the tag 0xA0 + L has string class
bits and carries L in its low five bits. -/
theorem fixstr_bits : ∀ L < 32, (0xA0 + L) &&& 0xE0 = 0xA0 ∧ (0xA0 + L) &&& 0x1F = L := by
  decide

/-- Fixarray tag bits. -/
theorem fixarr_bits : ∀ L < 16, (0x90 + L) &&& 0xF0 = 0x90 ∧ (0x90 + L) &&& 0x0F = L := by
  decide

/-- Fixmap tag bits. -/
theorem fixmap_bits : ∀ L < 16, (0x80 + L) &&& 0xF0 = 0x80 ∧ (0x80 + L) &&& 0x0F = L := by
  decide

/-- A positive fixint byte fails the negative-fixint test and passes the
positive test. -/
theorem posfix_bits : ∀ ic < 128, ¬ ic &&& 0xE0 = 0xE0 ∧ ic &&& 0x80 = 0 := by
  decide

/-- A negative fixint byte passes the negative-fixint test. -/
theorem negfix_bits : ∀ ic < 256, 0xE0 ≤ ic → ic &&& 0xE0 = 0xE0 := by
  decide

/-- Dispatch: integer-class tags route to _unpack_integer. -/
theorem mpload_dispatch_int (pk : Packers) (o : Options) (fuel : Nat) (ic : Nat)
    (bs : List Nat)
    (h : ic ≤ 0x7F ∨ (0xCC ≤ ic ∧ ic ≤ 0xD3) ∨ (0xE0 ≤ ic ∧ ic ≤ 0xFF)) :
    mpload pk o (fuel + 1) (ic :: bs) = unpack_integer ic bs := by
  simp only [mpload]
  rw [if_pos h]

/-- Dispatch: string-class tags route to _unpack_string. -/
theorem mpload_dispatch_str (pk : Packers) (o : Options) (fuel : Nat) (ic : Nat)
    (bs : List Nat) (h : (0xA0 ≤ ic ∧ ic ≤ 0xBF) ∨ (0xD9 ≤ ic ∧ ic ≤ 0xDB)) :
    mpload pk o (fuel + 1) (ic :: bs) = unpack_string o ic bs := by
  rcases h with ⟨h1, h2⟩ | ⟨h1, h2⟩
  · simp only [mpload]
    rw [if_neg (by omega), if_pos (by omega : ic ≤ 0xC9), if_pos (by omega : ic ≤ 0xC3),
        if_neg (by omega : ¬ ic ≤ 0x8F), if_neg (by omega : ¬ ic ≤ 0x9F),
        if_pos (by omega : ic ≤ 0xBF)]
  · simp only [mpload]
    rw [if_neg (by omega), if_neg (by omega : ¬ ic ≤ 0xC9), if_neg (by omega : ¬ ic ≤ 0xCB),
        if_neg (by omega : ¬ ic ≤ 0xD8), if_pos (by omega : ic ≤ 0xDB)]

/-- Dispatch: array-class tags route to _unpack_array. -/
theorem mpload_dispatch_array (pk : Packers) (o : Options) (fuel : Nat) (ic : Nat)
    (bs : List Nat) (h : (0x90 ≤ ic ∧ ic ≤ 0x9F) ∨ ic = 0xDC ∨ ic = 0xDD) :
    mpload pk o (fuel + 1) (ic :: bs) = unpack_array (mpload pk o fuel) o ic bs := by
  rcases h with ⟨h1, h2⟩ | rfl | rfl
  · simp only [mpload]
    rw [if_neg (by omega), if_pos (by omega : ic ≤ 0xC9), if_pos (by omega : ic ≤ 0xC3),
        if_neg (by omega : ¬ ic ≤ 0x8F), if_pos (by omega : ic ≤ 0x9F)]
  · rfl
  · rfl

/-- Dispatch: map-class tags route to _unpack_map. -/
theorem mpload_dispatch_map (pk : Packers) (o : Options) (fuel : Nat) (ic : Nat)
    (bs : List Nat) (h : (0x80 ≤ ic ∧ ic ≤ 0x8F) ∨ ic = 0xDE ∨ ic = 0xDF) :
    mpload pk o (fuel + 1) (ic :: bs) = unpack_map (mpload pk o fuel) o ic bs := by
  rcases h with ⟨h1, h2⟩ | rfl | rfl
  · simp only [mpload]
    rw [if_neg (by omega), if_pos (by omega : ic ≤ 0xC9), if_pos (by omega : ic ≤ 0xC3),
        if_pos (by omega : ic ≤ 0x8F)]
  · rfl
  · rfl

/-- One-byte two's complement, with evaluated bounds. -/
theorem toSigned_one (v : Nat) : toSigned 1 v = if v < 128 then (v : Int) else v - 256 := by
  rw [toSigned]; norm_num

/-- Two-byte two's complement, with evaluated bounds. -/
theorem toSigned_two (v : Nat) :
    toSigned 2 v = if v < 32768 then (v : Int) else v - 65536 := by
  rw [toSigned]; norm_num

/-- Four-byte two's complement, with evaluated bounds. -/
theorem toSigned_four (v : Nat) :
    toSigned 4 v = if v < 2147483648 then (v : Int) else v - 4294967296 := by
  rw [toSigned]; norm_num

/-- Eight-byte two's complement, with evaluated bounds. -/
theorem toSigned_eight (v : Nat) :
    toSigned 8 v = if v < 9223372036854775808 then (v : Int) else v - 18446744073709551616 := by
  rw [toSigned]; norm_num

/-- Decoding the encoding of None. -/
theorem roundtrip_nil (o : Options) (fuel : Nat) (rest : List Nat) :
    mpload noPackers o (fuel + 1) ([0xC0] ++ rest) = .ok (MVal.nil, rest) := rfl

/-- Decoding the encoding of a boolean. -/
theorem roundtrip_bool (o : Options) (b : Bool) (fuel : Nat) (rest : List Nat) :
    mpload noPackers o (fuel + 1) (pack_boolean b ++ rest) = .ok (MVal.bool b, rest) := by
  cases b <;> rfl

/-- Decoding the encoding of any 64-bit-range integer recovers it exactly. -/
theorem roundtrip_int (o : Options) (n : Int) (hlo : -(2 ^ 63) ≤ n) (hhi : n < 2 ^ 64) :
    ∃ out, pack_integer n = .ok out ∧
      ∀ fuel rest, mpload noPackers o (fuel + 1) (out ++ rest) = .ok (MVal.int n, rest) := by
  rw [pack_integer]
  by_cases hneg : n < 0
  · rw [if_pos hneg]
    by_cases b1 : n ≥ -32
    · rw [if_pos b1]
      refine ⟨_, rfl, fun fuel rest => ?_⟩
      simp only [List.cons_append, List.nil_append]
      rw [mpload_dispatch_int noPackers o fuel ((n % 256).toNat) rest
        (Or.inr (Or.inr ⟨by omega, by omega⟩))]
      rw [unpack_integer, if_pos (negfix_bits ((n % 256).toNat) (by omega) (by omega))]
      rw [toSigned_one, if_neg (by omega : ¬ (n % 256).toNat < 128)]
      have hval : ((n % 256).toNat : Int) - 256 = n := by omega
      rw [hval]
    · rw [if_neg b1]
      by_cases b2 : n ≥ -(2 ^ 7)
      · rw [if_pos b2]
        refine ⟨_, rfl, fun fuel rest => ?_⟩
        simp only [List.cons_append]
        have hps : mpload noPackers o (fuel + 1)
            (0xD0 :: (beBytes 1 (n % 2 ^ 8).toNat ++ rest)) =
            (match readN 1 (beBytes 1 (n % 2 ^ 8).toNat ++ rest) with
             | .error e => .error e
             | .ok (data, r) => .ok (MVal.int (toSigned 1 (beVal data)), r)) := rfl
        have hrd : readN 1 (beBytes 1 (n % 2 ^ 8).toNat ++ rest) =
            .ok (beBytes 1 (n % 2 ^ 8).toNat, rest) :=
          readN_exact 1 _ rest (length_beBytes 1 _)
        rw [hps, hrd]
        dsimp only
        rw [beVal_beBytes]
        have hm : (n % 2 ^ 8).toNat % 2 ^ (8 * 1) = (n % 2 ^ 8).toNat := by omega
        have hif : ¬ (n % 2 ^ 8).toNat < 128 := by omega
        rw [hm, toSigned_one, if_neg hif]
        have hval : ((n % 2 ^ 8).toNat : Int) - 256 = n := by omega
        rw [hval]
      · rw [if_neg b2]
        by_cases b3 : n ≥ -(2 ^ 15)
        · rw [if_pos b3]
          refine ⟨_, rfl, fun fuel rest => ?_⟩
          simp only [List.cons_append]
          have hps : mpload noPackers o (fuel + 1)
              (0xD1 :: (beBytes 2 (n % 2 ^ 16).toNat ++ rest)) =
              (match readN 2 (beBytes 2 (n % 2 ^ 16).toNat ++ rest) with
               | .error e => .error e
               | .ok (data, r) => .ok (MVal.int (toSigned 2 (beVal data)), r)) := rfl
          have hrd : readN 2 (beBytes 2 (n % 2 ^ 16).toNat ++ rest) =
              .ok (beBytes 2 (n % 2 ^ 16).toNat, rest) :=
            readN_exact 2 _ rest (length_beBytes 2 _)
          rw [hps, hrd]
          dsimp only
          rw [beVal_beBytes]
          have hm : (n % 2 ^ 16).toNat % 2 ^ (8 * 2) = (n % 2 ^ 16).toNat := by omega
          have hif : ¬ (n % 2 ^ 16).toNat < 32768 := by omega
          rw [hm, toSigned_two, if_neg hif]
          have hval : ((n % 2 ^ 16).toNat : Int) - 65536 = n := by omega
          rw [hval]
        · rw [if_neg b3]
          by_cases b4 : n ≥ -(2 ^ 31)
          · rw [if_pos b4]
            refine ⟨_, rfl, fun fuel rest => ?_⟩
            simp only [List.cons_append]
            have hps : mpload noPackers o (fuel + 1)
                (0xD2 :: (beBytes 4 (n % 2 ^ 32).toNat ++ rest)) =
                (match readN 4 (beBytes 4 (n % 2 ^ 32).toNat ++ rest) with
                 | .error e => .error e
                 | .ok (data, r) => .ok (MVal.int (toSigned 4 (beVal data)), r)) := rfl
            have hrd : readN 4 (beBytes 4 (n % 2 ^ 32).toNat ++ rest) =
                .ok (beBytes 4 (n % 2 ^ 32).toNat, rest) :=
              readN_exact 4 _ rest (length_beBytes 4 _)
            rw [hps, hrd]
            dsimp only
            rw [beVal_beBytes]
            have hm : (n % 2 ^ 32).toNat % 2 ^ (8 * 4) = (n % 2 ^ 32).toNat := by omega
            have hif : ¬ (n % 2 ^ 32).toNat < 2147483648 := by omega
            rw [hm, toSigned_four, if_neg hif]
            have hval : ((n % 2 ^ 32).toNat : Int) - 4294967296 = n := by omega
            rw [hval]
          · rw [if_neg b4, if_pos (by omega : n ≥ -(2 ^ 63))]
            refine ⟨_, rfl, fun fuel rest => ?_⟩
            simp only [List.cons_append]
            have hps : mpload noPackers o (fuel + 1)
                (0xD3 :: (beBytes 8 (n % 2 ^ 64).toNat ++ rest)) =
                (match readN 8 (beBytes 8 (n % 2 ^ 64).toNat ++ rest) with
                 | .error e => .error e
                 | .ok (data, r) => .ok (MVal.int (toSigned 8 (beVal data)), r)) := rfl
            have hrd : readN 8 (beBytes 8 (n % 2 ^ 64).toNat ++ rest) =
                .ok (beBytes 8 (n % 2 ^ 64).toNat, rest) :=
              readN_exact 8 _ rest (length_beBytes 8 _)
            rw [hps, hrd]
            dsimp only
            rw [beVal_beBytes]
            have hm : (n % 2 ^ 64).toNat % 2 ^ (8 * 8) = (n % 2 ^ 64).toNat := by omega
            have hif : ¬ (n % 2 ^ 64).toNat < 9223372036854775808 := by omega
            rw [hm, toSigned_eight, if_neg hif]
            have hval : ((n % 2 ^ 64).toNat : Int) - 18446744073709551616 = n := by omega
            rw [hval]
  · rw [if_neg hneg]
    by_cases p1 : n < 128
    · rw [if_pos p1]
      refine ⟨_, rfl, fun fuel rest => ?_⟩
      simp only [List.cons_append, List.nil_append]
      rw [mpload_dispatch_int noPackers o fuel n.toNat rest (Or.inl (by omega))]
      rw [unpack_integer, if_neg (posfix_bits n.toNat (by omega)).1,
        if_pos (posfix_bits n.toNat (by omega)).2]
      have hval : (n.toNat : Int) = n := by omega
      rw [hval]
    · rw [if_neg p1]
      by_cases p2 : n < 2 ^ 8
      · rw [if_pos p2]
        refine ⟨_, rfl, fun fuel rest => ?_⟩
        simp only [List.cons_append]
        have hps : mpload noPackers o (fuel + 1) (0xCC :: (beBytes 1 n.toNat ++ rest)) =
            (match readN 1 (beBytes 1 n.toNat ++ rest) with
             | .error e => .error e
             | .ok (data, r) => .ok (MVal.int (beVal data), r)) := rfl
        rw [hps, readN_exact 1 (beBytes 1 n.toNat) rest (length_beBytes 1 _)]
        dsimp only
        rw [beVal_beBytes]
        have hval : ((n.toNat % 2 ^ (8 * 1) : Nat) : Int) = n := by omega
        rw [hval]
      · rw [if_neg p2]
        by_cases p3 : n < 2 ^ 16
        · rw [if_pos p3]
          refine ⟨_, rfl, fun fuel rest => ?_⟩
          simp only [List.cons_append]
          have hps : mpload noPackers o (fuel + 1) (0xCD :: (beBytes 2 n.toNat ++ rest)) =
              (match readN 2 (beBytes 2 n.toNat ++ rest) with
               | .error e => .error e
               | .ok (data, r) => .ok (MVal.int (beVal data), r)) := rfl
          rw [hps, readN_exact 2 (beBytes 2 n.toNat) rest (length_beBytes 2 _)]
          dsimp only
          rw [beVal_beBytes]
          have hval : ((n.toNat % 2 ^ (8 * 2) : Nat) : Int) = n := by omega
          rw [hval]
        · rw [if_neg p3]
          by_cases p4 : n < 2 ^ 32
          · rw [if_pos p4]
            refine ⟨_, rfl, fun fuel rest => ?_⟩
            simp only [List.cons_append]
            have hps : mpload noPackers o (fuel + 1) (0xCE :: (beBytes 4 n.toNat ++ rest)) =
                (match readN 4 (beBytes 4 n.toNat ++ rest) with
                 | .error e => .error e
                 | .ok (data, r) => .ok (MVal.int (beVal data), r)) := rfl
            rw [hps, readN_exact 4 (beBytes 4 n.toNat) rest (length_beBytes 4 _)]
            dsimp only
            rw [beVal_beBytes]
            have hval : ((n.toNat % 2 ^ (8 * 4) : Nat) : Int) = n := by omega
            rw [hval]
          · rw [if_neg p4, if_pos (by omega : n < 2 ^ 64)]
            refine ⟨_, rfl, fun fuel rest => ?_⟩
            simp only [List.cons_append]
            have hps : mpload noPackers o (fuel + 1) (0xCF :: (beBytes 8 n.toNat ++ rest)) =
                (match readN 8 (beBytes 8 n.toNat ++ rest) with
                 | .error e => .error e
                 | .ok (data, r) => .ok (MVal.int (beVal data), r)) := rfl
            rw [hps, readN_exact 8 (beBytes 8 n.toNat) rest (length_beBytes 8 _)]
            dsimp only
            rw [beVal_beBytes]
            have hval : ((n.toNat % 2 ^ (8 * 8) : Nat) : Int) = n := by omega
            rw [hval]

/-- Decoding the encoding of a double at effective double precision. -/
theorem roundtrip_float (o : Options) (w : Nat) (hdp : doublePrec o = true)
    (hw : w < 2 ^ 64) :
    ∃ out, pack_float o (MVal.f64 w) = .ok out ∧
      ∀ fuel rest, mpload noPackers o (fuel + 1) (out ++ rest) = .ok (MVal.f64 w, rest) := by
  have hgd : o.force_float_precision.getD float_precision = FloatPrec.double := by
    cases hfp : o.force_float_precision.getD float_precision with
    | double => rfl
    | single => rw [doublePrec, hfp] at hdp; exact Bool.noConfusion hdp
  refine ⟨0xCB :: beBytes 8 w, ?_, fun fuel rest => ?_⟩
  · simp only [pack_float, hgd]
  · simp only [List.cons_append]
    have hps : mpload noPackers o (fuel + 1) (0xCB :: (beBytes 8 w ++ rest)) =
        (match readN 8 (beBytes 8 w ++ rest) with
         | .error e => .error e
         | .ok (data, r) => .ok (MVal.f64 (beVal data), r)) := rfl
    have hrd : readN 8 (beBytes 8 w ++ rest) = .ok (beBytes 8 w, rest) :=
      readN_exact 8 _ rest (length_beBytes 8 _)
    rw [hps, hrd]
    dsimp only
    rw [beVal_beBytes]
    have hm : w % 2 ^ (8 * 8) = w := by omega
    rw [hm]

/-- Decoding the encoding of a valid UTF-8 string. -/
theorem roundtrip_str (o : Options) (bs : List Nat) (hval : utf8Valid bs = true)
    (hlen : bs.length < 2 ^ 32) :
    ∃ out, pack_string bs = .ok out ∧
      ∀ fuel rest, mpload noPackers o (fuel + 1) (out ++ rest) = .ok (MVal.str bs, rest) := by
  simp only [pack_string]
  by_cases s1 : bs.length < 32
  · rw [if_pos s1]
    refine ⟨_, rfl, fun fuel rest => ?_⟩
    simp only [List.cons_append]
    rw [mpload_dispatch_str noPackers o fuel (0xA0 + bs.length) (bs ++ rest)
      (Or.inl ⟨by omega, by omega⟩)]
    rw [unpack_string]
    have hsl : string_length (0xA0 + bs.length) (bs ++ rest) = .ok (bs.length, bs ++ rest) := by
      rw [string_length, if_pos (fixstr_bits bs.length s1).1, (fixstr_bits bs.length s1).2]
    rw [hsl]
    dsimp only
    rw [readN_exact bs.length bs rest rfl]
    dsimp only
    rw [if_pos hval]
  · rw [if_neg s1]
    by_cases s2 : bs.length < 2 ^ 8
    · rw [if_pos s2]
      refine ⟨_, rfl, fun fuel rest => ?_⟩
      simp only [List.cons_append, List.append_assoc]
      rw [mpload_dispatch_str noPackers o fuel 0xD9 (beBytes 1 bs.length ++ (bs ++ rest))
        (Or.inr ⟨by omega, by omega⟩)]
      rw [unpack_string]
      have hsl : string_length 0xD9 (beBytes 1 bs.length ++ (bs ++ rest)) =
          (match readN 1 (beBytes 1 bs.length ++ (bs ++ rest)) with
           | .error e => .error e
           | .ok (data, r) => .ok (beVal data, r)) := rfl
      have hrd : readN 1 (beBytes 1 bs.length ++ (bs ++ rest)) =
          .ok (beBytes 1 bs.length, bs ++ rest) :=
        readN_exact 1 _ _ (length_beBytes 1 _)
      rw [hsl, hrd]
      dsimp only
      rw [beVal_beBytes]
      have hm : bs.length % 2 ^ (8 * 1) = bs.length := by omega
      rw [hm, readN_exact bs.length bs rest rfl]
      dsimp only
      rw [if_pos hval]
    · rw [if_neg s2]
      by_cases s3 : bs.length < 2 ^ 16
      · rw [if_pos s3]
        refine ⟨_, rfl, fun fuel rest => ?_⟩
        simp only [List.cons_append, List.append_assoc]
        rw [mpload_dispatch_str noPackers o fuel 0xDA (beBytes 2 bs.length ++ (bs ++ rest))
          (Or.inr ⟨by omega, by omega⟩)]
        rw [unpack_string]
        have hsl : string_length 0xDA (beBytes 2 bs.length ++ (bs ++ rest)) =
            (match readN 2 (beBytes 2 bs.length ++ (bs ++ rest)) with
             | .error e => .error e
             | .ok (data, r) => .ok (beVal data, r)) := rfl
        have hrd : readN 2 (beBytes 2 bs.length ++ (bs ++ rest)) =
            .ok (beBytes 2 bs.length, bs ++ rest) :=
          readN_exact 2 _ _ (length_beBytes 2 _)
        rw [hsl, hrd]
        dsimp only
        rw [beVal_beBytes]
        have hm : bs.length % 2 ^ (8 * 2) = bs.length := by omega
        rw [hm, readN_exact bs.length bs rest rfl]
        dsimp only
        rw [if_pos hval]
      · rw [if_neg s3, if_pos hlen]
        refine ⟨_, rfl, fun fuel rest => ?_⟩
        simp only [List.cons_append, List.append_assoc]
        rw [mpload_dispatch_str noPackers o fuel 0xDB (beBytes 4 bs.length ++ (bs ++ rest))
          (Or.inr ⟨by omega, by omega⟩)]
        rw [unpack_string]
        have hsl : string_length 0xDB (beBytes 4 bs.length ++ (bs ++ rest)) =
            (match readN 4 (beBytes 4 bs.length ++ (bs ++ rest)) with
             | .error e => .error e
             | .ok (data, r) => .ok (beVal data, r)) := rfl
        have hrd : readN 4 (beBytes 4 bs.length ++ (bs ++ rest)) =
            .ok (beBytes 4 bs.length, bs ++ rest) :=
          readN_exact 4 _ _ (length_beBytes 4 _)
        rw [hsl, hrd]
        dsimp only
        rw [beVal_beBytes]
        have hm : bs.length % 2 ^ (8 * 4) = bs.length := by omega
        rw [hm, readN_exact bs.length bs rest rfl]
        dsimp only
        rw [if_pos hval]

/-- Decoding the encoding of a byte string. -/
theorem roundtrip_bin (o : Options) (bs : List Nat) (hlen : bs.length < 2 ^ 32) :
    ∃ out, pack_binary bs = .ok out ∧
      ∀ fuel rest, mpload noPackers o (fuel + 1) (out ++ rest) = .ok (MVal.bin bs, rest) := by
  simp only [pack_binary]
  by_cases s2 : bs.length < 2 ^ 8
  · rw [if_pos s2]
    refine ⟨_, rfl, fun fuel rest => ?_⟩
    simp only [List.cons_append, List.append_assoc]
    have hps : mpload noPackers o (fuel + 1) (0xC4 :: (beBytes 1 bs.length ++ (bs ++ rest))) =
        (match readN 1 (beBytes 1 bs.length ++ (bs ++ rest)) with
         | .error e => .error e
         | .ok (ld, bs1) =>
           match readN (beVal ld) bs1 with
           | .error e => .error e
           | .ok (data, r) => .ok (MVal.bin data, r)) := rfl
    have hrd : readN 1 (beBytes 1 bs.length ++ (bs ++ rest)) =
        .ok (beBytes 1 bs.length, bs ++ rest) :=
      readN_exact 1 _ _ (length_beBytes 1 _)
    rw [hps, hrd]
    dsimp only
    rw [beVal_beBytes]
    have hm : bs.length % 2 ^ (8 * 1) = bs.length := by omega
    rw [hm, readN_exact bs.length bs rest rfl]
  · rw [if_neg s2]
    by_cases s3 : bs.length < 2 ^ 16
    · rw [if_pos s3]
      refine ⟨_, rfl, fun fuel rest => ?_⟩
      simp only [List.cons_append, List.append_assoc]
      have hps : mpload noPackers o (fuel + 1) (0xC5 :: (beBytes 2 bs.length ++ (bs ++ rest))) =
          (match readN 2 (beBytes 2 bs.length ++ (bs ++ rest)) with
           | .error e => .error e
           | .ok (ld, bs1) =>
             match readN (beVal ld) bs1 with
             | .error e => .error e
             | .ok (data, r) => .ok (MVal.bin data, r)) := rfl
      have hrd : readN 2 (beBytes 2 bs.length ++ (bs ++ rest)) =
          .ok (beBytes 2 bs.length, bs ++ rest) :=
        readN_exact 2 _ _ (length_beBytes 2 _)
      rw [hps, hrd]
      dsimp only
      rw [beVal_beBytes]
      have hm : bs.length % 2 ^ (8 * 2) = bs.length := by omega
      rw [hm, readN_exact bs.length bs rest rfl]
    · rw [if_neg s3, if_pos hlen]
      refine ⟨_, rfl, fun fuel rest => ?_⟩
      simp only [List.cons_append, List.append_assoc]
      have hps : mpload noPackers o (fuel + 1) (0xC6 :: (beBytes 4 bs.length ++ (bs ++ rest))) =
          (match readN 4 (beBytes 4 bs.length ++ (bs ++ rest)) with
           | .error e => .error e
           | .ok (ld, bs1) =>
             match readN (beVal ld) bs1 with
             | .error e => .error e
             | .ok (data, r) => .ok (MVal.bin data, r)) := rfl
      have hrd : readN 4 (beBytes 4 bs.length ++ (bs ++ rest)) =
          .ok (beBytes 4 bs.length, bs ++ rest) :=
        readN_exact 4 _ _ (length_beBytes 4 _)
      rw [hps, hrd]
      dsimp only
      rw [beVal_beBytes]
      have hm : bs.length % 2 ^ (8 * 4) = bs.length := by omega
      rw [hm, readN_exact bs.length bs rest rfl]

/-- Exact float equality is reflexive away from NaN. -/
theorem fvalEq_refl : ∀ x, x ≠ FVal.nan → fvalEq x x = true := by
  intro x hx
  cases x with
  | rat n d => simp [fvalEq]
  | inf s => simp [fvalEq]
  | nan => exact absurd rfl hx

mutual

/-- Python == is reflexive on well-formed NaN-free values. -/
def pyEq_refl (o : Options) : ∀ v, wfVal o v = true → nanFree v = true → pyEq v v = true
  | MVal.nil, _, _ => rfl
  | MVal.bool b, _, _ => by cases b <;> rfl
  | MVal.int n, _, _ => by simp [pyEq, numVal, fvalEq]
  | MVal.f32 w, hwf, _ => by rw [wfVal] at hwf; exact Bool.noConfusion hwf
  | MVal.f64 w, _, hnan => by
    rw [nanFree] at hnan
    simp only [pyEq, numVal]
    cases hv : fval64 w with
    | rat n d => simp [fvalEq]
    | inf s => simp [fvalEq]
    | nan => rw [hv] at hnan; exact Bool.noConfusion hnan
  | MVal.str bs, _, _ => by simp [pyEq, numVal]
  | MVal.bin bs, _, _ => by simp [pyEq, numVal]
  | MVal.list xs, hwf, hnan => by
    rw [wfVal] at hwf
    rw [nanFree] at hnan
    simp only [Bool.and_eq_true] at hwf
    simp only [pyEq, numVal]
    exact pyEq_refl_list o xs hwf.2 hnan
  | MVal.tup xs, hwf, hnan => by
    rw [wfVal] at hwf
    rw [nanFree] at hnan
    simp only [Bool.and_eq_true] at hwf
    simp only [pyEq, numVal]
    exact pyEq_refl_list o xs hwf.2 hnan
  | MVal.map kvs, hwf, hnan => by
    rw [wfVal] at hwf
    rw [nanFree] at hnan
    simp only [Bool.and_eq_true] at hwf
    simp only [pyEq, numVal]
    exact pyEq_refl_kvs o kvs hwf.1.2 hwf.2 hnan
  | MVal.omap kvs, hwf, hnan => by
    rw [wfVal] at hwf
    rw [nanFree] at hnan
    simp only [Bool.and_eq_true] at hwf
    simp only [pyEq, numVal]
    exact pyEq_refl_kvs o kvs hwf.1.2 hwf.2 hnan
  | MVal.ext t d, hwf, _ => by rw [wfVal] at hwf; exact Bool.noConfusion hwf
  | MVal.extCoro t, hwf, _ => by rw [wfVal] at hwf; exact Bool.noConfusion hwf

/-- Elementwise reflexivity of Python == on well-formed NaN-free lists. -/
def pyEq_refl_list (o : Options) :
    ∀ xs, wfList o xs = true → nanFreeList xs = true → pyEqList xs xs = true
  | [], _, _ => rfl
  | x :: xs, hwf, hnan => by
    rw [wfList] at hwf
    rw [nanFreeList] at hnan
    simp only [Bool.and_eq_true] at hwf hnan
    rw [pyEqList, Bool.and_eq_true]
    exact ⟨pyEq_refl o x hwf.1 hnan.1, pyEq_refl_list o xs hwf.2 hnan.2⟩

/-- Entrywise reflexivity of Python == on well-formed NaN-free map
entries (keys compare through the key form of well-formedness). -/
def pyEq_refl_kvs (o : Options) :
    ∀ kvs, distinctKeys kvs = true → wfKVs o kvs = true → nanFreeKVs kvs = true →
      pyEqKVs kvs kvs = true
  | [], _, _, _ => rfl
  | (k, v) :: t, hdk, hwf, hnan => by
    rw [wfKVs] at hwf
    rw [nanFreeKVs] at hnan
    rw [distinctKeys] at hdk
    simp only [Bool.and_eq_true] at hwf hnan hdk
    rw [pyEqKVs, Bool.and_eq_true, Bool.and_eq_true]
    exact ⟨⟨pyEq_refl_key o k hwf.1.1 hnan.1.1, pyEq_refl o v hwf.1.2 hnan.1.2⟩,
      pyEq_refl_kvs o t hdk.2 hwf.2 hnan.2⟩

/-- Python == is reflexive on well-formed NaN-free map keys. -/
def pyEq_refl_key (o : Options) : ∀ k, wfKey o k = true → nanFree k = true → pyEq k k = true
  | MVal.nil, _, _ => rfl
  | MVal.bool b, _, _ => by cases b <;> rfl
  | MVal.int n, _, _ => by simp [pyEq, numVal, fvalEq]
  | MVal.f32 w, hwf, _ => by rw [wfKey] at hwf; exact Bool.noConfusion hwf
  | MVal.f64 w, _, hnan => by
    rw [nanFree] at hnan
    simp only [pyEq, numVal]
    cases hv : fval64 w with
    | rat n d => simp [fvalEq]
    | inf s => simp [fvalEq]
    | nan => rw [hv] at hnan; exact Bool.noConfusion hnan
  | MVal.str bs, _, _ => by simp [pyEq, numVal]
  | MVal.bin bs, _, _ => by simp [pyEq, numVal]
  | MVal.tup xs, hwf, hnan => by
    rw [wfKey] at hwf
    rw [nanFree] at hnan
    simp only [Bool.and_eq_true] at hwf
    simp only [pyEq, numVal]
    exact pyEq_refl_keylist o xs hwf.2 hnan
  | MVal.list xs, hwf, _ => by simp [wfKey] at hwf
  | MVal.map kvs, hwf, _ => by simp [wfKey] at hwf
  | MVal.omap kvs, hwf, _ => by simp [wfKey] at hwf
  | MVal.ext t d, hwf, _ => by simp [wfKey] at hwf
  | MVal.extCoro t, hwf, _ => by simp [wfKey] at hwf

/-- Elementwise reflexivity of Python == on well-formed NaN-free key
lists. -/
def pyEq_refl_keylist (o : Options) :
    ∀ xs, wfKeyList o xs = true → nanFreeList xs = true → pyEqList xs xs = true
  | [], _, _ => rfl
  | x :: xs, hwf, hnan => by
    rw [wfKeyList] at hwf
    rw [nanFreeList] at hnan
    simp only [Bool.and_eq_true] at hwf hnan
    rw [pyEqList, Bool.and_eq_true]
    exact ⟨pyEq_refl_key o x hwf.1 hnan.1, pyEq_refl_keylist o xs hwf.2 hnan.2⟩

end

mutual

/-- Every well-formed map key is hashable. -/
def wfKey_hashable (o : Options) : ∀ k, wfKey o k = true → isHashable k = true
  | MVal.nil, _ => rfl
  | MVal.bool _, _ => rfl
  | MVal.int _, _ => rfl
  | MVal.f32 _, _ => rfl
  | MVal.f64 _, _ => rfl
  | MVal.str _, _ => rfl
  | MVal.bin _, _ => rfl
  | MVal.tup xs, hwf => by
    rw [wfKey] at hwf
    simp only [Bool.and_eq_true] at hwf
    rw [isHashable]
    exact wfKey_hashable_list o xs hwf.2
  | MVal.list xs, hwf => by simp [wfKey] at hwf
  | MVal.map kvs, hwf => by simp [wfKey] at hwf
  | MVal.omap kvs, hwf => by simp [wfKey] at hwf
  | MVal.ext t d, hwf => by simp [wfKey] at hwf
  | MVal.extCoro t, hwf => by simp [wfKey] at hwf

/-- Elementwise hashability of well-formed key lists. -/
def wfKey_hashable_list (o : Options) :
    ∀ xs, wfKeyList o xs = true → isHashableList xs = true
  | [], _ => rfl
  | x :: xs, hwf => by
    rw [wfKeyList] at hwf
    simp only [Bool.and_eq_true] at hwf
    rw [isHashableList, Bool.and_eq_true]
    exact ⟨wfKey_hashable o x hwf.1, wfKey_hashable_list o xs hwf.2⟩

end

mutual

/-- Under use_tuple the decoder rebuilds tuple keys directly, so the
pre-conversion shape of a well-formed key is the key itself. -/
def listify_id (o : Options) (ht : o.use_tuple = true) :
    ∀ k, wfKey o k = true → listifyKey o k = k
  | MVal.nil, _ => rfl
  | MVal.bool _, _ => rfl
  | MVal.int _, _ => rfl
  | MVal.f32 _, _ => rfl
  | MVal.f64 _, _ => rfl
  | MVal.str _, _ => rfl
  | MVal.bin _, _ => rfl
  | MVal.list _, _ => rfl
  | MVal.map _, _ => rfl
  | MVal.omap _, _ => rfl
  | MVal.ext _ _, _ => rfl
  | MVal.extCoro _, _ => rfl
  | MVal.tup xs, hwf => by
    rw [wfKey] at hwf
    simp only [Bool.and_eq_true] at hwf
    rw [listifyKey, if_pos ht, listify_id_list o ht xs hwf.2]

/-- Elementwise listify_id. -/
def listify_id_list (o : Options) (ht : o.use_tuple = true) :
    ∀ xs, wfKeyList o xs = true → listifyKeyList o xs = xs
  | [], _ => rfl
  | x :: xs, hwf => by
    rw [wfKeyList] at hwf
    simp only [Bool.and_eq_true] at hwf
    rw [listifyKeyList, listify_id o ht x hwf.1, listify_id_list o ht xs hwf.2]

end

/-- A well-formed key is never a list, so the key conversion leaves it
unchanged when applied to the key itself. -/
theorem deep_id_of_wfKey (o : Options) (k : MVal) (hwf : wfKey o k = true) :
    deep_list_to_tuple k = k := by
  cases k with
  | list xs => simp [wfKey] at hwf
  | nil => rfl
  | bool b => rfl
  | int n => rfl
  | f32 w => rfl
  | f64 w => rfl
  | str bs => rfl
  | bin bs => rfl
  | tup xs => rfl
  | map kvs => rfl
  | omap kvs => rfl
  | ext t d => rfl
  | extCoro t => rfl

mutual

/-- The decoder's key conversion inverts the pre-conversion shape: applying
_deep_list_to_tuple to the decoded form of a well-formed key recovers the
key. -/
def key_roundtrip (o : Options) :
    ∀ k, wfKey o k = true → deep_list_to_tuple (listifyKey o k) = k
  | MVal.nil, _ => rfl
  | MVal.bool _, _ => rfl
  | MVal.int _, _ => rfl
  | MVal.f32 _, _ => rfl
  | MVal.f64 _, _ => rfl
  | MVal.str _, _ => rfl
  | MVal.bin _, _ => rfl
  | MVal.list xs, hwf => by simp [wfKey] at hwf
  | MVal.map kvs, hwf => by simp [wfKey] at hwf
  | MVal.omap kvs, hwf => by simp [wfKey] at hwf
  | MVal.ext t d, hwf => by simp [wfKey] at hwf
  | MVal.extCoro t, hwf => by simp [wfKey] at hwf
  | MVal.tup xs, hwf => by
    rw [listifyKey]
    by_cases ht : o.use_tuple = true
    · rw [if_pos ht]
      rw [wfKey] at hwf
      simp only [Bool.and_eq_true] at hwf
      rw [listify_id_list o ht xs hwf.2]
      rfl
    · rw [if_neg ht]
      rw [wfKey] at hwf
      simp only [Bool.and_eq_true] at hwf
      rw [deep_list_to_tuple, key_roundtrip_list o xs hwf.2]

/-- Elementwise key_roundtrip. -/
def key_roundtrip_list (o : Options) :
    ∀ xs, wfKeyList o xs = true →
      deepListToTupleList (listifyKeyList o xs) = xs
  | [], _ => rfl
  | x :: xs, hwf => by
    rw [wfKeyList] at hwf
    simp only [Bool.and_eq_true] at hwf
    rw [listifyKeyList, deepListToTupleList, key_roundtrip o x hwf.1,
      key_roundtrip_list o xs hwf.2]

end

/-- In a pairwise-distinct key sequence, the key of the first entry after a
prefix matches no key of the prefix. -/
theorem distinct_not_in : ∀ (d : List (MVal × MVal)) (k : MVal) (v : MVal)
    (t : List (MVal × MVal)), distinctKeys (d ++ (k, v) :: t) = true →
    d.any (fun p => pyEq k p.1) = false
  | [], _, _, _, _ => rfl
  | (k0, v0) :: d', k, v, t, h => by
    rw [List.cons_append, distinctKeys] at h
    simp only [Bool.and_eq_true, List.all_eq_true] at h
    have hmem : ((k, v) : MVal × MVal) ∈ d' ++ (k, v) :: t := by
      simp [List.mem_append]
    have hk0 := h.1 _ hmem
    simp only [Bool.and_eq_true, Bool.not_eq_true'] at hk0
    rw [List.any_cons]
    rw [hk0.2, distinct_not_in d' k v t h.2]
    rfl

/-- The array header is always produced below the 2^32 length bound. -/
theorem array_header_ok (L : Nat) (h : L < 2 ^ 32) : ∃ hd, array_header L = .ok hd := by
  rw [array_header]
  by_cases s1 : L < 16
  · rw [if_pos s1]; exact ⟨_, rfl⟩
  · rw [if_neg s1]
    by_cases s2 : L < 2 ^ 16
    · rw [if_pos s2]; exact ⟨_, rfl⟩
    · rw [if_neg s2, if_pos h]; exact ⟨_, rfl⟩

/-- The map header is always produced below the 2^32 length bound. -/
theorem map_header_ok (L : Nat) (h : L < 2 ^ 32) : ∃ hd, map_header L = .ok hd := by
  rw [map_header]
  by_cases s1 : L < 16
  · rw [if_pos s1]; exact ⟨_, rfl⟩
  · rw [if_neg s1]
    by_cases s2 : L < 2 ^ 16
    · rw [if_pos s2]; exact ⟨_, rfl⟩
    · rw [if_neg s2, if_pos h]; exact ⟨_, rfl⟩

/-- Decoding an encoded array: header, then the element loop's result,
delivered as tuple or list according to use_tuple. -/
theorem array_decode (o : Options) (f : Nat) (L : Nat) (body rest : List Nat)
    (xs' : List MVal) (hL : L < 2 ^ 32)
    (hgo : unpack_array_go (mpload noPackers o f) L [] (body ++ rest) = .ok (xs', rest)) :
    ∀ out, array_header L = .ok out →
      mpload noPackers o (f + 1) ((out ++ body) ++ rest)
        = .ok (if o.use_tuple then MVal.tup xs' else MVal.list xs', rest) := by
  intro out hout
  rw [array_header] at hout
  by_cases s1 : L < 16
  · rw [if_pos s1] at hout
    injection hout with h
    subst h
    simp only [List.cons_append, List.nil_append, List.append_assoc]
    rw [mpload_dispatch_array noPackers o f (0x90 + L) (body ++ rest)
      (Or.inl ⟨by omega, by omega⟩)]
    rw [unpack_array]
    have harr : array_length (0x90 + L) (body ++ rest) = .ok (L, body ++ rest) := by
      rw [array_length, if_pos (fixarr_bits L s1).1, (fixarr_bits L s1).2]
    rw [harr]
    dsimp only
    rw [hgo]
  · rw [if_neg s1] at hout
    by_cases s2 : L < 2 ^ 16
    · rw [if_pos s2] at hout
      injection hout with h
      subst h
      simp only [List.cons_append, List.append_assoc]
      rw [mpload_dispatch_array noPackers o f 0xDC (beBytes 2 L ++ (body ++ rest))
        (Or.inr (Or.inl rfl))]
      rw [unpack_array]
      have h1 : array_length 0xDC (beBytes 2 L ++ (body ++ rest)) =
          (match readN 2 (beBytes 2 L ++ (body ++ rest)) with
           | .error e => .error e
           | .ok (data, r) => .ok (beVal data, r)) := rfl
      have h2 : readN 2 (beBytes 2 L ++ (body ++ rest)) = .ok (beBytes 2 L, body ++ rest) :=
        readN_exact 2 _ _ (length_beBytes 2 _)
      rw [h1, h2]
      dsimp only
      rw [beVal_beBytes]
      have hm : L % 2 ^ (8 * 2) = L := by omega
      rw [hm, hgo]
    · rw [if_neg s2, if_pos hL] at hout
      injection hout with h
      subst h
      simp only [List.cons_append, List.append_assoc]
      rw [mpload_dispatch_array noPackers o f 0xDD (beBytes 4 L ++ (body ++ rest))
        (Or.inr (Or.inr rfl))]
      rw [unpack_array]
      have h1 : array_length 0xDD (beBytes 4 L ++ (body ++ rest)) =
          (match readN 4 (beBytes 4 L ++ (body ++ rest)) with
           | .error e => .error e
           | .ok (data, r) => .ok (beVal data, r)) := rfl
      have h2 : readN 4 (beBytes 4 L ++ (body ++ rest)) = .ok (beBytes 4 L, body ++ rest) :=
        readN_exact 4 _ _ (length_beBytes 4 _)
      rw [h1, h2]
      dsimp only
      rw [beVal_beBytes]
      have hm : L % 2 ^ (8 * 4) = L := by omega
      rw [hm, hgo]

/-- Decoding an encoded map: header, then the entry loop's result, delivered
as dict or OrderedDict according to use_ordered_dict. -/
theorem map_decode (o : Options) (f : Nat) (L : Nat) (body rest : List Nat)
    (d' : List (MVal × MVal)) (hL : L < 2 ^ 32)
    (hgo : unpack_map_go (mpload noPackers o f) L [] (body ++ rest) = .ok (d', rest)) :
    ∀ out, map_header L = .ok out →
      mpload noPackers o (f + 1) ((out ++ body) ++ rest)
        = .ok (if o.use_ordered_dict then MVal.omap d' else MVal.map d', rest) := by
  intro out hout
  rw [map_header] at hout
  by_cases s1 : L < 16
  · rw [if_pos s1] at hout
    injection hout with h
    subst h
    simp only [List.cons_append, List.nil_append, List.append_assoc]
    rw [mpload_dispatch_map noPackers o f (0x80 + L) (body ++ rest)
      (Or.inl ⟨by omega, by omega⟩)]
    rw [unpack_map]
    have hml : map_length (0x80 + L) (body ++ rest) = .ok (L, body ++ rest) := by
      rw [map_length, if_pos (fixmap_bits L s1).1, (fixmap_bits L s1).2]
    rw [hml]
    dsimp only
    rw [hgo]
  · rw [if_neg s1] at hout
    by_cases s2 : L < 2 ^ 16
    · rw [if_pos s2] at hout
      injection hout with h
      subst h
      simp only [List.cons_append, List.append_assoc]
      rw [mpload_dispatch_map noPackers o f 0xDE (beBytes 2 L ++ (body ++ rest))
        (Or.inr (Or.inl rfl))]
      rw [unpack_map]
      have h1 : map_length 0xDE (beBytes 2 L ++ (body ++ rest)) =
          (match readN 2 (beBytes 2 L ++ (body ++ rest)) with
           | .error e => .error e
           | .ok (data, r) => .ok (beVal data, r)) := rfl
      have h2 : readN 2 (beBytes 2 L ++ (body ++ rest)) = .ok (beBytes 2 L, body ++ rest) :=
        readN_exact 2 _ _ (length_beBytes 2 _)
      rw [h1, h2]
      dsimp only
      rw [beVal_beBytes]
      have hm : L % 2 ^ (8 * 2) = L := by omega
      rw [hm, hgo]
    · rw [if_neg s2, if_pos hL] at hout
      injection hout with h
      subst h
      simp only [List.cons_append, List.append_assoc]
      rw [mpload_dispatch_map noPackers o f 0xDF (beBytes 4 L ++ (body ++ rest))
        (Or.inr (Or.inr rfl))]
      rw [unpack_map]
      have h1 : map_length 0xDF (beBytes 4 L ++ (body ++ rest)) =
          (match readN 4 (beBytes 4 L ++ (body ++ rest)) with
           | .error e => .error e
           | .ok (data, r) => .ok (beVal data, r)) := rfl
      have h2 : readN 4 (beBytes 4 L ++ (body ++ rest)) = .ok (beBytes 4 L, body ++ rest) :=
        readN_exact 4 _ _ (length_beBytes 4 _)
      rw [h1, h2]
      dsimp only
      rw [beVal_beBytes]
      have hm : L % 2 ^ (8 * 4) = L := by omega
      rw [hm, hgo]

mutual

/-- Round trip for well-formed values: the encode succeeds, and the decode
of the encoding (with any trailing bytes, any sufficient fuel) returns the
value and the trailing bytes. -/
def mp_roundtrip (o : Options) : ∀ v, wfVal o v = true →
    ∃ out, mpdump o v = .ok out ∧
      ∀ fuel rest, msize v ≤ fuel →
        mpload noPackers o fuel (out ++ rest) = .ok (v, rest)
  | MVal.nil, _ => by
    refine ⟨[0xC0], rfl, fun fuel rest hf => ?_⟩
    cases fuel with
    | zero => exact absurd hf (by simp [msize])
    | succ f => exact roundtrip_nil o f rest
  | MVal.bool b, _ => by
    refine ⟨pack_boolean b, rfl, fun fuel rest hf => ?_⟩
    cases fuel with
    | zero => exact absurd hf (by simp [msize])
    | succ f => exact roundtrip_bool o b f rest
  | MVal.int n, hwf => by
    simp only [wfVal, decide_eq_true_eq] at hwf
    obtain ⟨out, hd, hl⟩ := roundtrip_int o n hwf.1 hwf.2
    refine ⟨out, by rw [mpdump]; exact hd, fun fuel rest hf => ?_⟩
    cases fuel with
    | zero => exact absurd hf (by simp [msize])
    | succ f => exact hl f rest
  | MVal.f32 w, hwf => by simp [wfVal] at hwf
  | MVal.f64 w, hwf => by
    simp only [wfVal, Bool.and_eq_true, decide_eq_true_eq] at hwf
    obtain ⟨out, hd, hl⟩ := roundtrip_float o w hwf.1 hwf.2
    refine ⟨out, by rw [mpdump]; exact hd, fun fuel rest hf => ?_⟩
    cases fuel with
    | zero => exact absurd hf (by simp [msize])
    | succ f => exact hl f rest
  | MVal.str bs, hwf => by
    simp only [wfVal, Bool.and_eq_true, decide_eq_true_eq] at hwf
    obtain ⟨out, hd, hl⟩ := roundtrip_str o bs hwf.1 hwf.2
    refine ⟨out, by rw [mpdump]; exact hd, fun fuel rest hf => ?_⟩
    cases fuel with
    | zero => exact absurd hf (by simp [msize])
    | succ f => exact hl f rest
  | MVal.bin bs, hwf => by
    simp only [wfVal, decide_eq_true_eq] at hwf
    obtain ⟨out, hd, hl⟩ := roundtrip_bin o bs hwf
    refine ⟨out, by rw [mpdump]; exact hd, fun fuel rest hf => ?_⟩
    cases fuel with
    | zero => exact absurd hf (by simp [msize])
    | succ f => exact hl f rest
  | MVal.list xs, hwf => by
    simp only [wfVal, Bool.and_eq_true, Bool.not_eq_true', decide_eq_true_eq] at hwf
    obtain ⟨⟨htup, hlen⟩, hlist⟩ := hwf
    obtain ⟨body, hdb, hlb⟩ := mp_roundtrip_list o xs hlist
    obtain ⟨hd, hhd⟩ := array_header_ok xs.length hlen
    refine ⟨hd ++ body, ?_, fun fuel rest hf => ?_⟩
    · rw [mpdump, hhd, hdb]
    · cases fuel with
      | zero => exact absurd hf (by simp [msize])
      | succ f =>
        have hf' : msizeList xs ≤ f := by simp only [msize] at hf; omega
        have hdec := array_decode o f xs.length body rest xs hlen
          (hlb f rest [] hf') hd hhd
        have hcond : ¬ o.use_tuple = true := by simp [htup]
        rw [hdec, if_neg hcond]
  | MVal.tup xs, hwf => by
    simp only [wfVal, Bool.and_eq_true, decide_eq_true_eq] at hwf
    obtain ⟨⟨htup, hlen⟩, hlist⟩ := hwf
    obtain ⟨body, hdb, hlb⟩ := mp_roundtrip_list o xs hlist
    obtain ⟨hd, hhd⟩ := array_header_ok xs.length hlen
    refine ⟨hd ++ body, ?_, fun fuel rest hf => ?_⟩
    · rw [mpdump, hhd, hdb]
    · cases fuel with
      | zero => exact absurd hf (by simp [msize])
      | succ f =>
        have hf' : msizeList xs ≤ f := by simp only [msize] at hf; omega
        have hdec := array_decode o f xs.length body rest xs hlen
          (hlb f rest [] hf') hd hhd
        rw [hdec, if_pos htup]
  | MVal.map kvs, hwf => by
    simp only [wfVal, Bool.and_eq_true, Bool.not_eq_true', decide_eq_true_eq] at hwf
    obtain ⟨⟨⟨hod, hlen⟩, hdk⟩, hkvs⟩ := hwf
    obtain ⟨body, hdb, hlb⟩ := mp_roundtrip_kvs o kvs hkvs
    obtain ⟨hd, hhd⟩ := map_header_ok kvs.length hlen
    refine ⟨hd ++ body, ?_, fun fuel rest hf => ?_⟩
    · rw [mpdump, hhd, hdb]
    · cases fuel with
      | zero => exact absurd hf (by simp [msize])
      | succ f =>
        have hf' : msizeKVs kvs ≤ f := by simp only [msize] at hf; omega
        have hdec := map_decode o f kvs.length body rest kvs hlen
          (hlb f rest [] hf' hdk) hd hhd
        have hcond : ¬ o.use_ordered_dict = true := by simp [hod]
        rw [hdec, if_neg hcond]
  | MVal.omap kvs, hwf => by
    simp only [wfVal, Bool.and_eq_true, decide_eq_true_eq] at hwf
    obtain ⟨⟨⟨hod, hlen⟩, hdk⟩, hkvs⟩ := hwf
    obtain ⟨body, hdb, hlb⟩ := mp_roundtrip_kvs o kvs hkvs
    obtain ⟨hd, hhd⟩ := map_header_ok kvs.length hlen
    refine ⟨hd ++ body, ?_, fun fuel rest hf => ?_⟩
    · rw [mpdump, hhd, hdb]
    · cases fuel with
      | zero => exact absurd hf (by simp [msize])
      | succ f =>
        have hf' : msizeKVs kvs ≤ f := by simp only [msize] at hf; omega
        have hdec := map_decode o f kvs.length body rest kvs hlen
          (hlb f rest [] hf' hdk) hd hhd
        rw [hdec, if_pos hod]
  | MVal.ext t d, hwf => by simp [wfVal] at hwf
  | MVal.extCoro t, hwf => by simp [wfVal] at hwf

/-- Round trip for array bodies: the elementwise encode succeeds, and the
element loop decodes the elements in order onto any accumulator. -/
def mp_roundtrip_list (o : Options) : ∀ xs, wfList o xs = true →
    ∃ out, mpdumpList o xs = .ok out ∧
      ∀ fuel rest acc, msizeList xs ≤ fuel →
        unpack_array_go (mpload noPackers o fuel) xs.length acc (out ++ rest)
          = .ok (acc ++ xs, rest)
  | [], _ => by
    refine ⟨[], rfl, fun fuel rest acc _ => ?_⟩
    simp [unpack_array_go]
  | x :: xs, hwf => by
    rw [wfList] at hwf
    simp only [Bool.and_eq_true] at hwf
    obtain ⟨bx, hdx, hlx⟩ := mp_roundtrip o x hwf.1
    obtain ⟨bxs, hdxs, hlxs⟩ := mp_roundtrip_list o xs hwf.2
    refine ⟨bx ++ bxs, ?_, fun fuel rest acc hf => ?_⟩
    · rw [mpdumpList, hdx, hdxs]
    · have h1 : msize x ≤ fuel := by simp only [msizeList] at hf; omega
      have h2 : msizeList xs ≤ fuel := by simp only [msizeList] at hf; omega
      rw [List.length_cons, unpack_array_go, List.append_assoc]
      rw [hlx fuel (bxs ++ rest) h1]
      dsimp only
      rw [hlxs fuel rest (acc ++ [x]) h2]
      have he : (acc ++ [x]) ++ xs = acc ++ x :: xs := by simp
      rw [he]

/-- Round trip for map bodies: the key/value encode succeeds, and the entry
loop decodes the entries in order onto any accumulator whose keys stay
pairwise distinct from the remaining ones. -/
def mp_roundtrip_kvs (o : Options) : ∀ kvs, wfKVs o kvs = true →
    ∃ out, mpdumpKVs o kvs = .ok out ∧
      ∀ fuel rest d, msizeKVs kvs ≤ fuel →
        distinctKeys (d ++ kvs) = true →
        unpack_map_go (mpload noPackers o fuel) kvs.length d (out ++ rest)
          = .ok (d ++ kvs, rest)
  | [], _ => by
    refine ⟨[], rfl, fun fuel rest d _ _ => ?_⟩
    simp [unpack_map_go]
  | (k, v) :: t, hwf => by
    rw [wfKVs] at hwf
    simp only [Bool.and_eq_true] at hwf
    obtain ⟨⟨hk, hv⟩, ht⟩ := hwf
    obtain ⟨bk, hdk, hlk⟩ := mp_roundtrip_key o k hk
    obtain ⟨bv, hdv, hlv⟩ := mp_roundtrip o v hv
    obtain ⟨bt, hdt, hlt⟩ := mp_roundtrip_kvs o t ht
    refine ⟨bk ++ bv ++ bt, ?_, fun fuel rest d hf hdist => ?_⟩
    · rw [mpdumpKVs, hdk, hdv, hdt]
    · have h1 : msize k ≤ fuel := by simp only [msizeKVs] at hf; omega
      have h2 : msize v ≤ fuel := by simp only [msizeKVs] at hf; omega
      have h3 : msizeKVs t ≤ fuel := by simp only [msizeKVs] at hf; omega
      rw [List.length_cons, unpack_map_go]
      simp only [List.append_assoc]
      rw [hlk fuel (bv ++ (bt ++ rest)) h1]
      dsimp only
      rw [key_roundtrip o k hk]
      rw [wfKey_hashable o k hk]
      have hc1 : ¬ (true = false) := by simp
      rw [if_neg hc1]
      rw [distinct_not_in d k v t hdist]
      have hc2 : ¬ (false = true) := by simp
      rw [if_neg hc2]
      rw [hlv fuel (bt ++ rest) h2]
      dsimp only
      have he : (d ++ [(k, v)]) ++ t = d ++ (k, v) :: t := by simp
      have hdist' : distinctKeys ((d ++ [(k, v)]) ++ t) = true := by
        rw [he]; exact hdist
      rw [hlt fuel rest (d ++ [(k, v)]) h3 hdist']
      rw [he]

/-- Round trip for map keys: the encode succeeds, and the decode returns
the key's pre-conversion shape (tuples decode as lists unless use_tuple). -/
def mp_roundtrip_key (o : Options) : ∀ k, wfKey o k = true →
    ∃ out, mpdump o k = .ok out ∧
      ∀ fuel rest, msize k ≤ fuel →
        mpload noPackers o fuel (out ++ rest) = .ok (listifyKey o k, rest)
  | MVal.nil, _ => by
    refine ⟨[0xC0], rfl, fun fuel rest hf => ?_⟩
    cases fuel with
    | zero => exact absurd hf (by simp [msize])
    | succ f => exact roundtrip_nil o f rest
  | MVal.bool b, _ => by
    refine ⟨pack_boolean b, rfl, fun fuel rest hf => ?_⟩
    cases fuel with
    | zero => exact absurd hf (by simp [msize])
    | succ f => exact roundtrip_bool o b f rest
  | MVal.int n, hwf => by
    rw [wfKey] at hwf
    simp only [decide_eq_true_eq] at hwf
    obtain ⟨out, hd, hl⟩ := roundtrip_int o n hwf.1 hwf.2
    refine ⟨out, by rw [mpdump]; exact hd, fun fuel rest hf => ?_⟩
    cases fuel with
    | zero => exact absurd hf (by simp [msize])
    | succ f => exact hl f rest
  | MVal.f32 w, hwf => by simp [wfKey] at hwf
  | MVal.f64 w, hwf => by
    rw [wfKey] at hwf
    simp only [Bool.and_eq_true, decide_eq_true_eq] at hwf
    obtain ⟨out, hd, hl⟩ := roundtrip_float o w hwf.1 hwf.2
    refine ⟨out, by rw [mpdump]; exact hd, fun fuel rest hf => ?_⟩
    cases fuel with
    | zero => exact absurd hf (by simp [msize])
    | succ f => exact hl f rest
  | MVal.str bs, hwf => by
    rw [wfKey] at hwf
    simp only [Bool.and_eq_true, decide_eq_true_eq] at hwf
    obtain ⟨out, hd, hl⟩ := roundtrip_str o bs hwf.1 hwf.2
    refine ⟨out, by rw [mpdump]; exact hd, fun fuel rest hf => ?_⟩
    cases fuel with
    | zero => exact absurd hf (by simp [msize])
    | succ f => exact hl f rest
  | MVal.bin bs, hwf => by
    rw [wfKey] at hwf
    simp only [decide_eq_true_eq] at hwf
    obtain ⟨out, hd, hl⟩ := roundtrip_bin o bs hwf
    refine ⟨out, by rw [mpdump]; exact hd, fun fuel rest hf => ?_⟩
    cases fuel with
    | zero => exact absurd hf (by simp [msize])
    | succ f => exact hl f rest
  | MVal.tup xs, hwf => by
    rw [wfKey] at hwf
    simp only [Bool.and_eq_true, decide_eq_true_eq] at hwf
    obtain ⟨hlen, hkl⟩ := hwf
    obtain ⟨body, hdb, hlb⟩ := mp_roundtrip_keylist o xs hkl
    obtain ⟨hd, hhd⟩ := array_header_ok xs.length hlen
    refine ⟨hd ++ body, ?_, fun fuel rest hf => ?_⟩
    · rw [mpdump, hhd, hdb]
    · cases fuel with
      | zero => exact absurd hf (by simp [msize])
      | succ f =>
        have hf' : msizeList xs ≤ f := by simp only [msize] at hf; omega
        have hdec := array_decode o f xs.length body rest (listifyKeyList o xs) hlen
          (hlb f rest [] hf') hd hhd
        rw [hdec, listifyKey]
  | MVal.list xs, hwf => by simp [wfKey] at hwf
  | MVal.map kvs, hwf => by simp [wfKey] at hwf
  | MVal.omap kvs, hwf => by simp [wfKey] at hwf
  | MVal.ext t d, hwf => by simp [wfKey] at hwf
  | MVal.extCoro t, hwf => by simp [wfKey] at hwf

/-- Round trip for tuple-key bodies: the element loop decodes onto any
accumulator, delivering the pre-conversion element shapes. -/
def mp_roundtrip_keylist (o : Options) : ∀ xs, wfKeyList o xs = true →
    ∃ out, mpdumpList o xs = .ok out ∧
      ∀ fuel rest acc, msizeList xs ≤ fuel →
        unpack_array_go (mpload noPackers o fuel) xs.length acc (out ++ rest)
          = .ok (acc ++ listifyKeyList o xs, rest)
  | [], _ => by
    refine ⟨[], rfl, fun fuel rest acc _ => ?_⟩
    simp [unpack_array_go, listifyKeyList]
  | x :: xs, hwf => by
    rw [wfKeyList] at hwf
    simp only [Bool.and_eq_true] at hwf
    obtain ⟨bx, hdx, hlx⟩ := mp_roundtrip_key o x hwf.1
    obtain ⟨bxs, hdxs, hlxs⟩ := mp_roundtrip_keylist o xs hwf.2
    refine ⟨bx ++ bxs, ?_, fun fuel rest acc hf => ?_⟩
    · rw [mpdumpList, hdx, hdxs]
    · have h1 : msize x ≤ fuel := by simp only [msizeList] at hf; omega
      have h2 : msizeList xs ≤ fuel := by simp only [msizeList] at hf; omega
      rw [List.length_cons, unpack_array_go, List.append_assoc]
      rw [hlx fuel (bxs ++ rest) h1]
      dsimp only
      rw [hlxs fuel rest (acc ++ [listifyKey o x]) h2]
      rw [listifyKeyList]
      have he : (acc ++ [listifyKey o x]) ++ listifyKeyList o xs
          = acc ++ listifyKey o x :: listifyKeyList o xs := by simp
      rw [he]

end

/-- C3 (amended): for every NaN-free value of the native closed set —
None, booleans, 64-bit-range ints, doubles, UTF-8 strings, bytes, lists
and maps with distinct hashable keys, nested arbitrarily, with container
kinds matching the options — the encode succeeds and
loads(dumps(v)) == v: the decode of the encoding consumes it fully and
returns a value Python == accepts as equal.  The NaN-free restriction is
necessary (see the counterexample): a NaN round-trips to the identical bit
pattern, but Python == rejects NaN == NaN. -/
theorem C3_round_trip (o : Options) (v : MVal) (fuel : Nat)
    (hwf : wfVal o v = true) (hnan : nanFree v = true) (hfuel : msize v ≤ fuel) :
    ∃ out w, mpdump o v = .ok out ∧
      mpload noPackers o fuel out = .ok (w, []) ∧ pyEq w v = true := by
  obtain ⟨out, hd, hl⟩ := mp_roundtrip o v hwf
  refine ⟨out, v, hd, ?_, pyEq_refl o v hwf hnan⟩
  have h := hl fuel [] hfuel
  rwa [List.append_nil] at h

/-- Witness for C3: the list [1, None] encodes to 92 01 C0, decodes back
within fuel 3, and compares Python-equal. -/
theorem C3_witness :
    (wfVal defaultOpts (MVal.list [MVal.int 1, MVal.nil]) = true ∧
     nanFree (MVal.list [MVal.int 1, MVal.nil]) = true ∧
     msize (MVal.list [MVal.int 1, MVal.nil]) ≤ 3) ∧
    (∃ out w, mpdump defaultOpts (MVal.list [MVal.int 1, MVal.nil]) = .ok out ∧
      mpload noPackers defaultOpts 3 out = .ok (w, []) ∧
      pyEq w (MVal.list [MVal.int 1, MVal.nil]) = true) :=
  ⟨⟨by decide, by decide, by decide⟩,
    C3_round_trip defaultOpts (MVal.list [MVal.int 1, MVal.nil]) 3
      (by decide) (by decide) (by decide)⟩

/-- Counterexample to C3 as stated: the quiet NaN double is in the native
closed set and round-trips to the identical bit pattern, but Python ==
rejects the result, because NaN == NaN is False. -/
theorem C3_counterexample :
    wfVal defaultOpts (MVal.f64 0x7FF8000000000000) = true ∧
    mpdump defaultOpts (MVal.f64 0x7FF8000000000000)
      = .ok [0xCB, 0x7F, 0xF8, 0x00, 0x00, 0x00, 0x00, 0x00, 0x00] ∧
    mpload noPackers defaultOpts 1 [0xCB, 0x7F, 0xF8, 0x00, 0x00, 0x00, 0x00, 0x00, 0x00]
      = .ok (MVal.f64 0x7FF8000000000000, []) ∧
    pyEq (MVal.f64 0x7FF8000000000000) (MVal.f64 0x7FF8000000000000) = false :=
  ⟨by decide, by decide, by decide, by decide⟩
